import Mathlib

/-!
# Verification of the reth RocksDB dupsort adaptation layer

This development embeds the cursor / transaction logic of
`crates/storage/db/src/implementation/reth_rocksdb` (cursor.rs, tx.rs, dups.rs)
into Lean and proves the specified properties of `upsert`, `insert`, `append`,
`next`, `prev`, `next_dup`, `seek_by_key_subkey`, `delete_current`, `walk` and
`Transaction::delete`.

The underlying store is the flat, byte-ordered, single-value-per-key engine
described in the spec: a sorted map from raw byte keys to compressed values,
with a raw iterator supporting seek / seek-for-previous / next / previous over
byte-lexicographic order.  We model raw byte keys abstractly: a physical key of
a dupsort table is `encode(primary) ‖ encode(subkey) ‖ tie-breaker`, a physical
key of a plain table is `encode(primary)`, and seek targets may be proper
prefixes (primary only, or primary ‖ subkey).  Since the per-field encodings
are fixed-width and order-preserving (spec §4.1), byte-lexicographic order on
these strings is exactly the lexicographic order on the field tuples, with a
proper prefix ordered before its extensions; `RawKey` below captures the three
possible shapes and `RawKey.klt` that order.
-/

/-- Tie-breaker suffix of a composite key.  Modelled from the spec (§3):
a fixed-width suffix whose reserved values are *zero* (`fin 0`, the lowest),
*max* (`top`, a sentinel above all ties actually stored) and
*increment(x)* (`fin (x+1)`). -/
inductive Tie where
  | fin (n : Nat)
  | top
deriving DecidableEq, Repr

/-- A raw (physical) byte key of the underlying store, or a seek target.
`p1 k` is `encode(primary)` alone, `p2 k s` is `encode(primary) ‖ encode(sub)`,
`p3 k s t` is the full composite key `encode(primary) ‖ encode(sub) ‖ tie`. -/
inductive RawKey where
  | p1 (k : Nat)
  | p2 (k : Nat) (s : Nat)
  | p3 (k : Nat) (s : Nat) (t : Tie)
deriving DecidableEq, Repr

namespace Tie

/-- Rank of a tie-breaker used to define the byte order: `fin n ↦ (1, n)`,
`top ↦ (2, 0)`, so `fin m < fin n ↔ m < n` and every `fin n < top`. -/
def enc2 : Tie → Nat × Nat
  | .fin n => (1, n)
  | .top => (2, 0)

end Tie

namespace RawKey

/-- Rank of a raw key in the byte-lexicographic order: absent fields rank `0`,
a present sub-key `s` ranks `s+1`, a present tie ranks by `Tie.enc2`.  A proper
prefix therefore sorts strictly before all of its extensions, as byte strings
do. -/
def enc : RawKey → Nat × Nat × Nat × Nat
  | .p1 k => (k, 0, 0, 0)
  | .p2 k s => (k, s + 1, 0, 0)
  | .p3 k s t => (k, s + 1, (Tie.enc2 t).1, (Tie.enc2 t).2)

/-- Lexicographic strict order on rank quadruples. -/
def lex4 (a b : Nat × Nat × Nat × Nat) : Prop :=
  a.1 < b.1 ∨ (a.1 = b.1 ∧ (a.2.1 < b.2.1 ∨ (a.2.1 = b.2.1 ∧
    (a.2.2.1 < b.2.2.1 ∨ (a.2.2.1 = b.2.2.1 ∧ a.2.2.2 < b.2.2.2)))))

instance lex4.decidable (a b : Nat × Nat × Nat × Nat) : Decidable (lex4 a b) := by
  unfold lex4; infer_instance

/-- Byte-lexicographic strict order on raw keys. -/
def klt (a b : RawKey) : Prop := lex4 a.enc b.enc

/-- Byte-lexicographic order on raw keys (reflexive). -/
def kle (a b : RawKey) : Prop := klt a b ∨ a = b

instance klt.decidable (a b : RawKey) : Decidable (klt a b) := by
  unfold klt; infer_instance

instance kle.decidable (a b : RawKey) : Decidable (kle a b) := by
  unfold kle; infer_instance

theorem enc2_pos (t : Tie) : 1 ≤ (Tie.enc2 t).1 := by
  cases t <;> simp [Tie.enc2]

theorem enc2_inj {t t' : Tie} (h1 : (Tie.enc2 t).1 = (Tie.enc2 t').1)
    (h2 : (Tie.enc2 t).2 = (Tie.enc2 t').2) : t = t' := by
  cases t <;> cases t' <;> simp_all [Tie.enc2]

theorem enc_inj : ∀ {a b : RawKey}, a.enc = b.enc → a = b := by
  intro a b h
  cases a <;> cases b <;>
    simp only [enc, Prod.mk.injEq] at h <;>
    try simp only [RawKey.p1.injEq, RawKey.p2.injEq, RawKey.p3.injEq]
  case p1.p1 => omega
  case p1.p2 => omega
  case p1.p3 =>
    rename_i t
    have := enc2_pos t
    omega
  case p2.p1 => omega
  case p2.p2 => omega
  case p2.p3 =>
    rename_i t
    have := enc2_pos t
    omega
  case p3.p1 =>
    rename_i t _
    have := enc2_pos t
    omega
  case p3.p2 =>
    rename_i t _ _
    have := enc2_pos t
    omega
  case p3.p3 =>
    rename_i t t'
    refine ⟨by omega, by omega, enc2_inj ?_ ?_⟩ <;> omega

theorem lex4_trans {a b c : Nat × Nat × Nat × Nat}
    (h₁ : lex4 a b) (h₂ : lex4 b c) : lex4 a c := by
  unfold lex4 at *; omega

theorem lex4_irrefl (a : Nat × Nat × Nat × Nat) : ¬ lex4 a a := by
  unfold lex4; omega

theorem lex4_total (a b : Nat × Nat × Nat × Nat) :
    lex4 a b ∨ a = b ∨ lex4 b a := by
  rcases a with ⟨a1, a2, a3, a4⟩
  rcases b with ⟨b1, b2, b3, b4⟩
  simp only [lex4, Prod.mk.injEq]
  omega

theorem klt_trans {a b c : RawKey} (h₁ : klt a b) (h₂ : klt b c) : klt a c :=
  lex4_trans h₁ h₂

theorem klt_irrefl (a : RawKey) : ¬ klt a a := lex4_irrefl a.enc

theorem klt_asymm {a b : RawKey} (h : klt a b) : ¬ klt b a := by
  intro h'
  exact klt_irrefl a (klt_trans h h')

theorem klt_total (a b : RawKey) : klt a b ∨ a = b ∨ klt b a := by
  rcases lex4_total a.enc b.enc with h | h | h
  · exact Or.inl h
  · exact Or.inr (Or.inl (enc_inj h))
  · exact Or.inr (Or.inr h)

theorem klt_ne {a b : RawKey} (h : klt a b) : a ≠ b := by
  rintro rfl
  exact klt_irrefl a h

theorem kle_refl (a : RawKey) : kle a a := Or.inr rfl

theorem kle_trans {a b c : RawKey} (h₁ : kle a b) (h₂ : kle b c) : kle a c := by
  rcases h₁ with h₁ | rfl
  · rcases h₂ with h₂ | rfl
    · exact Or.inl (klt_trans h₁ h₂)
    · exact Or.inl h₁
  · exact h₂

theorem klt_of_klt_of_kle {a b c : RawKey} (h₁ : klt a b) (h₂ : kle b c) :
    klt a c := by
  rcases h₂ with h₂ | rfl
  · exact klt_trans h₁ h₂
  · exact h₁

theorem klt_of_kle_of_klt {a b c : RawKey} (h₁ : kle a b) (h₂ : klt b c) :
    klt a c := by
  rcases h₁ with h₁ | rfl
  · exact klt_trans h₁ h₂
  · exact h₂

theorem kle_antisymm {a b : RawKey} (h₁ : kle a b) (h₂ : kle b a) : a = b := by
  rcases h₁ with h₁ | rfl
  · rcases h₂ with h₂ | rfl
    · exact absurd h₂ (klt_asymm h₁)
    · rfl
  · rfl

theorem not_klt_iff_kle {a b : RawKey} : ¬ klt a b ↔ kle b a := by
  constructor
  · intro h
    rcases klt_total a b with h' | rfl | h'
    · exact absurd h' h
    · exact kle_refl _
    · exact Or.inl h'
  · intro h h'
    rcases h with h | rfl
    · exact klt_asymm h h'
    · exact klt_irrefl _ h'

theorem not_kle_iff_klt {a b : RawKey} : ¬ kle a b ↔ klt b a := by
  constructor
  · intro h
    rcases klt_total b a with h' | rfl | h'
    · exact h'
    · exact absurd (kle_refl _) h
    · exact absurd (Or.inl h') h
  · intro h h'
    exact (not_klt_iff_kle.mpr h') h

/-- The primary key encoded into a raw key (what `T::unformat_key` recovers,
dups.rs: the fixed-width prefix is decoded back to the primary key). -/
def primaryOf : RawKey → Nat
  | .p1 k => k
  | .p2 k _ => k
  | .p3 k _ _ => k

theorem primaryOf_le_of_klt {a b : RawKey} (h : klt a b) :
    primaryOf a ≤ primaryOf b := by
  cases a <;> cases b <;>
    simp only [klt, lex4, enc, primaryOf] at * <;> omega

theorem klt_of_primary_lt {a b : RawKey} (h : primaryOf a < primaryOf b) :
    klt a b := by
  cases a <;> cases b <;> simp only [klt, lex4, enc, primaryOf] at * <;> omega

end RawKey

/-! ## Values, the underlying store, and the raw iterator -/

/-- A (decompressed) logical value of a table.  For the dupsort tables of
dups.rs the value is a record whose first field is the sub-key (e.g.
`StorageEntry { key, value }`), so we model a value as the pair
`(subkey, payload)`; its compressed byte image is ordered lexicographically,
first by the sub-key bytes, then by the payload bytes. -/
abbrev Val := Nat × Nat

/-- `subkey_of(value)` (spec §3; dups.rs passes `v.key` / `v.address` /
`v.nibbles`, the first field of the value, as the sub-key). -/
def subkeyOf (v : Val) : Nat := v.1

/-- `value.compress()`.  Compression is modelled as the identity; comparisons
of compressed byte strings below are comparisons of the values themselves. -/
def compress (v : Val) : Val := v

/-- Byte order of compressed values: lexicographic on (subkey, payload). -/
def vlt (a b : Val) : Prop := a.1 < b.1 ∨ (a.1 = b.1 ∧ a.2 < b.2)

instance vlt.decidable (a b : Val) : Decidable (vlt a b) := by
  unfold vlt; infer_instance

theorem vlt_irrefl (a : Val) : ¬ vlt a a := by unfold vlt; omega

theorem vlt_trans {a b c : Val} (h₁ : vlt a b) (h₂ : vlt b c) : vlt a c := by
  unfold vlt at *; omega

theorem vlt_total (a b : Val) : vlt a b ∨ a = b ∨ vlt b a := by
  rcases a with ⟨a1, a2⟩; rcases b with ⟨b1, b2⟩
  simp only [vlt, Prod.mk.injEq]
  omega

theorem vlt_asymm {a b : Val} (h : vlt a b) : ¬ vlt b a := by
  unfold vlt at *; omega

/-- The underlying store: an association list of raw key / compressed value
pairs, kept sorted strictly ascending by the byte order on keys (the
underlying engine is a byte-ordered single-value-per-key map). -/
abbrev Store := List (RawKey × Val)

/-- The store's keys are strictly ascending in byte order. -/
def SortedS (s : Store) : Prop :=
  List.Pairwise (fun a b => RawKey.klt a.1 b.1) s

def keysS (s : Store) : List RawKey := s.map Prod.fst

def lookupS : Store → RawKey → Option Val
  | [], _ => none
  | e :: t, k => if e.1 = k then some e.2 else lookupS t k

/-- `put` of the underlying store: insert or replace, keeping the list
sorted. -/
def putS : Store → RawKey → Val → Store
  | [], k, v => [(k, v)]
  | e :: t, k, v =>
    if RawKey.klt k e.1 then (k, v) :: e :: t
    else if k = e.1 then (k, v) :: t
    else e :: putS t k v

/-- `delete` of the underlying store. -/
def delS (s : Store) (k : RawKey) : Store := s.filter (fun e => e.1 ≠ k)

/-- Raw-iterator `seek`: the first stored key ≥ the target. -/
def seekGE : Store → RawKey → Option RawKey
  | [], _ => none
  | e :: t, k => if RawKey.kle k e.1 then some e.1 else seekGE t k

/-- One `next` step: the first stored key strictly greater than the current
one. -/
def seekGT : Store → RawKey → Option RawKey
  | [], _ => none
  | e :: t, k => if RawKey.klt k e.1 then some e.1 else seekGT t k

/-- Raw-iterator `seek_for_prev`: the last stored key ≤ the target. -/
def seekLE : Store → RawKey → Option RawKey
  | [], _ => none
  | e :: t, k =>
    if RawKey.klt k e.1 then none
    else
      match seekLE t k with
      | none => some e.1
      | some r => some r

/-- One `prev` step: the last stored key strictly less than the current
one. -/
def seekLT : Store → RawKey → Option RawKey
  | [], _ => none
  | e :: t, k =>
    if RawKey.kle k e.1 then none
    else
      match seekLT t k with
      | none => some e.1
      | some r => some r

def firstK (s : Store) : Option RawKey := s.head?.map Prod.fst

def lastK (s : Store) : Option RawKey := s.getLast?.map Prod.fst

/-- The entry at an iterator position (`iter.item()`): the stored pair at the
position's key. -/
def itemAt (s : Store) (p : Option RawKey) : Option (RawKey × Val) :=
  p.bind fun k => (lookupS s k).map fun v => (k, v)

/-! ## Composite key formatting

`format_key` / `unformat_key` for the dupsort tables are in dups.rs; the
`*_extend_composite_key` helpers and `format_composite_key` live outside the
given sources and are modelled from the spec (§4.2). -/

/-- `T::format_key(key, &value)` (dups.rs): for a dupsort table the composite
prefix `encode(primary) ‖ encode(subkey_of value)`; for a plain table just
`encode(primary)`. -/
def formatKey (dup : Bool) (k : Nat) (v : Val) : RawKey :=
  if dup then .p2 k (subkeyOf v) else .p1 k

/-- Modelled from the spec: `format_composite(primary, subkey) -> prefix`
(§4.2), the physical-key prefix `encode(primary) ‖ encode(subkey)`. -/
def formatCompositeKey (k sub : Nat) : RawKey := .p2 k sub

/-- `key.encode()`: the encoded primary key alone. -/
def encodeKey (k : Nat) : RawKey := .p1 k

/-- Modelled from the spec: `zero_extend_composite_key` (§4.2), appending the
lowest tie-breaker to a composite prefix; the identity on keys that carry no
tie-breaker (plain tables). -/
def zeroExt (dup : Bool) (ck : RawKey) : RawKey :=
  if dup then
    match ck with
    | .p2 k s => .p3 k s (.fin 0)
    | other => other
  else ck

/-- Modelled from the spec: `max_extend_composite_key` (§4.2), appending the
sentinel tie-breaker that sorts above every tie actually stored for the
prefix; the identity for plain tables. -/
def maxExt (dup : Bool) (ck : RawKey) : RawKey :=
  if dup then
    match ck with
    | .p2 k s => .p3 k s .top
    | other => other
  else ck

/-- Modelled from the spec: `up_extend_composite_key` (§4.2 `increment_tie`),
the composite key with the next strictly greater tie-breaker. -/
def upExt (ck : RawKey) : RawKey :=
  match ck with
  | .p3 k s (.fin n) => .p3 k s (.fin (n + 1))
  | other => other

/-- Modelled from the spec: `unformat_extended_composite_key` (§4.2 / §6),
stripping the fixed-width tie-breaker suffix from a stored physical key. -/
def unformatExt (ck : RawKey) : RawKey :=
  match ck with
  | .p3 k s _ => .p2 k s
  | other => other

/-! ## The cursor state machine (cursor.rs) -/

/-- `CursorIt` (cursor.rs): logical cursor position. -/
inductive CState where
  | start
  | pastEnd
  | iter
deriving DecidableEq, Repr

/-- The `Cursor` of cursor.rs: its raw iterator position, the transaction's
store, the `CursorIt` state and the `dup_mode` flag. -/
structure Machine where
  dup : Bool
  store : Store
  pos : Option RawKey
  st : CState
deriving DecidableEq, Repr

def itSeek (m : Machine) (k : RawKey) : Machine :=
  { m with pos := seekGE m.store k }

def itSeekForPrev (m : Machine) (k : RawKey) : Machine :=
  { m with pos := seekLE m.store k }

def itSeekToFirst (m : Machine) : Machine := { m with pos := firstK m.store }

def itSeekToLast (m : Machine) : Machine := { m with pos := lastK m.store }

def itNext (m : Machine) : Machine :=
  { m with pos := m.pos.bind (seekGT m.store) }

def itPrev (m : Machine) : Machine :=
  { m with pos := m.pos.bind (seekLT m.store) }

def itItem (m : Machine) : Option (RawKey × Val) := itemAt m.store m.pos

/-- `tx.put_raw` (tx.rs): a raw put into the keyspace. -/
def putM (m : Machine) (k : RawKey) (v : Val) : Machine :=
  { m with store := putS m.store k v }

/-- A decoded pair returned to the caller: primary key and value. -/
abbrev Pair := Nat × Val

/-- `decode_item` (cursor.rs): recover the primary key from the raw key via
`T::unformat_key` and decompress the value. -/
def decodeItem (e : RawKey × Val) : Pair := (e.1.primaryOf, e.2)

/-- Errors of the write/usage paths (§7). -/
inductive DbErr where
  | alreadyExists
  | keyMismatch
  | uninitializedCursorDelete
deriving DecidableEq, Repr

namespace Cursor

/-- `Cursor::first` (cursor.rs). -/
def first (m : Machine) : Option Pair × Machine :=
  let m := itSeekToFirst m
  match itItem m with
  | none => (none, { m with st := .pastEnd })
  | some e => (some (decodeItem e), { m with st := .iter })

/-- `Cursor::seek` (cursor.rs). -/
def seek (m : Machine) (k : Nat) : Option Pair × Machine :=
  let m := itSeek m (encodeKey k)
  match itItem m with
  | none => (none, { m with st := .pastEnd })
  | some e => (some (decodeItem e), { m with st := .iter })

/-- `Cursor::seek_exact` (cursor.rs). -/
def seekExact (m : Machine) (k : Nat) : Option Pair × Machine :=
  let (r, m) := seek m k
  (r.filter (fun el => el.1 = k), m)

/-- `Cursor::last` (cursor.rs). -/
def last (m : Machine) : Option Pair × Machine :=
  let m := itSeekToLast m
  match itItem m with
  | none => (none, { m with st := .pastEnd })
  | some e => (some (decodeItem e), { m with st := .iter })

/-- `Cursor::current` (cursor.rs): result only, the machine is unchanged. -/
def currentRes (m : Machine) : Option Pair :=
  match m.st with
  | .start => none
  | .pastEnd => none
  | .iter => (itItem m).map decodeItem

/-- `Cursor::next` (cursor.rs). -/
def next (m : Machine) : Option Pair × Machine :=
  match m.st with
  | .start => first m
  | .pastEnd =>
    match itItem m with
    | none => (none, m)
    | some _ =>
      let m := itNext m
      match itItem m with
      | none => (none, m)
      | some e => (some (decodeItem e), { m with st := .iter })
  | .iter =>
    let m := itNext m
    match itItem m with
    | none => (none, { itSeekToLast m with st := .iter })
    | some e => (some (decodeItem e), { m with st := .iter })

/-- `Cursor::prev` (cursor.rs). -/
def prev (m : Machine) : Option Pair × Machine :=
  match m.st with
  | .start => last m
  | .pastEnd =>
    match itItem m with
    | none =>
      let m := { itSeekToLast m with st := .iter }
      (currentRes m, m)
    | some _ =>
      let m := { itPrev m with st := .iter }
      match currentRes m with
      | none => (none, { m with st := .start })
      | some e => (some e, m)
  | .iter =>
    let m := itPrev m
    match itItem m with
    | none => (none, { itSeekToFirst m with st := .iter })
    | some e => (some (decodeItem e), { m with st := .iter })

/-- `Cursor::next_dup` (cursor.rs). -/
def nextDup (m : Machine) : Option Pair × Machine :=
  match m.st with
  | .start => first m
  | .pastEnd => (none, m)
  | .iter =>
    match itItem m with
    | none => next m
    | some prevItem =>
      let prevPrimary := prevItem.1.primaryOf
      let (r, m1) := next m
      match r with
      | none => (none, m1)
      | some el =>
        if prevPrimary = el.1 then (some el, m1)
        else
          let (_, m2) := prev m1
          (none, m2)

/-- `Cursor::seek_by_key_subkey` (cursor.rs): seeks the zero-extended
composite prefix and returns the value only if the found primary matches. -/
def seekByKeySubkey (m : Machine) (k sub : Nat) : Option Val × Machine :=
  let m := itSeek m (zeroExt true (formatCompositeKey k sub))
  match itItem m with
  | none => (none, { m with st := .pastEnd })
  | some el =>
    let m := { m with st := .iter }
    if el.1.primaryOf = k then (some el.2, m) else (none, m)

/-- First `while` loop of `Cursor::upsert`'s duplicate branch (cursor.rs):
scan backwards over the ties of the composite prefix; report whether the
value to insert is already stored.  The loop makes one `iter.prev()` per
iteration, so any fuel larger than the store size is enough. -/
def dupCheckLoop (ck : RawKey) (cv : Val) : Nat → Machine → Bool × Machine
  | 0, m => (false, m)
  | fuel + 1, m =>
    match itItem m with
    | some el =>
      if unformatExt el.1 = ck then
        if el.2 = cv then (true, m)
        else dupCheckLoop ck cv fuel (itPrev m)
      else (false, m)
    | none => (false, m)

/-- Second `while` loop of `Cursor::upsert`'s duplicate branch plus the final
"lowest value - put at the front" step (cursor.rs): walk the ties backwards,
shifting each tie whose value is not smaller than the new value one
tie-breaker up, and insert the new value in the slot so opened. -/
def dupInsertLoop (ck : RawKey) (cv : Val) : Nat → Machine → Machine
  | 0, m => m
  | fuel + 1, m =>
    match itItem m with
    | some el =>
      if unformatExt el.1 = ck then
        if vlt el.2 cv then
          let ik := upExt el.1
          let m := putM m ik cv
          itSeek m ik
        else
          let m := putM m (upExt el.1) el.2
          dupInsertLoop ck cv fuel (itPrev m)
      else
        let ik := zeroExt true ck
        let m := putM m ik cv
        itSeek m ik
    | none =>
      let ik := zeroExt true ck
      let m := putM m ik cv
      itSeek m ik

/-- `Cursor::upsert` (cursor.rs). -/
def upsert (m : Machine) (k : Nat) (v : Val) : Machine :=
  let ck := formatKey m.dup k v
  let m1 := itSeekForPrev m (maxExt m.dup ck)
  let m1 := { m1 with st := .iter }
  match m1.dup, itItem m1 with
  | _, none =>
    let zk := zeroExt m1.dup ck
    let m2 := putM m1 zk (compress v)
    itSeek m2 zk
  | false, some _ =>
    let m2 := putM m1 ck (compress v)
    itSeek m2 ck
  | true, some el =>
    if unformatExt el.1 ≠ ck then
      let zk := zeroExt true ck
      let m2 := putM m1 zk (compress v)
      itSeek m2 zk
    else
      let cv := compress v
      let (found, m2) := dupCheckLoop ck cv (m1.store.length + 1) m1
      if found then m2
      else
        let m3 := itSeekForPrev m2 (maxExt true ck)
        dupInsertLoop ck cv (m3.store.length + 1) m3

/-- `DbTx::get` (tx.rs): for a dupsort table, seek the encoded primary and
return the first value stored under it; for a plain table, a direct raw
lookup. -/
def txGet (dup : Bool) (s : Store) (k : Nat) : Option Val :=
  if dup then
    match itemAt s (seekGE s (encodeKey k)) with
    | none => none
    | some el => if k = el.1.primaryOf then some el.2 else none
  else
    lookupS s (encodeKey k)

/-- `Cursor::insert` (cursor.rs): fail with AlreadyExists if `tx.get` finds a
value, repositioning the raw iterator; otherwise behave as `upsert`. -/
def insert (m : Machine) (k : Nat) (v : Val) : Except DbErr Unit × Machine :=
  match txGet m.dup m.store k with
  | some _ =>
    let m := itSeek m (formatKey m.dup k v)
    let m :=
      match itItem m with
      | none =>
        let m := itSeekToLast m
        if (itItem m).isSome then { m with st := .iter }
        else { m with st := .pastEnd }
      | some _ => { m with st := .iter }
    (.error .alreadyExists, m)
  | none => (.ok (), upsert m k v)

/-- `Cursor::append` (cursor.rs): fail with KeyMismatch if the table's last
primary key is greater than the appended key, else behave as `upsert`. -/
def append (m : Machine) (k : Nat) (v : Val) : Except DbErr Unit × Machine :=
  let (lastEl, m1) := last m
  match lastEl with
  | none => (.ok (), upsert m1 k v)
  | some item =>
    if k < item.1 then (.error .keyMismatch, m1)
    else (.ok (), upsert m1 k v)

/-- `Cursor::delete_current` (cursor.rs). -/
def deleteCurrent (m : Machine) : Except DbErr Unit × Machine :=
  match m.st with
  | .start => (.error .uninitializedCursorDelete, m)
  | .pastEnd => (.ok (), m)
  | .iter =>
    match itItem m with
    | none => (.ok (), m)
    | some el =>
      let key := el.1
      let m := { m with store := delS m.store key }
      let m := itSeek m key
      match itItem m with
      | none => (.ok (), { m with st := .pastEnd })
      | some el' =>
        if m.dup then
          if el'.1.primaryOf ≠ key.primaryOf then (.ok (), { m with st := .pastEnd })
          else (.ok (), { m with st := .iter })
        else (.ok (), { m with st := .iter })

end Cursor

/-- The `while` loop of `DbTxMut::delete`'s dupsort branch (tx.rs): scan the
ties of the composite prefix forward; delete the first entry whose stored
value equals the compressed argument. -/
def txDelDupLoop (s : Store) (ck : RawKey) (cv : Val) :
    Nat → Option RawKey → Bool × Store
  | 0, _ => (false, s)
  | fuel + 1, p =>
    match itemAt s p with
    | some el =>
      if unformatExt el.1 = ck then
        if el.2 = cv then (true, delS s el.1)
        else txDelDupLoop s ck cv fuel (p.bind (seekGT s))
      else (false, s)
    | none => (false, s)

/-- `DbTxMut::delete` (tx.rs).  The `None` result models the panic
`value not set for dupsort delete`; `some (found, store)` is the normal
return. -/
def txDelete (dup : Bool) (s : Store) (k : Nat) (v? : Option Val) :
    Option (Bool × Store) :=
  if dup then
    match v? with
    | none => none
    | some v =>
      let ck := formatKey true k v
      let cv := compress v
      some (txDelDupLoop s ck cv (s.length + 1) (seekGE s ck))
  else
    let kseek := encodeKey k
    match itemAt s (seekGE s kseek) with
    | some el => if el.1 = kseek then some (true, delS s el.1) else some (false, s)
    | none => some (false, s)

/-! ## Walkers (walk with no start key) -/

/-- The tail of a `Walker` (cursor.rs `walk(None)` / Walker::new): repeatedly
fetch via `Cursor::next` until it reports empty. -/
def walkNextList : Nat → Machine → List Pair
  | 0, _ => []
  | fuel + 1, m =>
    let (r, m') := Cursor.next m
    match r with
    | none => []
    | some e => e :: walkNextList fuel m'

/-- All pairs yielded by `walk(None)`: the seeded `first()` pair followed by
the `next` tail. -/
def walkAll (m : Machine) : List Pair :=
  let (r, m') := Cursor.first m
  match r with
  | none => []
  | some e => e :: walkNextList m'.store.length m'

/-- A fresh dupsort cursor over an empty table. -/
def initDup : Machine := { dup := true, store := [], pos := none, st := .start }

/-- Perform a sequence of `upsert` calls. -/
def applyUpserts : List (Nat × Val) → Machine → Machine
  | [], m => m
  | (k, v) :: rest, m => applyUpserts rest (Cursor.upsert m k v)

/-- The order `walk` of a dupsort table must produce: first by primary key,
then by value. -/
def pairLt (a b : Pair) : Prop := a.1 < b.1 ∨ (a.1 = b.1 ∧ vlt a.2 b.2)

instance pairLt.decidable (a b : Pair) : Decidable (pairLt a b) := by
  unfold pairLt; infer_instance

/-! ## Store lemmas -/

open RawKey

theorem lookupS_cons (e : RawKey × Val) (t : Store) (k : RawKey) :
    lookupS (e :: t) k = if e.1 = k then some e.2 else lookupS t k := rfl

theorem putS_cons (e : RawKey × Val) (t : Store) (k : RawKey) (v : Val) :
    putS (e :: t) k v =
      if RawKey.klt k e.1 then (k, v) :: e :: t
      else if k = e.1 then (k, v) :: t
      else e :: putS t k v := rfl

theorem seekGE_cons (e : RawKey × Val) (t : Store) (k : RawKey) :
    seekGE (e :: t) k = if RawKey.kle k e.1 then some e.1 else seekGE t k := rfl

theorem seekGT_cons (e : RawKey × Val) (t : Store) (k : RawKey) :
    seekGT (e :: t) k = if RawKey.klt k e.1 then some e.1 else seekGT t k := rfl

theorem seekLE_cons (e : RawKey × Val) (t : Store) (k : RawKey) :
    seekLE (e :: t) k =
      if RawKey.klt k e.1 then none
      else match seekLE t k with
        | none => some e.1
        | some r => some r := rfl

theorem seekLT_cons (e : RawKey × Val) (t : Store) (k : RawKey) :
    seekLT (e :: t) k =
      if RawKey.kle k e.1 then none
      else match seekLT t k with
        | none => some e.1
        | some r => some r := rfl

theorem mem_keysS {s : Store} {k : RawKey} :
    k ∈ keysS s ↔ ∃ v, (k, v) ∈ s := by
  constructor
  · intro h
    rcases List.mem_map.mp h with ⟨⟨k', v⟩, he, hk⟩
    subst hk
    exact ⟨v, he⟩
  · rintro ⟨v, hv⟩
    exact List.mem_map.mpr ⟨(k, v), hv, rfl⟩

theorem sortedS_cons {e : RawKey × Val} {t : Store} :
    SortedS (e :: t) ↔ (∀ b ∈ t, RawKey.klt e.1 b.1) ∧ SortedS t := by
  simp only [SortedS, List.pairwise_cons]

theorem sortedS_key_cons {e : RawKey × Val} {t : Store} (h : SortedS (e :: t))
    {q : RawKey} (hq : q ∈ keysS t) : RawKey.klt e.1 q := by
  rcases mem_keysS.mp hq with ⟨v, hv⟩
  exact (sortedS_cons.mp h).1 _ hv

theorem lookupS_mem {s : Store} {k : RawKey} {v : Val}
    (h : lookupS s k = some v) : (k, v) ∈ s := by
  induction s with
  | nil => simp [lookupS] at h
  | cons e t ih =>
    rw [lookupS_cons] at h
    by_cases he : e.1 = k
    · rw [if_pos he] at h
      injection h with h
      rw [← he, ← h]
      exact List.mem_cons_self _ _
    · rw [if_neg he] at h
      exact List.mem_cons_of_mem _ (ih h)

theorem lookupS_eq_none {s : Store} {k : RawKey} :
    lookupS s k = none ↔ k ∉ keysS s := by
  induction s with
  | nil => simp [lookupS, keysS]
  | cons e t ih =>
    rw [lookupS_cons]
    by_cases he : e.1 = k
    · rw [if_pos he]
      simp only [keysS, List.map_cons, List.mem_cons]
      constructor
      · intro h; exact absurd h (by simp)
      · intro h; exact absurd (Or.inl he.symm) h
    · rw [if_neg he, ih]
      simp only [keysS, List.map_cons, List.mem_cons]
      constructor
      · intro h hm
        rcases hm with hm | hm
        · exact he hm.symm
        · exact h hm
      · intro h hm
        exact h (Or.inr hm)

theorem lookupS_isSome {s : Store} {k : RawKey} :
    (lookupS s k).isSome ↔ k ∈ keysS s := by
  rcases h : lookupS s k with _ | v
  · simp only [Option.isSome_none, Bool.false_eq_true, false_iff]
    exact lookupS_eq_none.mp h
  · simp only [Option.isSome_some, true_iff]
    exact mem_keysS.mpr ⟨v, lookupS_mem h⟩

theorem lookupS_eq_of_mem {s : Store} (hs : SortedS s) {k : RawKey} {v : Val}
    (h : (k, v) ∈ s) : lookupS s k = some v := by
  induction s with
  | nil => simp at h
  | cons e t ih =>
    rcases sortedS_cons.mp hs with ⟨hlt, hst⟩
    rcases List.mem_cons.mp h with h | h
    · rw [← h, lookupS_cons, if_pos rfl]
    · have hne : e.1 ≠ k := by
        intro he
        have := hlt _ h
        rw [he] at this
        exact RawKey.klt_irrefl k this
      rw [lookupS_cons, if_neg hne]
      exact ih hst h

theorem mem_of_lookupS {s : Store} {k : RawKey} {v : Val}
    (h : lookupS s k = some v) : k ∈ keysS s :=
  mem_keysS.mpr ⟨v, lookupS_mem h⟩

/-! ### putS -/

theorem mem_putS {s : Store} {k q : RawKey} {v w : Val}
    (h : (q, w) ∈ putS s k v) : (q = k ∧ w = v) ∨ (q, w) ∈ s := by
  induction s with
  | nil =>
    simp only [putS, List.mem_singleton, Prod.mk.injEq] at h
    exact Or.inl h
  | cons e t ih =>
    rw [putS_cons] at h
    by_cases h1 : RawKey.klt k e.1
    · rw [if_pos h1] at h
      rcases List.mem_cons.mp h with h | h
      · injection h with h h'
        exact Or.inl ⟨h, h'⟩
      · exact Or.inr h
    · rw [if_neg h1] at h
      by_cases h2 : k = e.1
      · rw [if_pos h2] at h
        rcases List.mem_cons.mp h with h | h
        · injection h with h h'
          exact Or.inl ⟨h, h'⟩
        · exact Or.inr (List.mem_cons_of_mem _ h)
      · rw [if_neg h2] at h
        rcases List.mem_cons.mp h with h | h
        · exact Or.inr (List.mem_cons.mpr (Or.inl h))
        · rcases ih h with h' | h'
          · exact Or.inl h'
          · exact Or.inr (List.mem_cons_of_mem _ h')

theorem self_mem_putS {s : Store} {k : RawKey} {v : Val} :
    (k, v) ∈ putS s k v := by
  induction s with
  | nil => simp [putS]
  | cons e t ih =>
    rw [putS_cons]
    by_cases h1 : RawKey.klt k e.1
    · rw [if_pos h1]; exact List.mem_cons_self _ _
    · rw [if_neg h1]
      by_cases h2 : k = e.1
      · rw [if_pos h2]; exact List.mem_cons_self _ _
      · rw [if_neg h2]; exact List.mem_cons_of_mem _ ih

theorem mem_putS_of_mem {s : Store} {k : RawKey} {v : Val}
    {e : RawKey × Val} (he : e ∈ s) (hne : e.1 ≠ k) : e ∈ putS s k v := by
  induction s with
  | nil => simp at he
  | cons e' t ih =>
    rw [putS_cons]
    by_cases h1 : RawKey.klt k e'.1
    · rw [if_pos h1]
      exact List.mem_cons_of_mem _ he
    · rw [if_neg h1]
      by_cases h2 : k = e'.1
      · rw [if_pos h2]
        rcases List.mem_cons.mp he with h | h
        · exfalso
          apply hne
          rw [h, ← h2]
        · exact List.mem_cons_of_mem _ h
      · rw [if_neg h2]
        rcases List.mem_cons.mp he with h | h
        · rw [h]; exact List.mem_cons_self _ _
        · exact List.mem_cons_of_mem _ (ih h)

theorem sortedS_putS {s : Store} (hs : SortedS s) (k : RawKey) (v : Val) :
    SortedS (putS s k v) := by
  induction s with
  | nil => simp [putS, SortedS]
  | cons e t ih =>
    rcases sortedS_cons.mp hs with ⟨hlt, hst⟩
    rw [putS_cons]
    by_cases h1 : RawKey.klt k e.1
    · rw [if_pos h1]
      refine sortedS_cons.mpr ⟨?_, hs⟩
      intro b hb
      rcases List.mem_cons.mp hb with hb | hb
      · rw [hb]
        exact h1
      · exact RawKey.klt_trans h1 (hlt _ hb)
    · rw [if_neg h1]
      by_cases h2 : k = e.1
      · rw [if_pos h2]
        refine sortedS_cons.mpr ⟨?_, hst⟩
        intro b hb
        rw [h2]
        exact hlt _ hb
      · rw [if_neg h2]
        refine sortedS_cons.mpr ⟨?_, ih hst⟩
        intro b hb
        obtain ⟨bk, bv⟩ := b
        rcases mem_putS hb with ⟨hb1, _⟩ | hb'
        · simp only
          rw [hb1]
          rcases RawKey.klt_total e.1 k with h | h | h
          · exact h
          · exact absurd h.symm h2
          · exact absurd h h1
        · exact hlt _ hb'

theorem mem_keysS_putS {s : Store} {k q : RawKey} {v : Val} :
    q ∈ keysS (putS s k v) ↔ q = k ∨ q ∈ keysS s := by
  constructor
  · intro h
    rcases mem_keysS.mp h with ⟨w, hw⟩
    rcases mem_putS hw with ⟨h1, _⟩ | h1
    · exact Or.inl h1
    · exact Or.inr (mem_keysS.mpr ⟨w, h1⟩)
  · intro h
    rcases h with rfl | h
    · exact mem_keysS.mpr ⟨v, self_mem_putS⟩
    · rcases mem_keysS.mp h with ⟨w, hw⟩
      by_cases hq : q = k
      · subst hq
        exact mem_keysS.mpr ⟨v, self_mem_putS⟩
      · exact mem_keysS.mpr ⟨w, mem_putS_of_mem hw hq⟩

theorem lookupS_putS {s : Store} (hs : SortedS s) (k : RawKey) (v : Val)
    (q : RawKey) :
    lookupS (putS s k v) q = if q = k then some v else lookupS s q := by
  have hsp := sortedS_putS hs k v
  by_cases hq : q = k
  · subst hq
    rw [if_pos rfl]
    exact lookupS_eq_of_mem hsp self_mem_putS
  · rw [if_neg hq]
    rcases h : lookupS s q with _ | w
    · rw [lookupS_eq_none] at h ⊢
      intro hm
      rcases mem_keysS_putS.mp hm with h' | h'
      · exact hq h'
      · exact h h'
    · have := lookupS_mem h
      exact lookupS_eq_of_mem hsp (mem_putS_of_mem this hq)

theorem length_putS {s : Store} {k : RawKey} {v : Val} :
    (putS s k v).length ≤ s.length + 1 := by
  induction s with
  | nil => simp [putS]
  | cons e t ih =>
    rw [putS_cons]
    by_cases h1 : RawKey.klt k e.1
    · rw [if_pos h1]; simp
    · rw [if_neg h1]
      by_cases h2 : k = e.1
      · rw [if_pos h2]; simp
      · rw [if_neg h2]
        simp only [List.length_cons]
        omega

/-! ### delS -/

theorem sortedS_delS {s : Store} (hs : SortedS s) (k : RawKey) :
    SortedS (delS s k) :=
  List.Pairwise.sublist (List.filter_sublist s) hs

theorem mem_delS {s : Store} {k : RawKey} {e : RawKey × Val} :
    e ∈ delS s k ↔ e ∈ s ∧ e.1 ≠ k := by
  simp [delS, List.mem_filter]

theorem mem_keysS_delS {s : Store} {k q : RawKey} :
    q ∈ keysS (delS s k) ↔ q ∈ keysS s ∧ q ≠ k := by
  simp only [mem_keysS]
  constructor
  · rintro ⟨v, hv⟩
    rw [mem_delS] at hv
    exact ⟨⟨v, hv.1⟩, hv.2⟩
  · rintro ⟨⟨v, hv⟩, hq⟩
    exact ⟨v, mem_delS.mpr ⟨hv, hq⟩⟩

theorem lookupS_delS {s : Store} (k q : RawKey) :
    lookupS (delS s k) q = if q = k then none else lookupS s q := by
  induction s with
  | nil => simp [delS, lookupS]
  | cons e t ih =>
    by_cases he : e.1 = k
    · have hdel : delS (e :: t) k = delS t k := by
        simp [delS, List.filter_cons, he]
      rw [hdel, ih]
      by_cases h : q = k
      · rw [if_pos h, if_pos h]
      · rw [if_neg h, if_neg h, lookupS_cons, if_neg]
        rw [he]
        intro hq
        exact h hq.symm
    · have hdel : delS (e :: t) k = e :: delS t k := by
        simp [delS, List.filter_cons, he]
      rw [hdel]
      by_cases h : q = k
      · subst h
        rw [if_pos rfl] at ih ⊢
        rw [lookupS_cons, if_neg he, ih]
      · rw [if_neg h] at ih ⊢
        rw [lookupS_cons, lookupS_cons, ih]

theorem length_delS {s : Store} {k : RawKey} : (delS s k).length ≤ s.length :=
  List.length_filter_le _ s

/-! ### Seek characterizations -/

theorem seekGE_mem {s : Store} {k r : RawKey} (h : seekGE s k = some r) :
    r ∈ keysS s := by
  induction s with
  | nil => simp [seekGE] at h
  | cons e t ih =>
    rw [seekGE_cons] at h
    by_cases h1 : RawKey.kle k e.1
    · rw [if_pos h1] at h
      injection h with h
      rw [← h]
      simp [keysS]
    · rw [if_neg h1] at h
      simp only [keysS, List.map_cons, List.mem_cons]
      exact Or.inr (ih h)

theorem seekGE_ge {s : Store} {k r : RawKey} (h : seekGE s k = some r) :
    RawKey.kle k r := by
  induction s with
  | nil => simp [seekGE] at h
  | cons e t ih =>
    rw [seekGE_cons] at h
    by_cases h1 : RawKey.kle k e.1
    · rw [if_pos h1] at h
      injection h with h
      rw [← h]
      exact h1
    · rw [if_neg h1] at h
      exact ih h

theorem seekGE_min {s : Store} (hs : SortedS s) {k r : RawKey}
    (h : seekGE s k = some r) {q : RawKey} (hq : q ∈ keysS s)
    (hkq : RawKey.kle k q) : RawKey.kle r q := by
  induction s with
  | nil => simp [seekGE] at h
  | cons e t ih =>
    rcases sortedS_cons.mp hs with ⟨hlt, hst⟩
    rw [seekGE_cons] at h
    simp only [keysS, List.map_cons, List.mem_cons] at hq
    by_cases h1 : RawKey.kle k e.1
    · rw [if_pos h1] at h
      injection h with h
      subst h
      rcases hq with rfl | hq
      · exact RawKey.kle_refl _
      · exact Or.inl (sortedS_key_cons hs hq)
    · rw [if_neg h1] at h
      rcases hq with rfl | hq
      · exact absurd hkq h1
      · exact ih hst h hq

theorem seekGE_none_iff {s : Store} {k : RawKey} :
    seekGE s k = none ↔ ∀ q ∈ keysS s, RawKey.klt q k := by
  induction s with
  | nil => simp [seekGE, keysS]
  | cons e t ih =>
    rw [seekGE_cons]
    by_cases h1 : RawKey.kle k e.1
    · rw [if_pos h1]
      simp only [keysS, List.map_cons, List.mem_cons]
      constructor
      · intro h; exact absurd h (by simp)
      · intro h
        exact absurd (h e.1 (Or.inl rfl)) (RawKey.not_klt_iff_kle.mpr h1)
    · rw [if_neg h1, ih]
      simp only [keysS, List.map_cons, List.mem_cons]
      constructor
      · intro h q hq
        rcases hq with rfl | hq
        · exact RawKey.not_kle_iff_klt.mp h1
        · exact h q hq
      · intro h q hq
        exact h q (Or.inr hq)

theorem seekGE_isSome {s : Store} {k q : RawKey} (hq : q ∈ keysS s)
    (hkq : RawKey.kle k q) : (seekGE s k).isSome := by
  rcases h : seekGE s k with _ | r
  · exact absurd hkq (RawKey.not_kle_iff_klt.mpr (seekGE_none_iff.mp h q hq))
  · simp

theorem seekGE_eq {s : Store} (hs : SortedS s) {k r : RawKey}
    (hr : r ∈ keysS s) (hkr : RawKey.kle k r)
    (hmin : ∀ q ∈ keysS s, RawKey.kle k q → RawKey.kle r q) :
    seekGE s k = some r := by
  rcases h : seekGE s k with _ | r'
  · exact absurd hkr (RawKey.not_kle_iff_klt.mpr (seekGE_none_iff.mp h r hr))
  · have h1 := seekGE_min hs h hr hkr
    have h2 := hmin r' (seekGE_mem h) (seekGE_ge h)
    rw [RawKey.kle_antisymm h1 h2]

theorem seekGT_mem {s : Store} {k r : RawKey} (h : seekGT s k = some r) :
    r ∈ keysS s := by
  induction s with
  | nil => simp [seekGT] at h
  | cons e t ih =>
    rw [seekGT_cons] at h
    by_cases h1 : RawKey.klt k e.1
    · rw [if_pos h1] at h
      injection h with h
      rw [← h]
      simp [keysS]
    · rw [if_neg h1] at h
      simp only [keysS, List.map_cons, List.mem_cons]
      exact Or.inr (ih h)

theorem seekGT_gt {s : Store} {k r : RawKey} (h : seekGT s k = some r) :
    RawKey.klt k r := by
  induction s with
  | nil => simp [seekGT] at h
  | cons e t ih =>
    rw [seekGT_cons] at h
    by_cases h1 : RawKey.klt k e.1
    · rw [if_pos h1] at h
      injection h with h
      rw [← h]
      exact h1
    · rw [if_neg h1] at h
      exact ih h

theorem seekGT_min {s : Store} (hs : SortedS s) {k r : RawKey}
    (h : seekGT s k = some r) {q : RawKey} (hq : q ∈ keysS s)
    (hkq : RawKey.klt k q) : RawKey.kle r q := by
  induction s with
  | nil => simp [seekGT] at h
  | cons e t ih =>
    rcases sortedS_cons.mp hs with ⟨hlt, hst⟩
    rw [seekGT_cons] at h
    simp only [keysS, List.map_cons, List.mem_cons] at hq
    by_cases h1 : RawKey.klt k e.1
    · rw [if_pos h1] at h
      injection h with h
      subst h
      rcases hq with rfl | hq
      · exact RawKey.kle_refl _
      · exact Or.inl (sortedS_key_cons hs hq)
    · rw [if_neg h1] at h
      rcases hq with rfl | hq
      · exact absurd hkq h1
      · exact ih hst h hq

theorem seekGT_none_iff {s : Store} {k : RawKey} :
    seekGT s k = none ↔ ∀ q ∈ keysS s, RawKey.kle q k := by
  induction s with
  | nil => simp [seekGT, keysS]
  | cons e t ih =>
    rw [seekGT_cons]
    by_cases h1 : RawKey.klt k e.1
    · rw [if_pos h1]
      simp only [keysS, List.map_cons, List.mem_cons]
      constructor
      · intro h; exact absurd h (by simp)
      · intro h
        exact absurd (h e.1 (Or.inl rfl)) (RawKey.not_kle_iff_klt.mpr h1)
    · rw [if_neg h1, ih]
      simp only [keysS, List.map_cons, List.mem_cons]
      constructor
      · intro h q hq
        rcases hq with rfl | hq
        · exact RawKey.not_klt_iff_kle.mp h1
        · exact h q hq
      · intro h q hq
        exact h q (Or.inr hq)

theorem seekGT_eq {s : Store} (hs : SortedS s) {k r : RawKey}
    (hr : r ∈ keysS s) (hkr : RawKey.klt k r)
    (hmin : ∀ q ∈ keysS s, RawKey.klt k q → RawKey.kle r q) :
    seekGT s k = some r := by
  rcases h : seekGT s k with _ | r'
  · exact absurd hkr (RawKey.not_klt_iff_kle.mpr (seekGT_none_iff.mp h r hr))
  · have h1 := seekGT_min hs h hr hkr
    have h2 := hmin r' (seekGT_mem h) (seekGT_gt h)
    rw [RawKey.kle_antisymm h1 h2]

theorem seekLE_mem {s : Store} {k r : RawKey} (h : seekLE s k = some r) :
    r ∈ keysS s := by
  induction s with
  | nil => simp [seekLE] at h
  | cons e t ih =>
    rw [seekLE_cons] at h
    by_cases h1 : RawKey.klt k e.1
    · rw [if_pos h1] at h
      exact absurd h (by simp)
    · rw [if_neg h1] at h
      simp only [keysS, List.map_cons, List.mem_cons]
      rcases h2 : seekLE t k with _ | r'
      · rw [h2] at h
        injection h with h
        exact Or.inl h.symm
      · rw [h2] at h
        injection h with h
        subst h
        exact Or.inr (ih h2)

theorem seekLE_le {s : Store} {k r : RawKey} (h : seekLE s k = some r) :
    RawKey.kle r k := by
  induction s with
  | nil => simp [seekLE] at h
  | cons e t ih =>
    rw [seekLE_cons] at h
    by_cases h1 : RawKey.klt k e.1
    · rw [if_pos h1] at h
      exact absurd h (by simp)
    · rw [if_neg h1] at h
      rcases h2 : seekLE t k with _ | r'
      · rw [h2] at h
        injection h with h
        subst h
        exact RawKey.not_klt_iff_kle.mp h1
      · rw [h2] at h
        injection h with h
        subst h
        exact ih h2

theorem seekLE_max {s : Store} (hs : SortedS s) {k r : RawKey}
    (h : seekLE s k = some r) {q : RawKey} (hq : q ∈ keysS s)
    (hqk : RawKey.kle q k) : RawKey.kle q r := by
  induction s with
  | nil => simp [seekLE] at h
  | cons e t ih =>
    rcases sortedS_cons.mp hs with ⟨hlt, hst⟩
    rw [seekLE_cons] at h
    by_cases h1 : RawKey.klt k e.1
    · rw [if_pos h1] at h
      exact absurd h (by simp)
    · rw [if_neg h1] at h
      simp only [keysS, List.map_cons, List.mem_cons] at hq
      rcases h2 : seekLE t k with _ | r'
      · rw [h2] at h
        injection h with h
        subst h
        rcases hq with rfl | hq
        · exact RawKey.kle_refl _
        · exact absurd hqk
            (RawKey.not_kle_iff_klt.mpr (seekLE_none_aux hst h2 hq))
      · rw [h2] at h
        injection h with h
        subst h
        rcases hq with rfl | hq
        · exact Or.inl (sortedS_key_cons hs (seekLE_mem h2))
        · exact ih hst h2 hq
where
  seekLE_none_aux {t : Store} (hst : SortedS t) {k q : RawKey}
      (h : seekLE t k = none) (hq : q ∈ keysS t) : RawKey.klt k q := by
    induction t with
    | nil => simp [keysS] at hq
    | cons e' t' ih' =>
      rcases sortedS_cons.mp hst with ⟨hlt', hst'⟩
      rw [seekLE_cons] at h
      by_cases h1 : RawKey.klt k e'.1
      · rw [if_pos h1] at h
        simp only [keysS, List.map_cons, List.mem_cons] at hq
        rcases hq with rfl | hq
        · exact h1
        · exact RawKey.klt_of_klt_of_kle h1 (Or.inl (sortedS_key_cons hst hq))
      · rw [if_neg h1] at h
        rcases h2 : seekLE t' k with _ | r'
        · rw [h2] at h
          exact absurd h (by simp)
        · rw [h2] at h
          exact absurd h (by simp)

theorem seekLE_none_iff {s : Store} (hs : SortedS s) {k : RawKey} :
    seekLE s k = none ↔ ∀ q ∈ keysS s, RawKey.klt k q := by
  constructor
  · intro h q hq
    exact seekLE_max.seekLE_none_aux hs h hq
  · intro h
    rcases h2 : seekLE s k with _ | r
    · rfl
    · have := h r (seekLE_mem h2)
      exact absurd (seekLE_le h2) (RawKey.not_kle_iff_klt.mpr this)

theorem seekLE_eq {s : Store} (hs : SortedS s) {k r : RawKey}
    (hr : r ∈ keysS s) (hrk : RawKey.kle r k)
    (hmax : ∀ q ∈ keysS s, RawKey.kle q k → RawKey.kle q r) :
    seekLE s k = some r := by
  rcases h : seekLE s k with _ | r'
  · exact absurd hrk
      (RawKey.not_kle_iff_klt.mpr ((seekLE_none_iff hs).mp h r hr))
  · have h1 := seekLE_max hs h hr hrk
    have h2 := hmax r' (seekLE_mem h) (seekLE_le h)
    rw [RawKey.kle_antisymm h2 h1]

theorem seekLT_mem {s : Store} {k r : RawKey} (h : seekLT s k = some r) :
    r ∈ keysS s := by
  induction s with
  | nil => simp [seekLT] at h
  | cons e t ih =>
    rw [seekLT_cons] at h
    by_cases h1 : RawKey.kle k e.1
    · rw [if_pos h1] at h
      exact absurd h (by simp)
    · rw [if_neg h1] at h
      simp only [keysS, List.map_cons, List.mem_cons]
      rcases h2 : seekLT t k with _ | r'
      · rw [h2] at h
        injection h with h
        exact Or.inl h.symm
      · rw [h2] at h
        injection h with h
        subst h
        exact Or.inr (ih h2)

theorem seekLT_lt {s : Store} {k r : RawKey} (h : seekLT s k = some r) :
    RawKey.klt r k := by
  induction s with
  | nil => simp [seekLT] at h
  | cons e t ih =>
    rw [seekLT_cons] at h
    by_cases h1 : RawKey.kle k e.1
    · rw [if_pos h1] at h
      exact absurd h (by simp)
    · rw [if_neg h1] at h
      rcases h2 : seekLT t k with _ | r'
      · rw [h2] at h
        injection h with h
        subst h
        exact RawKey.not_kle_iff_klt.mp h1
      · rw [h2] at h
        injection h with h
        subst h
        exact ih h2

theorem seekLT_none_aux {t : Store} (hst : SortedS t) {k q : RawKey}
    (h : seekLT t k = none) (hq : q ∈ keysS t) : RawKey.kle k q := by
  induction t with
  | nil => simp [keysS] at hq
  | cons e' t' ih' =>
    rcases sortedS_cons.mp hst with ⟨hlt', hst'⟩
    rw [seekLT_cons] at h
    by_cases h1 : RawKey.kle k e'.1
    · rw [if_pos h1] at h
      simp only [keysS, List.map_cons, List.mem_cons] at hq
      rcases hq with rfl | hq
      · exact h1
      · exact RawKey.kle_trans h1 (Or.inl (sortedS_key_cons hst hq))
    · rw [if_neg h1] at h
      rcases h2 : seekLT t' k with _ | r'
      · rw [h2] at h
        exact absurd h (by simp)
      · rw [h2] at h
        exact absurd h (by simp)

theorem seekLT_max {s : Store} (hs : SortedS s) {k r : RawKey}
    (h : seekLT s k = some r) {q : RawKey} (hq : q ∈ keysS s)
    (hqk : RawKey.klt q k) : RawKey.kle q r := by
  induction s with
  | nil => simp [seekLT] at h
  | cons e t ih =>
    rcases sortedS_cons.mp hs with ⟨hlt, hst⟩
    rw [seekLT_cons] at h
    by_cases h1 : RawKey.kle k e.1
    · rw [if_pos h1] at h
      exact absurd h (by simp)
    · rw [if_neg h1] at h
      simp only [keysS, List.map_cons, List.mem_cons] at hq
      rcases h2 : seekLT t k with _ | r'
      · rw [h2] at h
        injection h with h
        subst h
        rcases hq with rfl | hq
        · exact RawKey.kle_refl _
        · exact absurd hqk
            (RawKey.not_klt_iff_kle.mpr (seekLT_none_aux hst h2 hq))
      · rw [h2] at h
        injection h with h
        subst h
        rcases hq with rfl | hq
        · exact Or.inl (sortedS_key_cons hs (seekLT_mem h2))
        · exact ih hst h2 hq

theorem seekLT_none_iff {s : Store} (hs : SortedS s) {k : RawKey} :
    seekLT s k = none ↔ ∀ q ∈ keysS s, RawKey.kle k q := by
  constructor
  · intro h q hq
    exact seekLT_none_aux hs h hq
  · intro h
    rcases h2 : seekLT s k with _ | r
    · rfl
    · have := h r (seekLT_mem h2)
      exact absurd (seekLT_lt h2) (RawKey.not_klt_iff_kle.mpr this)

theorem seekLT_eq {s : Store} (hs : SortedS s) {k r : RawKey}
    (hr : r ∈ keysS s) (hrk : RawKey.klt r k)
    (hmax : ∀ q ∈ keysS s, RawKey.klt q k → RawKey.kle q r) :
    seekLT s k = some r := by
  rcases h : seekLT s k with _ | r'
  · exact absurd hrk
      (RawKey.not_klt_iff_kle.mpr ((seekLT_none_iff hs).mp h r hr))
  · have h1 := seekLT_max hs h hr hrk
    have h2 := hmax r' (seekLT_mem h) (seekLT_lt h)
    rw [RawKey.kle_antisymm h2 h1]

/-! ### firstK, lastK, itemAt -/

theorem firstK_none_iff {s : Store} : firstK s = none ↔ s = [] := by
  cases s <;> simp [firstK]

theorem firstK_cons {e : RawKey × Val} {t : Store} :
    firstK (e :: t) = some e.1 := rfl

theorem firstK_mem {s : Store} {r : RawKey} (h : firstK s = some r) :
    r ∈ keysS s := by
  cases s with
  | nil => simp [firstK] at h
  | cons e t =>
    rw [firstK_cons] at h
    injection h with h
    rw [← h]
    simp [keysS]

theorem firstK_min {s : Store} (hs : SortedS s) {r : RawKey}
    (h : firstK s = some r) {q : RawKey} (hq : q ∈ keysS s) :
    RawKey.kle r q := by
  cases s with
  | nil => simp [firstK] at h
  | cons e t =>
    rw [firstK_cons] at h
    injection h with h
    subst h
    simp only [keysS, List.map_cons, List.mem_cons] at hq
    rcases hq with rfl | hq
    · exact RawKey.kle_refl _
    · exact Or.inl (sortedS_key_cons hs hq)

theorem lastK_none_iff {s : Store} : lastK s = none ↔ s = [] := by
  cases s with
  | nil => simp [lastK]
  | cons e t =>
    simp only [lastK, iff_false]
    rw [List.getLast?_eq_getLast (e :: t) (by simp)]
    simp

theorem lastK_cons_cons {e e' : RawKey × Val} {t : Store} :
    lastK (e :: e' :: t) = lastK (e' :: t) := by
  simp [lastK, List.getLast?_cons_cons]

theorem lastK_singleton {e : RawKey × Val} : lastK [e] = some e.1 := rfl

theorem lastK_mem {s : Store} {r : RawKey} (h : lastK s = some r) :
    r ∈ keysS s := by
  induction s with
  | nil => simp [lastK] at h
  | cons e t ih =>
    cases t with
    | nil =>
      rw [lastK_singleton] at h
      injection h with h
      rw [← h]
      simp [keysS]
    | cons e' t' =>
      rw [lastK_cons_cons] at h
      simp only [keysS, List.map_cons, List.mem_cons]
      have := ih h
      simp only [keysS, List.map_cons, List.mem_cons] at this
      tauto

theorem keysS_cons {e : RawKey × Val} {t : Store} :
    keysS (e :: t) = e.1 :: keysS t := rfl

theorem keysS_append {a b : Store} : keysS (a ++ b) = keysS a ++ keysS b := by
  simp [keysS]

theorem lastK_max {s : Store} (hs : SortedS s) {r : RawKey}
    (h : lastK s = some r) {q : RawKey} (hq : q ∈ keysS s) :
    RawKey.kle q r := by
  induction s with
  | nil => simp [lastK] at h
  | cons e t ih =>
    rcases sortedS_cons.mp hs with ⟨hlt, hst⟩
    cases t with
    | nil =>
      rw [lastK_singleton] at h
      injection h with h
      subst h
      rw [keysS_cons] at hq
      rcases List.mem_cons.mp hq with rfl | hq
      · exact RawKey.kle_refl _
      · simp [keysS] at hq
    | cons e' t' =>
      rw [lastK_cons_cons] at h
      rw [keysS_cons] at hq
      rcases List.mem_cons.mp hq with rfl | hq
      · have hr : r ∈ keysS (e' :: t') := lastK_mem h
        rcases mem_keysS.mp hr with ⟨w, hw⟩
        exact Or.inl (hlt _ hw)
      · exact ih hst h hq

theorem itemAt_none {s : Store} : itemAt s none = none := rfl

theorem itemAt_some {s : Store} {k : RawKey} :
    itemAt s (some k) = (lookupS s k).map fun v => (k, v) := rfl

theorem itemAt_of_mem {s : Store} (hs : SortedS s) {k : RawKey} {v : Val}
    (h : (k, v) ∈ s) : itemAt s (some k) = some (k, v) := by
  rw [itemAt_some, lookupS_eq_of_mem hs h]
  rfl

theorem itemAt_eq_some {s : Store} {p : Option RawKey} {e : RawKey × Val}
    (h : itemAt s p = some e) : p = some e.1 ∧ lookupS s e.1 = some e.2 := by
  cases p with
  | none => exact Option.noConfusion h
  | some k =>
    rw [itemAt_some] at h
    rcases h2 : lookupS s k with _ | v
    · rw [h2] at h
      exact Option.noConfusion h
    · rw [h2] at h
      injection h with h
      rw [← h]
      exact ⟨rfl, h2⟩

theorem itemAt_mem {s : Store} {p : Option RawKey} {e : RawKey × Val}
    (h : itemAt s p = some e) : e ∈ s := by
  rcases itemAt_eq_some h with ⟨_, h2⟩
  exact lookupS_mem h2

theorem itemAt_eq_none_iff {s : Store} {k : RawKey} :
    itemAt s (some k) = none ↔ k ∉ keysS s := by
  rw [itemAt_some]
  rcases h : lookupS s k with _ | v
  · constructor
    · intro _
      exact lookupS_eq_none.mp h
    · intro _
      rfl
  · constructor
    · intro h'
      exact Option.noConfusion h'
    · intro h'
      exact absurd (mem_of_lookupS h) h'

/-! ## Reduction lemmas for the cursor operations

Each lemma restates one operation at one `CursorIt` state as a `match` over
plain store queries; all hold by `rfl`. -/

namespace Cursor

theorem first_eq {d : Bool} {s : Store} {p : Option RawKey} {st : CState} :
    first ⟨d, s, p, st⟩ =
      match itemAt s (firstK s) with
      | none => (none, ⟨d, s, firstK s, .pastEnd⟩)
      | some e => (some (decodeItem e), ⟨d, s, firstK s, .iter⟩) := rfl

theorem last_eq {d : Bool} {s : Store} {p : Option RawKey} {st : CState} :
    last ⟨d, s, p, st⟩ =
      match itemAt s (lastK s) with
      | none => (none, ⟨d, s, lastK s, .pastEnd⟩)
      | some e => (some (decodeItem e), ⟨d, s, lastK s, .iter⟩) := rfl

theorem seek_eq {d : Bool} {s : Store} {p : Option RawKey} {st : CState}
    {k : Nat} :
    seek ⟨d, s, p, st⟩ k =
      match itemAt s (seekGE s (encodeKey k)) with
      | none => (none, ⟨d, s, seekGE s (encodeKey k), .pastEnd⟩)
      | some e =>
        (some (decodeItem e), ⟨d, s, seekGE s (encodeKey k), .iter⟩) := rfl

theorem next_start {d : Bool} {s : Store} {p : Option RawKey} :
    next ⟨d, s, p, .start⟩ = first ⟨d, s, p, .start⟩ := rfl

theorem next_pastEnd_eq {d : Bool} {s : Store} {p : Option RawKey} :
    next ⟨d, s, p, .pastEnd⟩ =
      match itemAt s p with
      | none => (none, ⟨d, s, p, .pastEnd⟩)
      | some _ =>
        match itemAt s (p.bind (seekGT s)) with
        | none => (none, ⟨d, s, p.bind (seekGT s), .pastEnd⟩)
        | some e =>
          (some (decodeItem e), ⟨d, s, p.bind (seekGT s), .iter⟩) := rfl

theorem next_iter_eq {d : Bool} {s : Store} {p : Option RawKey} :
    next ⟨d, s, p, .iter⟩ =
      match itemAt s (p.bind (seekGT s)) with
      | none => (none, ⟨d, s, lastK s, .iter⟩)
      | some e =>
        (some (decodeItem e), ⟨d, s, p.bind (seekGT s), .iter⟩) := rfl

theorem prev_start {d : Bool} {s : Store} {p : Option RawKey} :
    prev ⟨d, s, p, .start⟩ = last ⟨d, s, p, .start⟩ := rfl

theorem prev_pastEnd_eq {d : Bool} {s : Store} {p : Option RawKey} :
    prev ⟨d, s, p, .pastEnd⟩ =
      match itemAt s p with
      | none =>
        ((itemAt s (lastK s)).map decodeItem, ⟨d, s, lastK s, .iter⟩)
      | some _ =>
        match (itemAt s (p.bind (seekLT s))).map decodeItem with
        | none => (none, ⟨d, s, p.bind (seekLT s), .start⟩)
        | some e => (some e, ⟨d, s, p.bind (seekLT s), .iter⟩) := rfl

theorem prev_iter_eq {d : Bool} {s : Store} {p : Option RawKey} :
    prev ⟨d, s, p, .iter⟩ =
      match itemAt s (p.bind (seekLT s)) with
      | none => (none, ⟨d, s, firstK s, .iter⟩)
      | some e =>
        (some (decodeItem e), ⟨d, s, p.bind (seekLT s), .iter⟩) := rfl

theorem currentRes_start {d : Bool} {s : Store} {p : Option RawKey} :
    currentRes ⟨d, s, p, .start⟩ = none := rfl

theorem currentRes_pastEnd {d : Bool} {s : Store} {p : Option RawKey} :
    currentRes ⟨d, s, p, .pastEnd⟩ = none := rfl

theorem currentRes_iter {d : Bool} {s : Store} {p : Option RawKey} :
    currentRes ⟨d, s, p, .iter⟩ = (itemAt s p).map decodeItem := rfl

theorem nextDup_start {d : Bool} {s : Store} {p : Option RawKey} :
    nextDup ⟨d, s, p, .start⟩ = first ⟨d, s, p, .start⟩ := rfl

theorem nextDup_pastEnd {d : Bool} {s : Store} {p : Option RawKey} :
    nextDup ⟨d, s, p, .pastEnd⟩ = (none, ⟨d, s, p, .pastEnd⟩) := rfl

theorem nextDup_iter_eq {d : Bool} {s : Store} {p : Option RawKey} :
    nextDup ⟨d, s, p, .iter⟩ =
      match itemAt s p with
      | none => next ⟨d, s, p, .iter⟩
      | some prevItem =>
        match (next ⟨d, s, p, .iter⟩).1, (next ⟨d, s, p, .iter⟩).2 with
        | none, m1 => (none, m1)
        | some el, m1 =>
          if prevItem.1.primaryOf = el.1 then (some el, m1)
          else (none, (prev m1).2) := by
  show nextDup ⟨d, s, p, .iter⟩ =
    match itemAt s p with
    | none => next ⟨d, s, p, .iter⟩
    | some prevItem => _
  rcases h : itemAt s p with _ | prevItem
  · simp only [nextDup, itItem, h]
  · simp only [nextDup, itItem, h]
    rcases hn : next ⟨d, s, p, .iter⟩ with ⟨r, m1⟩
    rcases r with _ | el <;> rfl

end Cursor

/-! ## Walk characterization -/

theorem sortedS_append {pre post : Store} (hs : SortedS (pre ++ post)) :
    SortedS pre ∧ SortedS post ∧
      ∀ a ∈ pre, ∀ b ∈ post, RawKey.klt a.1 b.1 := by
  rw [SortedS, List.pairwise_append] at hs
  exact ⟨hs.1, hs.2.1, hs.2.2⟩

theorem walkNextList_eq {fuel : Nat} {m : Machine} :
    walkNextList (fuel + 1) m =
      match (Cursor.next m).1 with
      | none => []
      | some e => e :: walkNextList fuel (Cursor.next m).2 := by
  rw [walkNextList]

theorem walkNextList_suffix {d : Bool} :
    ∀ (rest pre : Store) (e : RawKey × Val) (fuel : Nat),
    SortedS (pre ++ e :: rest) → rest.length ≤ fuel →
    walkNextList fuel ⟨d, pre ++ e :: rest, some e.1, .iter⟩ =
      rest.map decodeItem := by
  intro rest
  induction rest with
  | nil =>
    intro pre e fuel hs _
    have hgt : seekGT (pre ++ [e]) e.1 = none := by
      rw [seekGT_none_iff]
      intro q hq
      rcases sortedS_append hs with ⟨_, _, hcross⟩
      rw [keysS_append] at hq
      rcases List.mem_append.mp hq with hq | hq
      · rcases mem_keysS.mp hq with ⟨w, hw⟩
        exact Or.inl (hcross _ hw _ (List.mem_cons_self _ _))
      · rw [keysS_cons] at hq
        rcases List.mem_cons.mp hq with rfl | hq
        · exact RawKey.kle_refl _
        · simp [keysS] at hq
    cases fuel with
    | zero => rfl
    | succ f =>
      rw [walkNextList_eq, Cursor.next_iter_eq]
      simp only [Option.some_bind, hgt, itemAt_none, List.map_nil]
  | cons r rest' ih =>
    intro pre e fuel hs hf
    have hr_mem : r ∈ pre ++ e :: r :: rest' := by
      simp
    have hgt : seekGT (pre ++ e :: r :: rest') e.1 = some r.1 := by
      apply seekGT_eq hs
      · exact mem_keysS.mpr ⟨r.2, by rw [Prod.mk.eta]; exact hr_mem⟩
      · rcases sortedS_append hs with ⟨_, hpost, _⟩
        exact (sortedS_cons.mp hpost).1 _ (List.mem_cons_self _ _)
      · intro q hq hlt
        rw [keysS_append] at hq
        rcases List.mem_append.mp hq with hq | hq
        · rcases mem_keysS.mp hq with ⟨w, hw⟩
          rcases sortedS_append hs with ⟨_, _, hcross⟩
          exact absurd (hcross _ hw _ (List.mem_cons_self _ _))
            (RawKey.klt_asymm hlt)
        · rw [keysS_cons] at hq
          rcases List.mem_cons.mp hq with rfl | hq
          · exact absurd hlt (RawKey.klt_irrefl _)
          · rw [keysS_cons] at hq
            rcases List.mem_cons.mp hq with rfl | hq
            · exact RawKey.kle_refl _
            · rcases sortedS_append hs with ⟨_, hpost, _⟩
              rcases sortedS_cons.mp hpost with ⟨_, hpost'⟩
              exact Or.inl (sortedS_key_cons hpost' hq)
    cases fuel with
    | zero => simp at hf
    | succ f =>
      have hitem : itemAt (pre ++ e :: r :: rest') (some r.1) = some r :=
        itemAt_of_mem hs (by rw [Prod.mk.eta]; exact hr_mem)
      rw [walkNextList_eq, Cursor.next_iter_eq]
      simp only [Option.some_bind, hgt, hitem, List.map_cons]
      have heq : pre ++ e :: r :: rest' = (pre ++ [e]) ++ r :: rest' := by
        simp
      simp only [List.length_cons] at hf
      have := ih (pre ++ [e]) r f (by rw [heq] at hs; exact hs) (by omega)
      rw [heq, this]

/-- `walk(None)` over a sorted store yields exactly the decoded stored pairs,
in store order. -/
theorem walkAll_eq {d : Bool} {s : Store} {p : Option RawKey} {st : CState}
    (hs : SortedS s) :
    walkAll ⟨d, s, p, st⟩ = s.map decodeItem := by
  cases s with
  | nil => rfl
  | cons e t =>
    have hitem : itemAt (e :: t) (some e.1) = some e :=
      itemAt_of_mem hs (by rw [Prod.mk.eta]; exact List.mem_cons_self _ _)
    show (match (Cursor.first (⟨d, e :: t, p, st⟩ : Machine)).1 with
      | none => ([] : List Pair)
      | some el =>
        el :: walkNextList (Cursor.first (⟨d, e :: t, p, st⟩ : Machine)).2.store.length
          (Cursor.first (⟨d, e :: t, p, st⟩ : Machine)).2) = _
    rw [Cursor.first_eq]
    simp only [firstK_cons, hitem, List.map_cons]
    have := walkNextList_suffix (d := d) t [] e (e :: t).length
      (by simpa using hs) (by simp)
    simp only [List.nil_append, List.length_cons] at this
    simp only [List.length_cons]
    rw [this]

/-! ## Reduction lemmas for the write path -/

theorem upsert_false_eq {s : Store} {p : Option RawKey} {st : CState}
    {k : Nat} {v : Val} :
    Cursor.upsert ⟨false, s, p, st⟩ k v =
      ⟨false, putS s (.p1 k) v, seekGE (putS s (.p1 k) v) (.p1 k), .iter⟩ := by
  rcases h : itemAt s (seekLE s (RawKey.p1 k)) with _ | e <;>
    simp only [Cursor.upsert, formatKey, maxExt, zeroExt, compress,
      itSeekForPrev, itSeek, putM, itItem, Bool.false_eq_true, if_false, h]

theorem upsert_true_none {s : Store} {p : Option RawKey} {st : CState}
    {k : Nat} {v : Val}
    (h : itemAt s (seekLE s (RawKey.p3 k v.1 .top)) = none) :
    Cursor.upsert ⟨true, s, p, st⟩ k v =
      ⟨true, putS s (.p3 k v.1 (.fin 0)) v,
        seekGE (putS s (.p3 k v.1 (.fin 0)) v) (.p3 k v.1 (.fin 0)), .iter⟩ := by
  simp only [Cursor.upsert, formatKey, maxExt, zeroExt, compress, subkeyOf,
    itSeekForPrev, itSeek, putM, itItem, if_true, h]

theorem upsert_true_notin {s : Store} {p : Option RawKey} {st : CState}
    {k : Nat} {v : Val} {el : RawKey × Val}
    (h : itemAt s (seekLE s (RawKey.p3 k v.1 .top)) = some el)
    (hne : unformatExt el.1 ≠ RawKey.p2 k v.1) :
    Cursor.upsert ⟨true, s, p, st⟩ k v =
      ⟨true, putS s (.p3 k v.1 (.fin 0)) v,
        seekGE (putS s (.p3 k v.1 (.fin 0)) v) (.p3 k v.1 (.fin 0)), .iter⟩ := by
  simp only [Cursor.upsert, formatKey, maxExt, zeroExt, compress, subkeyOf,
    itSeekForPrev, itSeek, putM, itItem, if_true, h, hne, ite_true, ite_false,
    if_pos, ne_eq, not_false_iff]

theorem upsert_true_dup {s : Store} {p : Option RawKey} {st : CState}
    {k : Nat} {v : Val} {el : RawKey × Val}
    (h : itemAt s (seekLE s (RawKey.p3 k v.1 .top)) = some el)
    (heq : unformatExt el.1 = RawKey.p2 k v.1) :
    Cursor.upsert ⟨true, s, p, st⟩ k v =
      (if (Cursor.dupCheckLoop (RawKey.p2 k v.1) v (s.length + 1)
            ⟨true, s, seekLE s (RawKey.p3 k v.1 .top), .iter⟩).1 = true
       then (Cursor.dupCheckLoop (RawKey.p2 k v.1) v (s.length + 1)
            ⟨true, s, seekLE s (RawKey.p3 k v.1 .top), .iter⟩).2
       else
        Cursor.dupInsertLoop (RawKey.p2 k v.1) v
          ((Cursor.dupCheckLoop (RawKey.p2 k v.1) v (s.length + 1)
            ⟨true, s, seekLE s (RawKey.p3 k v.1 .top), .iter⟩).2.store.length + 1)
          (itSeekForPrev
            (Cursor.dupCheckLoop (RawKey.p2 k v.1) v (s.length + 1)
              ⟨true, s, seekLE s (RawKey.p3 k v.1 .top), .iter⟩).2
            (RawKey.p3 k v.1 .top))) := by
  simp only [Cursor.upsert, formatKey, maxExt, zeroExt, compress, subkeyOf,
    itSeekForPrev, itSeek, putM, itItem, if_true, h, heq, ne_eq,
    not_true_eq_false, ite_false]

theorem dupCheckLoop_zero {ck : RawKey} {cv : Val} {m : Machine} :
    Cursor.dupCheckLoop ck cv 0 m = (false, m) := rfl

theorem dupCheckLoop_succ {ck : RawKey} {cv : Val} {fuel : Nat} {m : Machine} :
    Cursor.dupCheckLoop ck cv (fuel + 1) m =
      match itItem m with
      | some el =>
        if unformatExt el.1 = ck then
          if el.2 = cv then (true, m)
          else Cursor.dupCheckLoop ck cv fuel (itPrev m)
        else (false, m)
      | none => (false, m) := rfl

theorem dupInsertLoop_zero {ck : RawKey} {cv : Val} {m : Machine} :
    Cursor.dupInsertLoop ck cv 0 m = m := rfl

theorem dupInsertLoop_succ {ck : RawKey} {cv : Val} {fuel : Nat} {m : Machine} :
    Cursor.dupInsertLoop ck cv (fuel + 1) m =
      match itItem m with
      | some el =>
        if unformatExt el.1 = ck then
          if vlt el.2 cv then
            itSeek (putM m (upExt el.1) cv) (upExt el.1)
          else
            Cursor.dupInsertLoop ck cv fuel (itPrev (putM m (upExt el.1) el.2))
        else
          itSeek (putM m (zeroExt true ck) cv) (zeroExt true ck)
      | none =>
        itSeek (putM m (zeroExt true ck) cv) (zeroExt true ck) := rfl

/-- The loops of `upsert` do not look at the incoming `pos`/`st` fields
except through their own seeks, so `upsert` depends only on the store and the
dup flag. -/
theorem upsert_congr {d : Bool} {s : Store} {p p' : Option RawKey}
    {st st' : CState} {k : Nat} {v : Val} :
    Cursor.upsert ⟨d, s, p, st⟩ k v = Cursor.upsert ⟨d, s, p', st'⟩ k v := by
  cases d
  · rw [upsert_false_eq, upsert_false_eq]
  · rcases h : itemAt s (seekLE s (RawKey.p3 k v.1 .top)) with _ | el
    · rw [upsert_true_none h, upsert_true_none h]
    · by_cases hne : unformatExt el.1 = RawKey.p2 k v.1
      · rw [upsert_true_dup h hne, upsert_true_dup h hne]
      · rw [upsert_true_notin h hne, upsert_true_notin h hne]

theorem append_eq {d : Bool} {s : Store} {p : Option RawKey} {st : CState}
    {k : Nat} {v : Val} :
    Cursor.append ⟨d, s, p, st⟩ k v =
      match (Cursor.last (⟨d, s, p, st⟩ : Machine)).1 with
      | none =>
        (.ok (), Cursor.upsert (Cursor.last (⟨d, s, p, st⟩ : Machine)).2 k v)
      | some item =>
        if k < item.1 then
          (.error .keyMismatch, (Cursor.last (⟨d, s, p, st⟩ : Machine)).2)
        else
          (.ok (), Cursor.upsert (Cursor.last (⟨d, s, p, st⟩ : Machine)).2 k v) := by
  show (match Cursor.last (⟨d, s, p, st⟩ : Machine) with
    | (lastEl, m1) =>
      match lastEl with
      | none => ((.ok () : Except DbErr Unit), Cursor.upsert m1 k v)
      | some item =>
        if k < item.1 then (.error .keyMismatch, m1)
        else (.ok (), Cursor.upsert m1 k v)) = _
  rcases Cursor.last (⟨d, s, p, st⟩ : Machine) with ⟨r, m1⟩
  rcases r with _ | item
  · rfl
  · by_cases hk : k < item.1 <;> simp [hk]

theorem insert_eq {d : Bool} {s : Store} {p : Option RawKey} {st : CState}
    {k : Nat} {v : Val} :
    Cursor.insert ⟨d, s, p, st⟩ k v =
      match Cursor.txGet d s k with
      | some _ =>
        (.error .alreadyExists,
          match itemAt s (seekGE s (formatKey d k v)) with
          | none =>
            if (itemAt s (lastK s)).isSome then ⟨d, s, lastK s, .iter⟩
            else ⟨d, s, lastK s, .pastEnd⟩
          | some _ => ⟨d, s, seekGE s (formatKey d k v), .iter⟩)
      | none => (.ok (), Cursor.upsert ⟨d, s, p, st⟩ k v) := by
  rcases hg : Cursor.txGet d s k with _ | w
  · simp only [Cursor.insert, itSeek, itSeekToLast, itItem, hg]
  · simp only [Cursor.insert, itSeek, itSeekToLast, itItem, hg]

/-! ## Decidability of the store invariants (used by concrete witnesses) -/

instance kltPair.decidableRel :
    DecidableRel (fun (a b : RawKey × Val) => RawKey.klt a.1 b.1) :=
  fun a b => RawKey.klt.decidable a.1 b.1

instance SortedS.decidable (s : Store) : Decidable (SortedS s) := by
  unfold SortedS
  infer_instance

/-! ## Claim C3: insert exclusivity -/

theorem txGet_false {s : Store} {k : Nat} :
    Cursor.txGet false s k = lookupS s (encodeKey k) := rfl

theorem insert_store_unchanged_of_err {d : Bool} {s : Store}
    {p : Option RawKey} {st : CState} {k : Nat} {v : Val} {w : Val}
    (hg : Cursor.txGet d s k = some w) :
    (Cursor.insert ⟨d, s, p, st⟩ k v).2.store = s := by
  rw [insert_eq, hg]
  rcases hi : itemAt s (seekGE s (formatKey d k v)) with _ | e
  · by_cases hl : (itemAt s (lastK s)).isSome <;> simp [hl]
  · rfl

/-- C3: for every table, `insert(key, value)` fails with AlreadyExists exactly
when an entry already exists at `key` (plain table: the raw lookup finds a
value) or when `get(key)` returns a value (dupsort table); in the failing case
the stored entries are unchanged, and otherwise `insert` behaves as
`upsert`. -/
theorem claim_C3_insert (d : Bool) (s : Store) (p : Option RawKey)
    (st : CState) (k : Nat) (v : Val) :
    ((Cursor.insert ⟨d, s, p, st⟩ k v).1 = Except.error DbErr.alreadyExists ↔
      (if d then Cursor.txGet true s k
       else lookupS s (encodeKey k)).isSome = true) ∧
    ((Cursor.insert ⟨d, s, p, st⟩ k v).1 = Except.error DbErr.alreadyExists →
      (Cursor.insert ⟨d, s, p, st⟩ k v).2.store = s) ∧
    ((if d then Cursor.txGet true s k else lookupS s (encodeKey k)) = none →
      Cursor.insert ⟨d, s, p, st⟩ k v =
        (Except.ok (), Cursor.upsert ⟨d, s, p, st⟩ k v)) := by
  have hsel : (if d then Cursor.txGet true s k
      else lookupS s (encodeKey k)) = Cursor.txGet d s k := by
    cases d
    · rw [if_neg (by simp), txGet_false]
    · rw [if_pos rfl]
  rw [hsel]
  refine ⟨?_, ?_, ?_⟩
  · rcases hg : Cursor.txGet d s k with _ | w
    · rw [insert_eq, hg]
      simp
    · rw [insert_eq, hg]
      simp
  · intro herr
    rcases hg : Cursor.txGet d s k with _ | w
    · rw [insert_eq, hg] at herr
      exact absurd herr (by simp)
    · exact insert_store_unchanged_of_err hg
  · intro hg
    rw [insert_eq, hg]

/-- Witness for C3 at a concrete dupsort table: inserting under an occupied
primary key fails and leaves the store unchanged; inserting under a fresh key
upserts. -/
theorem claim_C3_insert_witness :
    ((Cursor.insert ⟨true, [(RawKey.p3 1 0 (Tie.fin 0), (0, 7))], none,
        .start⟩ 1 (0, 9)).1 = Except.error DbErr.alreadyExists ↔
      (if true then
        Cursor.txGet true [(RawKey.p3 1 0 (Tie.fin 0), (0, 7))] 1
       else lookupS [(RawKey.p3 1 0 (Tie.fin 0), (0, 7))]
        (encodeKey 1)).isSome = true) ∧
    ((Cursor.insert ⟨true, [(RawKey.p3 1 0 (Tie.fin 0), (0, 7))], none,
        .start⟩ 1 (0, 9)).1 = Except.error DbErr.alreadyExists →
      (Cursor.insert ⟨true, [(RawKey.p3 1 0 (Tie.fin 0), (0, 7))], none,
        .start⟩ 1 (0, 9)).2.store = [(RawKey.p3 1 0 (Tie.fin 0), (0, 7))]) ∧
    ((if true then
        Cursor.txGet true [(RawKey.p3 1 0 (Tie.fin 0), (0, 7))] 1
      else lookupS [(RawKey.p3 1 0 (Tie.fin 0), (0, 7))]
        (encodeKey 1)) = none →
      Cursor.insert ⟨true, [(RawKey.p3 1 0 (Tie.fin 0), (0, 7))], none,
        .start⟩ 1 (0, 9) =
        (Except.ok (), Cursor.upsert ⟨true,
          [(RawKey.p3 1 0 (Tie.fin 0), (0, 7))], none, .start⟩ 1 (0, 9))) :=
  claim_C3_insert true [(RawKey.p3 1 0 (Tie.fin 0), (0, 7))] none .start 1 (0, 9)

/-! ## Claim C4: append ordering -/

/-- C4: for every table, `append(key, value)` succeeds and behaves exactly as
`upsert` when the table is empty or its current last primary key is ≤ `key`;
it fails with KeyMismatch when the current last primary key is greater than
`key`, leaving the stored entries unchanged (the failing result's machine
still carries the original store `s`). -/
theorem claim_C4_append (d : Bool) (s : Store) (p : Option RawKey)
    (st : CState) (k : Nat) (v : Val) (hs : SortedS s) :
    (s = [] → Cursor.append ⟨d, s, p, st⟩ k v =
      (Except.ok (), Cursor.upsert ⟨d, s, p, st⟩ k v)) ∧
    (∀ e, itemAt s (lastK s) = some e → e.1.primaryOf ≤ k →
      Cursor.append ⟨d, s, p, st⟩ k v =
        (Except.ok (), Cursor.upsert ⟨d, s, p, st⟩ k v)) ∧
    (∀ e, itemAt s (lastK s) = some e → k < e.1.primaryOf →
      Cursor.append ⟨d, s, p, st⟩ k v =
        (Except.error DbErr.keyMismatch, ⟨d, s, lastK s, .iter⟩)) ∧
    (itemAt s (lastK s) = none → s = []) := by
  refine ⟨?_, ?_, ?_, ?_⟩
  · intro hempty
    subst hempty
    have h1 : Cursor.last (⟨d, ([] : Store), p, st⟩ : Machine) =
        (none, ⟨d, [], none, .pastEnd⟩) := rfl
    rw [append_eq, h1]
    exact congrArg (fun x => ((Except.ok () : Except DbErr Unit), x))
      upsert_congr
  · intro e he hk
    rw [append_eq, Cursor.last_eq, he]
    simp only [decodeItem]
    rw [if_neg (by omega)]
    exact congrArg (fun x => ((Except.ok () : Except DbErr Unit), x))
      upsert_congr
  · intro e he hk
    rw [append_eq, Cursor.last_eq, he]
    simp only [decodeItem]
    rw [if_pos (by omega)]
  · intro hnone
    rcases hl : lastK s with _ | r
    · exact lastK_none_iff.mp hl
    · rw [hl] at hnone
      exact absurd (lastK_mem hl) (itemAt_eq_none_iff.mp hnone)

/-- Witness for C4 at a concrete table holding primary key 1: appending key 0
fails with KeyMismatch and keeps the store; the hypotheses of the claim are
discharged by computation. -/
theorem claim_C4_append_witness :
    Cursor.append ⟨false, [(RawKey.p1 1, (0, 3))], none, .start⟩ 0 (0, 5) =
      (Except.error DbErr.keyMismatch,
        ⟨false, [(RawKey.p1 1, (0, 3))], lastK [(RawKey.p1 1, (0, 3))],
          .iter⟩) :=
  (claim_C4_append false [(RawKey.p1 1, (0, 3))] none .start 0 (0, 5)
      (by decide)).2.2.1 (RawKey.p1 1, (0, 3)) (by decide) (by decide)

/-! ## Claim C8 (corrected): next/prev at the table boundaries -/

/-- Counterexample to C8 as stated.  With two stored entries: (a) `next()`
from the last entry (crossing the boundary) returns empty but leaves the
cursor in the Iterating state repositioned at the last entry, where
`current()` returns that entry rather than empty; (b) a cursor left in the
End state by `delete_current` in dup mode still holds a valid iterator
position, and `prev()` from that End state differs from `last()` in both
result and final state; (c) on an empty table, `prev()` from End ends
Iterating while `last()` ends at End. -/
theorem claim_C8_counterexample :
    ((Cursor.next (Cursor.last ⟨true, [(RawKey.p3 1 0 (Tie.fin 0), (0, 5)),
        (RawKey.p3 2 0 (Tie.fin 0), (0, 7))], none, .start⟩).2).1 = none ∧
      (Cursor.next (Cursor.last ⟨true, [(RawKey.p3 1 0 (Tie.fin 0), (0, 5)),
        (RawKey.p3 2 0 (Tie.fin 0), (0, 7))], none, .start⟩).2).2.st ≠
        CState.pastEnd ∧
      Cursor.currentRes (Cursor.next (Cursor.last ⟨true,
        [(RawKey.p3 1 0 (Tie.fin 0), (0, 5)),
         (RawKey.p3 2 0 (Tie.fin 0), (0, 7))], none, .start⟩).2).2 =
        some (2, (0, 7))) ∧
    ((Cursor.deleteCurrent (Cursor.first ⟨true,
        [(RawKey.p3 1 0 (Tie.fin 0), (0, 5)),
         (RawKey.p3 2 0 (Tie.fin 0), (0, 7))], none, .start⟩).2).2.st =
        CState.pastEnd ∧
      Cursor.prev (Cursor.deleteCurrent (Cursor.first ⟨true,
        [(RawKey.p3 1 0 (Tie.fin 0), (0, 5)),
         (RawKey.p3 2 0 (Tie.fin 0), (0, 7))], none, .start⟩).2).2 ≠
      Cursor.last (Cursor.deleteCurrent (Cursor.first ⟨true,
        [(RawKey.p3 1 0 (Tie.fin 0), (0, 5)),
         (RawKey.p3 2 0 (Tie.fin 0), (0, 7))], none, .start⟩).2).2) ∧
    ((Cursor.prev ⟨true, [], none, .pastEnd⟩).2.st = CState.iter ∧
      (Cursor.last ⟨true, [], none, .pastEnd⟩).2.st = CState.pastEnd) := by
  decide

/-- C8 as amended: calling `next()` in the Start state is literally `first()`;
`prev()` in the End state coincides with `last()` exactly when the underlying
iterator is exhausted and the table is nonempty; and `next()`/`prev()`
crossing the table boundary from Iterating return empty while leaving the
cursor Iterating, repositioned at the last/first stored entry, where
`current()` returns that boundary entry (not empty). -/
theorem claim_C8_nav (d : Bool) (s : Store) (p : Option RawKey) :
    (Cursor.next ⟨d, s, p, .start⟩ = Cursor.first ⟨d, s, p, .start⟩) ∧
    (itemAt s p = none → s ≠ [] →
      Cursor.prev ⟨d, s, p, .pastEnd⟩ = Cursor.last ⟨d, s, p, .pastEnd⟩) ∧
    (itemAt s (p.bind (seekGT s)) = none →
      Cursor.next ⟨d, s, p, .iter⟩ = (none, ⟨d, s, lastK s, .iter⟩) ∧
      (s ≠ [] → ∃ e, itemAt s (lastK s) = some e ∧
        Cursor.currentRes (⟨d, s, lastK s, .iter⟩ : Machine) =
          some (decodeItem e))) ∧
    (itemAt s (p.bind (seekLT s)) = none →
      Cursor.prev ⟨d, s, p, .iter⟩ = (none, ⟨d, s, firstK s, .iter⟩)) := by
  have hlast : s ≠ [] → ∃ e, itemAt s (lastK s) = some e := by
    intro hne
    rcases hl : lastK s with _ | r
    · exact absurd (lastK_none_iff.mp hl) hne
    · have h1 : (lookupS s r).isSome := lookupS_isSome.mpr (lastK_mem hl)
      rcases Option.isSome_iff_exists.mp h1 with ⟨w, hw⟩
      exact ⟨(r, w), by rw [itemAt_some, hw]; rfl⟩
  refine ⟨rfl, ?_, ?_, ?_⟩
  · intro hnone hne
    rw [Cursor.prev_pastEnd_eq, hnone, Cursor.last_eq]
    rcases hlast hne with ⟨e, he⟩
    rw [he]
    rfl
  · intro hnone
    constructor
    · rw [Cursor.next_iter_eq, hnone]
    · intro hne
      rcases hlast hne with ⟨e, he⟩
      exact ⟨e, he, by rw [Cursor.currentRes_iter, he]; rfl⟩
  · intro hnone
    rw [Cursor.prev_iter_eq, hnone]

/-- Witness for the amended C8: on a one-entry table, `prev()` from an End
state with exhausted iterator equals `last()`. -/
theorem claim_C8_nav_witness :
    Cursor.prev ⟨false, [(RawKey.p1 1, (0, 2))], none, .pastEnd⟩ =
      Cursor.last ⟨false, [(RawKey.p1 1, (0, 2))], none, .pastEnd⟩ :=
  (claim_C8_nav false [(RawKey.p1 1, (0, 2))] none).2.1 rfl (by decide)

/-! ## Claim C6 (corrected): delete_current -/

theorem deleteCurrent_start {d : Bool} {s : Store} {p : Option RawKey} :
    Cursor.deleteCurrent ⟨d, s, p, .start⟩ =
      (.error .uninitializedCursorDelete, ⟨d, s, p, .start⟩) := rfl

theorem deleteCurrent_pastEnd {d : Bool} {s : Store} {p : Option RawKey} :
    Cursor.deleteCurrent ⟨d, s, p, .pastEnd⟩ =
      (.ok (), ⟨d, s, p, .pastEnd⟩) := rfl

theorem deleteCurrent_iter_eq {d : Bool} {s : Store} {p : Option RawKey} :
    Cursor.deleteCurrent ⟨d, s, p, .iter⟩ =
      match itemAt s p with
      | none => (.ok (), ⟨d, s, p, .iter⟩)
      | some el =>
        match itemAt (delS s el.1) (seekGE (delS s el.1) el.1) with
        | none =>
          (.ok (), ⟨d, delS s el.1, seekGE (delS s el.1) el.1, .pastEnd⟩)
        | some el' =>
          if d then
            if el'.1.primaryOf ≠ el.1.primaryOf then
              (.ok (), ⟨d, delS s el.1, seekGE (delS s el.1) el.1, .pastEnd⟩)
            else
              (.ok (), ⟨d, delS s el.1, seekGE (delS s el.1) el.1, .iter⟩)
          else
            (.ok (), ⟨d, delS s el.1, seekGE (delS s el.1) el.1, .iter⟩) := by
  rcases h : itemAt s p with _ | el <;>
    simp only [Cursor.deleteCurrent, itItem, itSeek, h]

instance exceptDbErrUnit.decEq : DecidableEq (Except DbErr Unit)
  | .ok (), .ok () => isTrue rfl
  | .ok (), .error _ => isFalse (fun h => Except.noConfusion h)
  | .error _, .ok () => isFalse (fun h => Except.noConfusion h)
  | .error e, .error e' =>
    if h : e = e' then isTrue (by rw [h])
    else isFalse (fun hh => h (by injection hh))

/-- Counterexample to C6 as stated.  On a dupsort table holding primary keys 1
and 2, deleting the entry of key 1 leaves an entry of key 2 in the store, yet
the cursor is set to End (where `current()` is empty) instead of being
repositioned at that next remaining entry. -/
theorem claim_C6_counterexample :
    (Cursor.deleteCurrent (Cursor.first ⟨true,
      [(RawKey.p3 1 0 (Tie.fin 0), (0, 5)),
       (RawKey.p3 2 0 (Tie.fin 0), (0, 7))], none, .start⟩).2).1 =
        Except.ok () ∧
    (Cursor.deleteCurrent (Cursor.first ⟨true,
      [(RawKey.p3 1 0 (Tie.fin 0), (0, 5)),
       (RawKey.p3 2 0 (Tie.fin 0), (0, 7))], none, .start⟩).2).2.store =
        [(RawKey.p3 2 0 (Tie.fin 0), (0, 7))] ∧
    (Cursor.deleteCurrent (Cursor.first ⟨true,
      [(RawKey.p3 1 0 (Tie.fin 0), (0, 5)),
       (RawKey.p3 2 0 (Tie.fin 0), (0, 7))], none, .start⟩).2).2.st =
        CState.pastEnd ∧
    Cursor.currentRes (Cursor.deleteCurrent (Cursor.first ⟨true,
      [(RawKey.p3 1 0 (Tie.fin 0), (0, 5)),
       (RawKey.p3 2 0 (Tie.fin 0), (0, 7))], none, .start⟩).2).2 = none := by
  refine ⟨rfl, rfl, rfl, rfl⟩

/-- C6 as amended: `delete_current()` at Start is a hard error that deletes
nothing; at a positioned entry it removes exactly that physical entry
(the new store is `delS` of the old at the entry's key) and repositions the
raw iterator at the next remaining entry (`seekGE` over the shrunk store),
ending Iterating there — except that a dupsort cursor whose next remaining
entry has a different primary key, or a cursor with no remaining next entry,
is set to End instead. -/
theorem claim_C6_delete_current (d : Bool) (s : Store) (p : Option RawKey)
    (el : RawKey × Val) :
    (Cursor.deleteCurrent ⟨d, s, p, .start⟩ =
      (Except.error DbErr.uninitializedCursorDelete, ⟨d, s, p, .start⟩)) ∧
    (itemAt s p = some el →
      ((Cursor.deleteCurrent ⟨d, s, p, .iter⟩).1 = Except.ok () ∧
       (Cursor.deleteCurrent ⟨d, s, p, .iter⟩).2.store = delS s el.1 ∧
       (Cursor.deleteCurrent ⟨d, s, p, .iter⟩).2.pos =
         seekGE (delS s el.1) el.1 ∧
       ((Cursor.deleteCurrent ⟨d, s, p, .iter⟩).2.st = CState.iter ↔
         (∃ el', itemAt (delS s el.1) (seekGE (delS s el.1) el.1) = some el' ∧
           (d = true → el'.1.primaryOf = el.1.primaryOf))))) := by
  constructor
  · exact deleteCurrent_start
  · intro hel
    rw [deleteCurrent_iter_eq]
    simp only [hel]
    rcases h2 : itemAt (delS s el.1) (seekGE (delS s el.1) el.1) with _ | el'
    · dsimp only
      refine ⟨rfl, rfl, rfl, ?_⟩
      constructor
      · intro h
        exact absurd h (by simp)
      · rintro ⟨el', hel', _⟩
        exact Option.noConfusion hel'
    · dsimp only
      cases d
      · rw [if_neg (by simp)]
        refine ⟨rfl, rfl, rfl, ?_⟩
        constructor
        · intro _
          exact ⟨el', rfl, by simp⟩
        · intro _
          rfl
      · rw [if_pos rfl]
        by_cases h3 : el'.1.primaryOf = el.1.primaryOf
        · rw [if_neg (by simpa using h3)]
          refine ⟨rfl, rfl, rfl, ?_⟩
          constructor
          · intro _
            exact ⟨el', rfl, fun _ => h3⟩
          · intro _
            rfl
        · rw [if_pos (by simpa using h3)]
          refine ⟨rfl, rfl, rfl, ?_⟩
          constructor
          · intro h
            exact absurd h (by simp)
          · rintro ⟨el'', hel'', hpk⟩
            injection hel'' with hel''
            subst hel''
            exact absurd (hpk rfl) h3

/-- Witness for the amended C6: deleting the only entry of a plain table
succeeds, removes it, and sets the cursor to End. -/
theorem claim_C6_delete_current_witness :
    (Cursor.deleteCurrent ⟨false, [(RawKey.p1 1, (0, 2))],
        some (RawKey.p1 1), .iter⟩).1 = Except.ok () ∧
    (Cursor.deleteCurrent ⟨false, [(RawKey.p1 1, (0, 2))],
        some (RawKey.p1 1), .iter⟩).2.store =
      delS [(RawKey.p1 1, (0, 2))] (RawKey.p1 1) ∧
    (Cursor.deleteCurrent ⟨false, [(RawKey.p1 1, (0, 2))],
        some (RawKey.p1 1), .iter⟩).2.pos =
      seekGE (delS [(RawKey.p1 1, (0, 2))] (RawKey.p1 1)) (RawKey.p1 1) ∧
    ((Cursor.deleteCurrent ⟨false, [(RawKey.p1 1, (0, 2))],
        some (RawKey.p1 1), .iter⟩).2.st = CState.iter ↔
      (∃ el', itemAt (delS [(RawKey.p1 1, (0, 2))] (RawKey.p1 1))
          (seekGE (delS [(RawKey.p1 1, (0, 2))] (RawKey.p1 1)) (RawKey.p1 1)) =
          some el' ∧
        (false = true → el'.1.primaryOf = (RawKey.p1 1).primaryOf))) :=
  (claim_C6_delete_current false [(RawKey.p1 1, (0, 2))] (some (RawKey.p1 1))
    (RawKey.p1 1, (0, 2))).2 (by decide)

/-! ## Composite-prefix (dup group) lemmas -/

/-- All physical keys of a dupsort store are full composite keys with a
non-sentinel tie-breaker (spec §6: the on-disk format is
`primary ‖ subkey ‖ tie_breaker`, with max reserved as a seek sentinel). -/
def ShapeOk (s : Store) : Prop :=
  ∀ e ∈ s, ∃ k' s' t', e.1 = RawKey.p3 k' s' (Tie.fin t')

theorem group_key_lower {k sb t : Nat} :
    RawKey.klt (RawKey.p2 k sb) (RawKey.p3 k sb (Tie.fin t)) := by
  dsimp only [RawKey.klt, RawKey.lex4, RawKey.enc, Tie.enc2]
  omega

theorem group_key_upper {k sb t : Nat} :
    RawKey.klt (RawKey.p3 k sb (Tie.fin t)) (RawKey.p3 k sb Tie.top) := by
  dsimp only [RawKey.klt, RawKey.lex4, RawKey.enc, Tie.enc2]
  omega

theorem group_squeeze {k sb k' s' t' : Nat}
    (h1 : RawKey.kle (RawKey.p2 k sb) (RawKey.p3 k' s' (Tie.fin t')))
    (h2 : RawKey.klt (RawKey.p3 k' s' (Tie.fin t')) (RawKey.p3 k sb Tie.top)) :
    k' = k ∧ s' = sb := by
  rcases h1 with h1 | h1
  · dsimp only [RawKey.klt, RawKey.lex4, RawKey.enc, Tie.enc2] at h1 h2
    omega
  · exact absurd h1 (by intro hh; exact RawKey.noConfusion hh)

theorem unformatExt_p3 {k' s' : Nat} {t : Tie} :
    unformatExt (RawKey.p3 k' s' t) = RawKey.p2 k' s' := rfl

theorem unformatExt_eq_p2_iff {k sb k' s' : Nat} {t : Tie} :
    unformatExt (RawKey.p3 k' s' t) = RawKey.p2 k sb ↔ k' = k ∧ s' = sb := by
  rw [unformatExt_p3]
  constructor
  · intro h
    injection h with h1 h2
    exact ⟨h1, h2⟩
  · rintro ⟨rfl, rfl⟩
    rfl

/-- The `ck ≤ q < max_extend(ck)` squeeze for store keys: under `ShapeOk`,
any stored key in the window of the composite prefix belongs to the prefix's
group. -/
theorem group_squeeze_shape {s : Store} (hsh : ShapeOk s) {k sb : Nat}
    {e : RawKey × Val} (he : e ∈ s)
    (h1 : RawKey.kle (RawKey.p2 k sb) e.1)
    (h2 : RawKey.klt e.1 (RawKey.p3 k sb Tie.top)) :
    unformatExt e.1 = RawKey.p2 k sb := by
  rcases hsh e he with ⟨k', s', t', hk⟩
  rw [hk] at h1 h2 ⊢
  rcases group_squeeze h1 h2 with ⟨rfl, rfl⟩
  rfl

/-- Group membership forces the window: a stored key of the group lies
strictly between the composite prefix and its max extension. -/
theorem group_window {k sb : Nat} {q : RawKey}
    (hsh : ∃ k' s' t', q = RawKey.p3 k' s' (Tie.fin t'))
    (hg : unformatExt q = RawKey.p2 k sb) :
    RawKey.klt (RawKey.p2 k sb) q ∧ RawKey.klt q (RawKey.p3 k sb Tie.top) := by
  rcases hsh with ⟨k', s', t', rfl⟩
  rcases unformatExt_eq_p2_iff.mp hg with ⟨rfl, rfl⟩
  exact ⟨group_key_lower, group_key_upper⟩

/-! ## Splitting a sorted store at a seek position -/

theorem seekGT_split {pre rest : Store} {e : RawKey × Val}
    (hs : SortedS (pre ++ e :: rest)) :
    seekGT (pre ++ e :: rest) e.1 = firstK rest := by
  cases rest with
  | nil =>
    rw [show firstK [] = none from rfl, seekGT_none_iff]
    intro q hq
    rcases sortedS_append hs with ⟨_, _, hcross⟩
    rw [keysS_append] at hq
    rcases List.mem_append.mp hq with hq | hq
    · rcases mem_keysS.mp hq with ⟨w, hw⟩
      exact Or.inl (hcross _ hw _ (List.mem_cons_self _ _))
    · rw [keysS_cons] at hq
      rcases List.mem_cons.mp hq with rfl | hq
      · exact RawKey.kle_refl _
      · simp [keysS] at hq
  | cons r rest' =>
    rw [firstK_cons]
    apply seekGT_eq hs
    · rw [keysS_append, keysS_cons, keysS_cons]
      simp
    · rcases sortedS_append hs with ⟨_, hpost, _⟩
      exact (sortedS_cons.mp hpost).1 _ (List.mem_cons_self _ _)
    · intro q hq hlt
      rw [keysS_append] at hq
      rcases List.mem_append.mp hq with hq | hq
      · rcases mem_keysS.mp hq with ⟨w, hw⟩
        rcases sortedS_append hs with ⟨_, _, hcross⟩
        exact absurd (hcross _ hw _ (List.mem_cons_self _ _))
          (RawKey.klt_asymm hlt)
      · rw [keysS_cons] at hq
        rcases List.mem_cons.mp hq with rfl | hq
        · exact absurd hlt (RawKey.klt_irrefl _)
        · rw [keysS_cons] at hq
          rcases List.mem_cons.mp hq with rfl | hq
          · exact RawKey.kle_refl _
          · rcases sortedS_append hs with ⟨_, hpost, _⟩
            rcases sortedS_cons.mp hpost with ⟨_, hpost'⟩
            exact Or.inl (sortedS_key_cons hpost' hq)

theorem seekLT_split {pre rest : Store} {e : RawKey × Val}
    (hs : SortedS (pre ++ e :: rest)) :
    seekLT (pre ++ e :: rest) e.1 = lastK pre := by
  rcases sortedS_append hs with ⟨hpre, hpost, hcross⟩
  rcases hl : lastK pre with _ | b
  · have hpree : pre = [] := lastK_none_iff.mp hl
    subst hpree
    rw [seekLT_none_iff hs]
    intro q hq
    simp only [List.nil_append, keysS_cons] at hq
    rcases List.mem_cons.mp hq with rfl | hq
    · exact RawKey.kle_refl _
    · exact Or.inl (sortedS_key_cons hs hq)
  · apply seekLT_eq hs
    · rw [keysS_append]
      exact List.mem_append.mpr (Or.inl (lastK_mem hl))
    · rcases mem_keysS.mp (lastK_mem hl) with ⟨w, hw⟩
      exact hcross _ hw _ (List.mem_cons_self _ _)
    · intro q hq hqe
      rw [keysS_append] at hq
      rcases List.mem_append.mp hq with hq | hq
      · exact lastK_max hpre hl hq
      · rw [keysS_cons] at hq
        rcases List.mem_cons.mp hq with rfl | hq
        · exact absurd hqe (RawKey.klt_irrefl _)
        · exact absurd hqe
            (RawKey.klt_asymm (sortedS_key_cons hpost hq))

theorem split_at_seekGE {s : Store} (hs : SortedS s) (ck : RawKey) :
    ∃ pre suf, s = pre ++ suf ∧ firstK suf = seekGE s ck ∧
      (∀ e ∈ pre, RawKey.klt e.1 ck) ∧
      (∀ e ∈ suf, RawKey.kle ck e.1) := by
  induction s with
  | nil => exact ⟨[], [], rfl, rfl, by simp, by simp⟩
  | cons e t ih =>
    rcases sortedS_cons.mp hs with ⟨hlt, hst⟩
    by_cases h1 : RawKey.kle ck e.1
    · refine ⟨[], e :: t, rfl, ?_, by simp, ?_⟩
      · rw [firstK_cons, seekGE_cons, if_pos h1]
      · intro b hb
        rcases List.mem_cons.mp hb with rfl | hb
        · exact h1
        · exact RawKey.kle_trans h1 (Or.inl (hlt _ hb))
    · rcases ih hst with ⟨pre, suf, hsplit, hfirst, hpre, hsuf⟩
      refine ⟨e :: pre, suf, by rw [List.cons_append, hsplit], ?_, ?_, hsuf⟩
      · rw [hfirst, seekGE_cons, if_neg h1]
      · intro b hb
        rcases List.mem_cons.mp hb with rfl | hb
        · exact RawKey.not_kle_iff_klt.mp h1
        · exact hpre _ hb

/-! ## Claim C10: Transaction::delete on dupsort tables -/

theorem txDelDupLoop_zero {s : Store} {ck : RawKey} {cv : Val}
    {p : Option RawKey} : txDelDupLoop s ck cv 0 p = (false, s) := rfl

theorem txDelDupLoop_succ {s : Store} {ck : RawKey} {cv : Val} {fuel : Nat}
    {p : Option RawKey} :
    txDelDupLoop s ck cv (fuel + 1) p =
      match itemAt s p with
      | some el =>
        if unformatExt el.1 = ck then
          if el.2 = cv then (true, delS s el.1)
          else txDelDupLoop s ck cv fuel (p.bind (seekGT s))
        else (false, s)
      | none => (false, s) := rfl

theorem txDelete_true_none {s : Store} {k : Nat} :
    txDelete true s k none = none := rfl

theorem txDelete_true_some {s : Store} {k : Nat} {v : Val} :
    txDelete true s k (some v) =
      some (txDelDupLoop s (RawKey.p2 k v.1) v (s.length + 1)
        (seekGE s (RawKey.p2 k v.1))) := rfl

/-- The forward scan of `DbTxMut::delete` (dupsort branch): scanning the
sorted suffix from the seek position either finds the first tie of the
composite prefix holding the compressed value and deletes exactly that one
physical entry, or proves no tie holds it and leaves the store unchanged. -/
theorem txDelDupLoop_suffix {k sb : Nat} {cv : Val} :
    ∀ (suf pre : Store) (fuel : Nat),
    SortedS (pre ++ suf) →
    ShapeOk (pre ++ suf) →
    (∀ e ∈ pre, unformatExt e.1 = RawKey.p2 k sb → e.2 ≠ cv) →
    (∀ e ∈ suf, RawKey.kle (RawKey.p2 k sb) e.1) →
    suf.length ≤ fuel →
    (∃ rk, (rk, cv) ∈ pre ++ suf ∧ unformatExt rk = RawKey.p2 k sb ∧
      txDelDupLoop (pre ++ suf) (RawKey.p2 k sb) cv fuel (firstK suf) =
        (true, delS (pre ++ suf) rk)) ∨
    ((∀ e ∈ pre ++ suf, unformatExt e.1 = RawKey.p2 k sb → e.2 ≠ cv) ∧
      txDelDupLoop (pre ++ suf) (RawKey.p2 k sb) cv fuel (firstK suf) =
        (false, pre ++ suf)) := by
  intro suf
  induction suf with
  | nil =>
    intro pre fuel hs hsh hpre hl hf
    right
    constructor
    · intro e he hgrp
      rw [List.append_nil] at he
      exact hpre e he hgrp
    · cases fuel with
      | zero => rfl
      | succ f => rfl
  | cons e rest ih =>
    intro pre fuel hs hsh hpre hl hf
    have he_mem : e ∈ pre ++ e :: rest := by simp
    have hitem : itemAt (pre ++ e :: rest) (some e.1) = some e :=
      itemAt_of_mem hs (by rw [Prod.mk.eta]; exact he_mem)
    cases fuel with
    | zero => simp at hf
    | succ f =>
      rw [show firstK (e :: rest) = some e.1 from rfl, txDelDupLoop_succ]
      simp only [hitem]
      by_cases hgrp : unformatExt e.1 = RawKey.p2 k sb
      · rw [if_pos hgrp]
        by_cases hv : e.2 = cv
        · rw [if_pos hv]
          left
          refine ⟨e.1, ?_, hgrp, rfl⟩
          rw [← hv, Prod.mk.eta]
          exact he_mem
        · rw [if_neg hv]
          have hpos : (some e.1).bind (seekGT (pre ++ e :: rest)) =
              firstK rest := by
            rw [Option.bind]
            exact seekGT_split hs
          rw [hpos]
          have hassoc : pre ++ e :: rest = (pre ++ [e]) ++ rest := by simp
          rw [hassoc] at hs hsh ⊢
          have hpre' : ∀ e' ∈ pre ++ [e],
              unformatExt e'.1 = RawKey.p2 k sb → e'.2 ≠ cv := by
            intro e' he' hg'
            rcases List.mem_append.mp he' with he' | he'
            · exact hpre e' he' hg'
            · rcases List.mem_singleton.mp he' with rfl
              exact hv
          have hl' : ∀ e' ∈ rest, RawKey.kle (RawKey.p2 k sb) e'.1 := by
            intro e' he'
            exact hl e' (List.mem_cons_of_mem _ he')
          simp only [List.length_cons] at hf
          rcases ih (pre ++ [e]) f hs hsh hpre' hl' (by omega) with
            ⟨rk, hmem, hg, hres⟩ | ⟨hnone, hres⟩
          · exact Or.inl ⟨rk, hmem, hg, hres⟩
          · exact Or.inr ⟨hnone, hres⟩
      · rw [if_neg hgrp]
        right
        refine ⟨?_, rfl⟩
        intro e' he' hg'
        rcases List.mem_append.mp he' with he' | he'
        · exact hpre e' he' hg'
        · rcases List.mem_cons.mp he' with rfl | he'
          · exact absurd hg' hgrp
          · exfalso
            have hew : RawKey.kle (RawKey.p2 k sb) e.1 :=
              hl e (List.mem_cons_self _ _)
            have hlt : RawKey.klt e.1 e'.1 := by
              rcases sortedS_append hs with ⟨_, hpost, _⟩
              exact (sortedS_cons.mp hpost).1 _ he'
            have hwin := group_window
              (hsh e' (List.mem_append.mpr (Or.inr (List.mem_cons_of_mem _ he')))) hg'
            have : RawKey.klt e.1 (RawKey.p3 k sb Tie.top) :=
              RawKey.klt_trans hlt hwin.2
            exact hgrp (group_squeeze_shape hsh he_mem hew this)

/-- C10: for a dupsort table, `Transaction::delete(key, value)` requires the
value: with no value it panics (modelled as the `none` result) rather than
returning an error; with a value it removes at most the one physical entry
that stores that (key, value) — the first tie of the composite prefix holding
the compressed value — and returns whether such an entry was found. -/
theorem claim_C10_tx_delete (s : Store) (k : Nat) (v : Val)
    (hs : SortedS s) (hsh : ShapeOk s) :
    (txDelete true s k none = none) ∧
    ((∃ rk, (rk, v) ∈ s ∧ unformatExt rk = RawKey.p2 k v.1 ∧
        txDelete true s k (some v) = some (true, delS s rk)) ∨
     ((∀ e ∈ s, unformatExt e.1 = RawKey.p2 k v.1 → e.2 ≠ v) ∧
        txDelete true s k (some v) = some (false, s))) := by
  refine ⟨rfl, ?_⟩
  rcases split_at_seekGE hs (RawKey.p2 k v.1) with
    ⟨pre, suf, hsplit, hfirst, hpre, hsuf⟩
  have hpre' : ∀ e ∈ pre, unformatExt e.1 = RawKey.p2 k v.1 → e.2 ≠ v := by
    intro e he hg
    exfalso
    have hmem : e ∈ s := by
      rw [hsplit]
      exact List.mem_append.mpr (Or.inl he)
    have hwin := group_window (hsh e hmem) hg
    exact RawKey.klt_asymm (hpre e he) hwin.1
  have hflen : suf.length ≤ s.length + 1 := by
    have : s.length = pre.length + suf.length := by
      rw [hsplit, List.length_append]
    omega
  have hmain := txDelDupLoop_suffix suf pre (s.length + 1)
    (by rw [← hsplit]; exact hs) (by rw [← hsplit]; exact hsh) hpre' hsuf hflen
  rw [← hsplit] at hmain
  rw [txDelete_true_some, ← hfirst]
  rcases hmain with ⟨rk, hmem, hg, hres⟩ | ⟨hnone, hres⟩
  · exact Or.inl ⟨rk, hmem, hg, by rw [hres]⟩
  · exact Or.inr ⟨hnone, by rw [hres]⟩

/-- Witness for C10 at a one-entry dupsort table: deleting without a value
panics; deleting the stored pair finds and removes it. -/
theorem claim_C10_tx_delete_witness :
    (txDelete true [(RawKey.p3 1 1 (Tie.fin 0), (1, 5))] 1 none = none) ∧
    ((∃ rk, (rk, ((1 : Nat), (5 : Nat))) ∈
        [(RawKey.p3 1 1 (Tie.fin 0), (1, 5))] ∧
        unformatExt rk = RawKey.p2 1 (1, 5).1 ∧
        txDelete true [(RawKey.p3 1 1 (Tie.fin 0), (1, 5))] 1
            (some (1, 5)) =
          some (true, delS [(RawKey.p3 1 1 (Tie.fin 0), (1, 5))] rk)) ∨
     ((∀ e ∈ [(RawKey.p3 1 1 (Tie.fin 0), (1, 5))],
        unformatExt e.1 = RawKey.p2 1 (1, 5).1 → e.2 ≠ (1, 5)) ∧
        txDelete true [(RawKey.p3 1 1 (Tie.fin 0), (1, 5))] 1
            (some (1, 5)) =
          some (false, [(RawKey.p3 1 1 (Tie.fin 0), (1, 5))]))) :=
  claim_C10_tx_delete [(RawKey.p3 1 1 (Tie.fin 0), (1, 5))] 1 (1, 5)
    (by decide)
    (by
      intro e he
      rcases List.mem_singleton.mp he with rfl
      exact ⟨1, 1, 0, rfl⟩)

/-! ## Claims C5 and C9: next_dup -/

/-- Results of repeated `next_dup()` calls, collected until the first empty
result. -/
def nextDupList : Nat → Machine → List Pair
  | 0, _ => []
  | fuel + 1, m =>
    let (r, m') := Cursor.nextDup m
    match r with
    | none => []
    | some e => e :: nextDupList fuel m'

theorem nextDupList_eq {fuel : Nat} {m : Machine} :
    nextDupList (fuel + 1) m =
      match (Cursor.nextDup m).1 with
      | none => []
      | some e => e :: nextDupList fuel (Cursor.nextDup m).2 := by
  rw [nextDupList]

theorem seekLT_seekGT {s : Store} (hs : SortedS s) {rk rk' : RawKey}
    (hrk : rk ∈ keysS s) (h : seekGT s rk = some rk') :
    seekLT s rk' = some rk := by
  apply seekLT_eq hs hrk (seekGT_gt h)
  intro q hq hqlt
  rcases RawKey.klt_total rk q with h1 | h1 | h1
  · exact absurd hqlt (RawKey.not_klt_iff_kle.mpr (seekGT_min hs h hq h1))
  · exact Or.inr h1.symm
  · exact Or.inl h1

/-- `next_dup` when the next physical entry shares the primary key: advance
and return it. -/
theorem nextDup_adv {d : Bool} {s : Store} {rk rk' : RawKey} {w w' : Val}
    (h1 : itemAt s (some rk) = some (rk, w))
    (hgt : seekGT s rk = some rk')
    (h2 : itemAt s (some rk') = some (rk', w'))
    (hpk : rk'.primaryOf = rk.primaryOf) :
    Cursor.nextDup ⟨d, s, some rk, .iter⟩ =
      (some (rk'.primaryOf, w'), ⟨d, s, some rk', .iter⟩) := by
  have hnext : Cursor.next ⟨d, s, some rk, .iter⟩ =
      (some (rk'.primaryOf, w'), ⟨d, s, some rk', .iter⟩) := by
    rw [Cursor.next_iter_eq]
    simp only [Option.some_bind, hgt, h2]
    rfl
  rw [Cursor.nextDup_iter_eq]
  simp only [h1, hnext]
  rw [if_pos hpk.symm]

/-- `next_dup` when the next physical entry has a different primary key:
report empty (the cursor is then rewound by a `prev()`). -/
theorem nextDup_stop {d : Bool} {s : Store} {rk rk' : RawKey} {w w' : Val}
    (h1 : itemAt s (some rk) = some (rk, w))
    (hgt : seekGT s rk = some rk')
    (h2 : itemAt s (some rk') = some (rk', w'))
    (hpk : rk'.primaryOf ≠ rk.primaryOf) :
    (Cursor.nextDup ⟨d, s, some rk, .iter⟩).1 = none := by
  have hnext : Cursor.next ⟨d, s, some rk, .iter⟩ =
      (some (rk'.primaryOf, w'), ⟨d, s, some rk', .iter⟩) := by
    rw [Cursor.next_iter_eq]
    simp only [Option.some_bind, hgt, h2]
    rfl
  rw [Cursor.nextDup_iter_eq]
  simp only [h1, hnext]
  rw [if_neg (fun hh => hpk hh.symm)]

/-- `next_dup` at the physically last entry: report empty. -/
theorem nextDup_last {d : Bool} {s : Store} {rk : RawKey} {w : Val}
    (h1 : itemAt s (some rk) = some (rk, w))
    (hgt : seekGT s rk = none) :
    (Cursor.nextDup ⟨d, s, some rk, .iter⟩).1 = none := by
  have hnext : Cursor.next ⟨d, s, some rk, .iter⟩ =
      (none, ⟨d, s, lastK s, .iter⟩) := by
    rw [Cursor.next_iter_eq]
    simp only [Option.some_bind, hgt, itemAt_none]
  rw [Cursor.nextDup_iter_eq]
  simp only [h1, hnext]

/-- Repeated `next_dup` from a tie of the current primary key yields exactly
the remaining stored entries of that primary key, in store order. -/
theorem nextDupList_suffix {d : Bool} :
    ∀ (rest pre : Store) (e : RawKey × Val) (fuel : Nat),
    SortedS (pre ++ e :: rest) → rest.length ≤ fuel →
    nextDupList fuel ⟨d, pre ++ e :: rest, some e.1, .iter⟩ =
      (rest.filter (fun x => x.1.primaryOf = e.1.primaryOf)).map decodeItem := by
  intro rest
  induction rest with
  | nil =>
    intro pre e fuel hs _
    cases fuel with
    | zero => rfl
    | succ f =>
      rw [nextDupList_eq]
      have h1 : itemAt (pre ++ e :: []) (some e.1) = some e :=
        itemAt_of_mem hs (by rw [Prod.mk.eta]; simp)
      have hgt : seekGT (pre ++ e :: []) e.1 = none := seekGT_split hs
      rw [nextDup_last h1 hgt]
      rfl
  | cons r rest' ih =>
    intro pre e fuel hs hf
    have h1 : itemAt (pre ++ e :: r :: rest') (some e.1) = some e :=
      itemAt_of_mem hs (by rw [Prod.mk.eta]; simp)
    have hgt : seekGT (pre ++ e :: r :: rest') e.1 = some r.1 := by
      rw [seekGT_split hs, firstK_cons]
    have h2 : itemAt (pre ++ e :: r :: rest') (some r.1) = some r :=
      itemAt_of_mem hs (by rw [Prod.mk.eta]; simp)
    cases fuel with
    | zero => simp at hf
    | succ f =>
      by_cases hpk : r.1.primaryOf = e.1.primaryOf
      · rw [nextDupList_eq, nextDup_adv h1 hgt h2 hpk]
        have hassoc : pre ++ e :: r :: rest' = (pre ++ [e]) ++ r :: rest' := by
          simp
        simp only [List.length_cons] at hf
        have hih := ih (pre ++ [e]) r f (by rw [← hassoc]; exact hs)
          (by omega)
        rw [← hassoc] at hih
        rw [List.filter_cons]
        rw [if_pos (by simpa using hpk)]
        rw [List.map_cons]
        show (r.1.primaryOf, r.2) :: nextDupList f
            ⟨d, pre ++ e :: r :: rest', some r.1, .iter⟩ = _
        rw [hih]
        have hfeq : (fun x => decide (x.1.primaryOf = r.1.primaryOf)) =
            (fun (x : RawKey × Val) =>
              decide (x.1.primaryOf = e.1.primaryOf)) := by
          funext x
          rw [hpk]
        rw [hfeq]
        rfl
      · rw [nextDupList_eq]
        rcases hnd : Cursor.nextDup ⟨d, pre ++ e :: r :: rest', some e.1,
            .iter⟩ with ⟨res, m'⟩
        have : res = none := by
          have := nextDup_stop (d := d) h1 hgt h2 hpk
          rw [hnd] at this
          exact this
        subst this
        have hrest : ∀ x ∈ r :: rest', x.1.primaryOf ≠ e.1.primaryOf := by
          intro x hx
          rcases List.mem_cons.mp hx with rfl | hx
          · exact hpk
          · have hre : RawKey.klt e.1 r.1 := by
              rcases sortedS_append hs with ⟨_, hpost, _⟩
              exact (sortedS_cons.mp hpost).1 _ (List.mem_cons_self _ _)
            have hrx : RawKey.klt r.1 x.1 := by
              rcases sortedS_append hs with ⟨_, hpost, _⟩
              rcases sortedS_cons.mp hpost with ⟨_, hpost'⟩
              exact (sortedS_cons.mp hpost').1 _ hx
            have h3 : e.1.primaryOf ≤ r.1.primaryOf :=
              RawKey.primaryOf_le_of_klt hre
            have h4 : r.1.primaryOf ≤ x.1.primaryOf :=
              RawKey.primaryOf_le_of_klt hrx
            intro hc
            apply hpk
            omega
        have hfilter : (r :: rest').filter
            (fun x => x.1.primaryOf = e.1.primaryOf) = [] := by
          rw [List.filter_eq_nil_iff]
          intro x hx
          simpa using hrest x hx
        rw [hfilter]
        rfl

/-- C5: for a dupsort cursor positioned at a stored entry, `next_dup()`
returns the next physical entry exactly when that entry's primary key equals
the current entry's primary key, and returns empty otherwise (also at the end
of the table); consequently, starting from the first tie of a key, repeated
`next_dup()` calls return exactly the remaining stored ties of that key, in
store order, and then empty — never an entry of a different primary key. -/
theorem claim_C5_next_dup (d : Bool) (s : Store) (hs : SortedS s) :
    (∀ rk w rk' w', itemAt s (some rk) = some (rk, w) →
      seekGT s rk = some rk' → itemAt s (some rk') = some (rk', w') →
      (rk'.primaryOf = rk.primaryOf →
        Cursor.nextDup ⟨d, s, some rk, .iter⟩ =
          (some (rk'.primaryOf, w'), ⟨d, s, some rk', .iter⟩)) ∧
      (rk'.primaryOf ≠ rk.primaryOf →
        (Cursor.nextDup ⟨d, s, some rk, .iter⟩).1 = none)) ∧
    (∀ rk w, itemAt s (some rk) = some (rk, w) → seekGT s rk = none →
      (Cursor.nextDup ⟨d, s, some rk, .iter⟩).1 = none) ∧
    (∀ pre e rest fuel, s = pre ++ e :: rest →
      (∀ x ∈ pre, x.1.primaryOf ≠ e.1.primaryOf) →
      rest.length ≤ fuel →
      decodeItem e :: nextDupList fuel ⟨d, s, some e.1, .iter⟩ =
        (s.filter (fun x => x.1.primaryOf = e.1.primaryOf)).map decodeItem) := by
  refine ⟨?_, ?_, ?_⟩
  · intro rk w rk' w' h1 hgt h2
    exact ⟨fun hpk => nextDup_adv h1 hgt h2 hpk,
      fun hpk => nextDup_stop h1 hgt h2 hpk⟩
  · intro rk w h1 hgt
    exact nextDup_last h1 hgt
  · intro pre e rest fuel hsplit hpre hf
    subst hsplit
    rw [nextDupList_suffix rest pre e fuel hs hf]
    rw [List.filter_append, List.filter_cons]
    have hprefilter : pre.filter
        (fun x => x.1.primaryOf = e.1.primaryOf) = [] := by
      rw [List.filter_eq_nil_iff]
      intro x hx
      simpa using hpre x hx
    rw [hprefilter, if_pos (by simp)]
    rfl

/-- Witness for C5: on a two-tie store, next_dup from the first tie of key 1
advances to the second tie; from the second tie (followed by key 2) it
returns empty; the iterated walk returns exactly the ties of key 1. -/
theorem claim_C5_next_dup_witness :
    ((RawKey.p3 1 1 (Tie.fin 0)).primaryOf =
        (RawKey.p3 1 0 (Tie.fin 0)).primaryOf →
      Cursor.nextDup ⟨true, [(RawKey.p3 1 0 (Tie.fin 0), (0, 4)),
        (RawKey.p3 1 1 (Tie.fin 0), (1, 5)),
        (RawKey.p3 2 0 (Tie.fin 0), (0, 6))],
        some (RawKey.p3 1 0 (Tie.fin 0)), .iter⟩ =
        (some ((RawKey.p3 1 1 (Tie.fin 0)).primaryOf, (1, 5)),
          ⟨true, [(RawKey.p3 1 0 (Tie.fin 0), (0, 4)),
            (RawKey.p3 1 1 (Tie.fin 0), (1, 5)),
            (RawKey.p3 2 0 (Tie.fin 0), (0, 6))],
            some (RawKey.p3 1 1 (Tie.fin 0)), .iter⟩)) ∧
    ((RawKey.p3 1 1 (Tie.fin 0)).primaryOf ≠
        (RawKey.p3 1 0 (Tie.fin 0)).primaryOf →
      (Cursor.nextDup ⟨true, [(RawKey.p3 1 0 (Tie.fin 0), (0, 4)),
        (RawKey.p3 1 1 (Tie.fin 0), (1, 5)),
        (RawKey.p3 2 0 (Tie.fin 0), (0, 6))],
        some (RawKey.p3 1 0 (Tie.fin 0)), .iter⟩).1 = none) :=
  (claim_C5_next_dup true
    [(RawKey.p3 1 0 (Tie.fin 0), (0, 4)),
     (RawKey.p3 1 1 (Tie.fin 0), (1, 5)),
     (RawKey.p3 2 0 (Tie.fin 0), (0, 6))] (by decide)).1
    (RawKey.p3 1 0 (Tie.fin 0)) (0, 4) (RawKey.p3 1 1 (Tie.fin 0)) (1, 5)
    (by decide) (by decide) (by decide)

/-- C9: for a dupsort cursor positioned at the last tie of a primary key that
is followed by an entry of a different (larger) primary key, `next_dup()`
returns empty and rewinds the cursor: immediately afterwards `current()`
returns that same last tie, the cursor having moved back rather than staying
on the next key's entry. -/
theorem claim_C9_next_dup_rewind (d : Bool) (s : Store) (rk rk' : RawKey)
    (w w' : Val) (hs : SortedS s)
    (h1 : itemAt s (some rk) = some (rk, w))
    (hgt : seekGT s rk = some rk')
    (h2 : itemAt s (some rk') = some (rk', w'))
    (hpk : rk'.primaryOf ≠ rk.primaryOf) :
    Cursor.nextDup ⟨d, s, some rk, .iter⟩ =
      (none, ⟨d, s, some rk, .iter⟩) ∧
    Cursor.currentRes (Cursor.nextDup ⟨d, s, some rk, .iter⟩).2 =
      some (rk.primaryOf, w) := by
  have hnext : Cursor.next ⟨d, s, some rk, .iter⟩ =
      (some (rk'.primaryOf, w'), ⟨d, s, some rk', .iter⟩) := by
    rw [Cursor.next_iter_eq]
    simp only [Option.some_bind, hgt, h2]
    rfl
  have hlt : seekLT s rk' = some rk := by
    apply seekLT_seekGT hs _ hgt
    rcases itemAt_eq_some h1 with ⟨_, hlook⟩
    exact mem_of_lookupS hlook
  have hprev : Cursor.prev ⟨d, s, some rk', .iter⟩ =
      (some (rk.primaryOf, w), ⟨d, s, some rk, .iter⟩) := by
    rw [Cursor.prev_iter_eq]
    simp only [Option.some_bind, hlt, h1]
    rfl
  have hmain : Cursor.nextDup ⟨d, s, some rk, .iter⟩ =
      (none, ⟨d, s, some rk, .iter⟩) := by
    rw [Cursor.nextDup_iter_eq]
    simp only [h1, hnext]
    rw [if_neg (fun hh => hpk hh.symm), hprev]
  refine ⟨hmain, ?_⟩
  rw [hmain]
  show Cursor.currentRes ⟨d, s, some rk, .iter⟩ = _
  rw [Cursor.currentRes_iter, h1]
  rfl

/-- Witness for C9: with ties of key 1 followed by key 2, next_dup at the
last tie of key 1 returns empty and current() still reports that tie. -/
theorem claim_C9_next_dup_rewind_witness :
    Cursor.nextDup ⟨true, [(RawKey.p3 1 1 (Tie.fin 0), (1, 5)),
      (RawKey.p3 2 0 (Tie.fin 0), (0, 6))],
      some (RawKey.p3 1 1 (Tie.fin 0)), .iter⟩ =
      (none, ⟨true, [(RawKey.p3 1 1 (Tie.fin 0), (1, 5)),
        (RawKey.p3 2 0 (Tie.fin 0), (0, 6))],
        some (RawKey.p3 1 1 (Tie.fin 0)), .iter⟩) ∧
    Cursor.currentRes (Cursor.nextDup ⟨true,
      [(RawKey.p3 1 1 (Tie.fin 0), (1, 5)),
       (RawKey.p3 2 0 (Tie.fin 0), (0, 6))],
      some (RawKey.p3 1 1 (Tie.fin 0)), .iter⟩).2 =
      some ((RawKey.p3 1 1 (Tie.fin 0)).primaryOf, (1, 5)) :=
  claim_C9_next_dup_rewind true
    [(RawKey.p3 1 1 (Tie.fin 0), (1, 5)),
     (RawKey.p3 2 0 (Tie.fin 0), (0, 6))]
    (RawKey.p3 1 1 (Tie.fin 0)) (RawKey.p3 2 0 (Tie.fin 0)) (1, 5) (0, 6)
    (by decide) (by decide) (by decide) (by decide) (by decide)

/-! ## Claim C7: seek_by_key_subkey -/

/-- Physical keys are full composite keys whose sub-key component is the one
derived from the stored value (`subkey_of(value)`, dups.rs): the write path
always formats keys as `primary ‖ subkey_of(value) ‖ tie`. -/
def ValShapeOk (s : Store) : Prop :=
  ∀ e ∈ s, ∃ k' sb' t', e.1 = RawKey.p3 k' sb' (Tie.fin t') ∧ e.2.1 = sb'

/-- Tie-breakers of one composite prefix are ordered consistently with the
stored values (spec §3 invariant). -/
def GroupMono (s : Store) : Prop :=
  ∀ k sb t t' v v', (RawKey.p3 k sb (Tie.fin t), v) ∈ s →
    (RawKey.p3 k sb (Tie.fin t'), v') ∈ s → t < t' → vlt v v'

theorem primaryOf_le_of_kle {a b : RawKey} (h : RawKey.kle a b) :
    a.primaryOf ≤ b.primaryOf := by
  rcases h with h | rfl
  · exact RawKey.primaryOf_le_of_klt h
  · exact Nat.le_refl _

theorem p3_kle {k sub sb' t t' : Nat}
    (h : sub < sb' ∨ (sub = sb' ∧ t ≤ t')) :
    RawKey.kle (RawKey.p3 k sub (Tie.fin t)) (RawKey.p3 k sb' (Tie.fin t')) := by
  by_cases h1 : sub = sb' ∧ t = t'
  · right
    rw [h1.1, h1.2]
  · left
    dsimp only [RawKey.klt, RawKey.lex4, RawKey.enc, Tie.enc2]
    omega

theorem p3_kle_inv {k sb sb' t t' : Nat}
    (h : RawKey.kle (RawKey.p3 k sb (Tie.fin t))
      (RawKey.p3 k sb' (Tie.fin t'))) :
    sb < sb' ∨ (sb = sb' ∧ t ≤ t') := by
  rcases h with h | h
  · dsimp only [RawKey.klt, RawKey.lex4, RawKey.enc, Tie.enc2] at h
    omega
  · injection h with h1 h2 h3
    injection h3 with h3
    omega

theorem mem_value_unique {s : Store} (hs : SortedS s) {k : RawKey}
    {v v' : Val} (h1 : (k, v) ∈ s) (h2 : (k, v') ∈ s) : v = v' := by
  have e1 := lookupS_eq_of_mem hs h1
  have e2 := lookupS_eq_of_mem hs h2
  rw [e1] at e2
  injection e2

theorem seekByKeySubkey_eq {d : Bool} {s : Store} {p : Option RawKey}
    {st : CState} {k sub : Nat} :
    Cursor.seekByKeySubkey ⟨d, s, p, st⟩ k sub =
      match itemAt s (seekGE s (RawKey.p3 k sub (Tie.fin 0))) with
      | none => (none, ⟨d, s, seekGE s (RawKey.p3 k sub (Tie.fin 0)), .pastEnd⟩)
      | some el =>
        (if el.1.primaryOf = k then some el.2 else none,
          ⟨d, s, seekGE s (RawKey.p3 k sub (Tie.fin 0)), .iter⟩) := by
  rcases h : itemAt s (seekGE s (RawKey.p3 k sub (Tie.fin 0))) with _ | el
  · simp only [Cursor.seekByKeySubkey, zeroExt, formatCompositeKey, itSeek,
      itItem, if_true, h]
  · simp only [Cursor.seekByKeySubkey, zeroExt, formatCompositeKey, itSeek,
      itItem, if_true, h]
    by_cases hp : el.1.primaryOf = k <;> simp [hp]

/-- C7: for a dupsort table whose stored entries respect the composite-key
format and the tie-breaker/value-order invariant, `seek_by_key_subkey(key,
subkey)` returns the smallest stored value under `key` whose derived sub-key
is ≥ `subkey`; it returns empty when `key` is absent or no value under `key`
reaches `subkey`; and in every case it leaves the raw iterator at the
physical search result (the seek of the zero-extended composite prefix),
Iterating exactly when that search found an entry. -/
theorem claim_C7_seek_by_key_subkey (d : Bool) (s : Store)
    (p : Option RawKey) (st : CState) (k sub : Nat)
    (hs : SortedS s) (hv : ValShapeOk s) (hm : GroupMono s) :
    ((Cursor.seekByKeySubkey ⟨d, s, p, st⟩ k sub).2.pos =
      seekGE s (RawKey.p3 k sub (Tie.fin 0))) ∧
    ((Cursor.seekByKeySubkey ⟨d, s, p, st⟩ k sub).2.st = CState.iter ↔
      (itemAt s (seekGE s (RawKey.p3 k sub (Tie.fin 0)))).isSome = true) ∧
    ((Cursor.seekByKeySubkey ⟨d, s, p, st⟩ k sub).1 = none ↔
      ∀ e ∈ s, ¬(e.1.primaryOf = k ∧ sub ≤ subkeyOf e.2)) ∧
    (∀ v₀, (Cursor.seekByKeySubkey ⟨d, s, p, st⟩ k sub).1 = some v₀ →
      (∃ e ∈ s, e.1.primaryOf = k ∧ sub ≤ subkeyOf e.2 ∧ e.2 = v₀) ∧
      (∀ e ∈ s, e.1.primaryOf = k → sub ≤ subkeyOf e.2 →
        v₀ = e.2 ∨ vlt v₀ e.2)) := by
  have hcand_ge : ∀ e ∈ s, e.1.primaryOf = k → sub ≤ subkeyOf e.2 →
      RawKey.kle (RawKey.p3 k sub (Tie.fin 0)) e.1 := by
    intro e he hpk hsub
    rcases hv e he with ⟨k', sb', t', hk, hval⟩
    rw [hk]
    rw [hk] at hpk
    have hkk : k' = k := hpk
    subst hkk
    apply p3_kle
    rw [subkeyOf, hval] at hsub
    omega
  rcases hr : seekGE s (RawKey.p3 k sub (Tie.fin 0)) with _ | rk
  · have hres : Cursor.seekByKeySubkey ⟨d, s, p, st⟩ k sub =
        (none, ⟨d, s, none, .pastEnd⟩) := by
      rw [seekByKeySubkey_eq, hr]
      rfl
    rw [hres]
    refine ⟨rfl, by simp [itemAt_none], ?_, ?_⟩
    · simp only [true_iff]
      rintro e he ⟨hpk, hsub⟩
      have := seekGE_none_iff.mp hr e.1 (mem_keysS.mpr ⟨e.2, by
        rw [Prod.mk.eta]; exact he⟩)
      exact absurd (hcand_ge e he hpk hsub)
        (RawKey.not_kle_iff_klt.mpr this)
    · intro v₀ hv₀
      exact absurd hv₀ (by simp)
  · have hrk_mem : rk ∈ keysS s := seekGE_mem hr
    rcases Option.isSome_iff_exists.mp (lookupS_isSome.mpr hrk_mem) with
      ⟨w, hw⟩
    have hitem : itemAt s (some rk) = some (rk, w) := by
      rw [itemAt_some, hw]
      rfl
    have hmemw : (rk, w) ∈ s := lookupS_mem hw
    rcases hv (rk, w) hmemw with ⟨k', sb', t', hk, hval⟩
    have hk2 : rk = RawKey.p3 k' sb' (Tie.fin t') := hk
    have hval2 : w.1 = sb' := hval
    by_cases hpk : rk.primaryOf = k
    · have hkk : k' = k := by
        rw [hk2] at hpk
        exact hpk
      subst hkk
      have hres : Cursor.seekByKeySubkey ⟨d, s, p, st⟩ k' sub =
          (some w, ⟨d, s, some rk, .iter⟩) := by
        rw [seekByKeySubkey_eq, hr]
        simp only [hitem]
        rw [if_pos hpk]
      have hsub_ge : sub ≤ sb' := by
        have hle := seekGE_ge hr
        rw [hk2] at hle
        rcases p3_kle_inv hle with h | ⟨h, _⟩ <;> omega
      rw [hres]
      refine ⟨rfl, by simp [hitem], ?_, ?_⟩
      · constructor
        · intro h
          exact absurd h (by simp)
        · intro hnone
          exfalso
          refine hnone (rk, w) hmemw ⟨hpk, ?_⟩
          rw [subkeyOf, hval2]
          omega
      · intro v₀ hv₀
        injection hv₀ with hv₀
        subst hv₀
        constructor
        · refine ⟨(rk, w), hmemw, hpk, ?_, rfl⟩
          rw [subkeyOf, hval2]
          omega
        · intro e' he' hpk' hsub'
          have hle : RawKey.kle rk e'.1 :=
            seekGE_min hs hr (mem_keysS.mpr ⟨e'.2, by
              rw [Prod.mk.eta]; exact he'⟩) (hcand_ge e' he' hpk' hsub')
          rcases hv e' he' with ⟨kc, sbc, tc, hkc, hvalc⟩
          have hkcc : kc = k' := by
            rw [hkc] at hpk'
            exact hpk'
          subst hkcc
          rw [hk2, hkc] at hle
          rcases p3_kle_inv hle with hlt | ⟨heq, hle'⟩
          · right
            rw [vlt, hval2, hvalc]
            left
            exact hlt
          · subst heq
            rcases Nat.lt_or_ge t' tc with htc | htc
            · right
              have he'' : (e'.1, e'.2) ∈ s := by
                rw [Prod.mk.eta]
                exact he'
              rw [hkc] at he''
              have hw'' : (rk, w) ∈ s := hmemw
              rw [hk2] at hw''
              exact hm _ sb' t' tc w e'.2 hw'' he'' htc
            · have htc' : tc = t' := by omega
              subst htc'
              left
              have he'' : (e'.1, e'.2) ∈ s := by
                rw [Prod.mk.eta]
                exact he'
              rw [hkc, ← hk2] at he''
              exact mem_value_unique hs hmemw he''
    · have hres : Cursor.seekByKeySubkey ⟨d, s, p, st⟩ k sub =
          (none, ⟨d, s, some rk, .iter⟩) := by
        rw [seekByKeySubkey_eq, hr]
        simp only [hitem]
        rw [if_neg hpk]
      rw [hres]
      refine ⟨rfl, by simp [hitem], ?_, ?_⟩
      · simp only [true_iff]
        rintro e he ⟨hpk', hsub'⟩
        have hle : RawKey.kle rk e.1 :=
          seekGE_min hs hr (mem_keysS.mpr ⟨e.2, by
            rw [Prod.mk.eta]; exact he⟩) (hcand_ge e he hpk' hsub')
        have h1 : k ≤ rk.primaryOf := by
          have := primaryOf_le_of_kle (seekGE_ge hr)
          simpa [RawKey.primaryOf] using this
        have h2 : rk.primaryOf ≤ k := by
          have := primaryOf_le_of_kle hle
          rw [hpk'] at this
          exact this
        exact hpk (by omega)
      · intro v₀ hv₀
        exact absurd hv₀ (by simp)

/-- Witness for C7: on a one-entry dupsort table, seeking (key 1, subkey 1)
returns the stored value and leaves the cursor at its physical position. -/
theorem claim_C7_seek_by_key_subkey_witness :
    ((Cursor.seekByKeySubkey ⟨true, [(RawKey.p3 1 1 (Tie.fin 0), (1, 5))],
        none, .start⟩ 1 1).2.pos =
      seekGE [(RawKey.p3 1 1 (Tie.fin 0), (1, 5))] (RawKey.p3 1 1 (Tie.fin 0))) ∧
    ((Cursor.seekByKeySubkey ⟨true, [(RawKey.p3 1 1 (Tie.fin 0), (1, 5))],
        none, .start⟩ 1 1).2.st = CState.iter ↔
      (itemAt [(RawKey.p3 1 1 (Tie.fin 0), (1, 5))]
        (seekGE [(RawKey.p3 1 1 (Tie.fin 0), (1, 5))]
          (RawKey.p3 1 1 (Tie.fin 0)))).isSome = true) ∧
    ((Cursor.seekByKeySubkey ⟨true, [(RawKey.p3 1 1 (Tie.fin 0), (1, 5))],
        none, .start⟩ 1 1).1 = none ↔
      ∀ e ∈ [(RawKey.p3 1 1 (Tie.fin 0), (1, 5))],
        ¬(e.1.primaryOf = 1 ∧ 1 ≤ subkeyOf e.2)) ∧
    (∀ v₀, (Cursor.seekByKeySubkey ⟨true,
        [(RawKey.p3 1 1 (Tie.fin 0), (1, 5))], none, .start⟩ 1 1).1 =
        some v₀ →
      (∃ e ∈ [(RawKey.p3 1 1 (Tie.fin 0), (1, 5))],
        e.1.primaryOf = 1 ∧ 1 ≤ subkeyOf e.2 ∧ e.2 = v₀) ∧
      (∀ e ∈ [(RawKey.p3 1 1 (Tie.fin 0), (1, 5))],
        e.1.primaryOf = 1 → 1 ≤ subkeyOf e.2 → v₀ = e.2 ∨ vlt v₀ e.2)) :=
  claim_C7_seek_by_key_subkey true [(RawKey.p3 1 1 (Tie.fin 0), (1, 5))]
    none .start 1 1 (by decide)
    (by
      intro e he
      rcases List.mem_singleton.mp he with rfl
      exact ⟨1, 1, 0, rfl, rfl⟩)
    (by
      intro k sb t t' v v' h1 h2 hlt
      rcases List.mem_singleton.mp h1 with h1
      rcases List.mem_singleton.mp h2 with h2
      injection h1 with h1a h1b
      injection h2 with h2a h2b
      injection h1a with hk1 hs1 ht1
      injection h2a with hk2 hs2 ht2
      injection ht1 with ht1
      injection ht2 with ht2
      omega)

/-! ## Claim C2: idempotent upsert -/

theorem dupCheckLoop_store {ck : RawKey} {cv : Val} :
    ∀ (fuel : Nat) (m : Machine),
    (Cursor.dupCheckLoop ck cv fuel m).2.store = m.store ∧
    (Cursor.dupCheckLoop ck cv fuel m).2.dup = m.dup := by
  intro fuel
  induction fuel with
  | zero =>
    intro m
    exact ⟨rfl, rfl⟩
  | succ f ih =>
    intro m
    rw [dupCheckLoop_succ]
    rcases h : itItem m with _ | el
    · exact ⟨rfl, rfl⟩
    · dsimp only
      by_cases h1 : unformatExt el.1 = ck
      · rw [if_pos h1]
        by_cases h2 : el.2 = cv
        · rw [if_pos h2]
          exact ⟨rfl, rfl⟩
        · rw [if_neg h2]
          exact ih (itPrev m)
      · rw [if_neg h1]
        exact ⟨rfl, rfl⟩

theorem lastK_append_singleton {l : Store} {b : RawKey × Val} :
    lastK (l ++ [b]) = some b.1 := by
  rw [lastK, List.getLast?_concat]
  rfl

theorem mem_prefix_of_le {pre rest : Store} {e x : RawKey × Val}
    (hs : SortedS (pre ++ e :: rest)) (hx : x ∈ pre ++ e :: rest)
    (hle : RawKey.kle x.1 e.1) : x ∈ pre ++ [e] := by
  rcases List.mem_append.mp hx with hx | hx
  · exact List.mem_append.mpr (Or.inl hx)
  · rcases List.mem_cons.mp hx with rfl | hx
    · exact List.mem_append.mpr (Or.inr (List.mem_singleton.mpr rfl))
    · exfalso
      rcases sortedS_append hs with ⟨_, hpost, _⟩
      exact (RawKey.not_kle_iff_klt.mpr
        ((sortedS_cons.mp hpost).1 _ hx)) hle

/-- The backward duplicate-check scan of `upsert` finds an already-stored
value: starting at a tie of the composite prefix, if some tie at or before the
start holds the value, the loop reports `true`. -/
theorem dupCheckLoop_finds {k sb : Nat} {cv : Val} :
    ∀ (pre : Store) (e : RawKey × Val) (rest : Store) (fuel : Nat),
    SortedS (pre ++ e :: rest) → ShapeOk (pre ++ e :: rest) →
    unformatExt e.1 = RawKey.p2 k sb →
    (∃ x ∈ pre ++ [e], unformatExt x.1 = RawKey.p2 k sb ∧ x.2 = cv) →
    pre.length + 1 ≤ fuel →
    (Cursor.dupCheckLoop (RawKey.p2 k sb) cv fuel
      ⟨true, pre ++ e :: rest, some e.1, .iter⟩).1 = true := by
  intro pre
  induction pre using List.reverseRecOn with
  | nil =>
    intro e rest fuel hs hsh hge hcand hf
    rcases hcand with ⟨x, hx, hxg, hxv⟩
    simp only [List.nil_append, List.mem_singleton] at hx
    rw [hx] at hxg hxv
    cases fuel with
    | zero => simp at hf
    | succ f =>
      rw [dupCheckLoop_succ]
      have hitem : itemAt ([] ++ e :: rest) (some e.1) = some e :=
        itemAt_of_mem hs (by rw [Prod.mk.eta]; simp)
      simp only [List.nil_append] at hitem
      show ((match itItem ⟨true, e :: rest, some e.1, .iter⟩ with
        | some el =>
          if unformatExt el.1 = RawKey.p2 k sb then
            if el.2 = cv then (true, ⟨true, e :: rest, some e.1, .iter⟩)
            else Cursor.dupCheckLoop (RawKey.p2 k sb) cv f
              (itPrev ⟨true, e :: rest, some e.1, .iter⟩)
          else (false, ⟨true, e :: rest, some e.1, .iter⟩)
        | none => (false, ⟨true, e :: rest, some e.1, .iter⟩) :
        Bool × Machine)).1 = true
      rw [show itItem (⟨true, e :: rest, some e.1, .iter⟩ : Machine) =
        some e from hitem]
      dsimp only
      rw [if_pos hge, if_pos hxv]
  | append_singleton pre' b ih =>
    intro e rest fuel hs hsh hge hcand hf
    cases fuel with
    | zero =>
      simp only [List.length_append, List.length_singleton] at hf
      omega
    | succ f =>
      rw [dupCheckLoop_succ]
      have hitem : itemAt ((pre' ++ [b]) ++ e :: rest) (some e.1) = some e :=
        itemAt_of_mem hs (by rw [Prod.mk.eta]; simp)
      rw [show itItem (⟨true, (pre' ++ [b]) ++ e :: rest, some e.1,
        .iter⟩ : Machine) = some e from hitem]
      dsimp only
      rw [if_pos hge]
      by_cases hev : e.2 = cv
      · rw [if_pos hev]
      · rw [if_neg hev]
        rcases hcand with ⟨x, hx, hxg, hxv⟩
        have hxne : x ≠ e := by
          intro hh
          rw [hh] at hxv
          exact hev hxv
        have hx' : x ∈ pre' ++ [b] := by
          rcases List.mem_append.mp hx with hx | hx
          · exact hx
          · rcases List.mem_singleton.mp hx with rfl
            exact absurd rfl hxne
        have hprev : seekLT ((pre' ++ [b]) ++ e :: rest) e.1 =
            some b.1 := by
          rw [seekLT_split hs]
          exact lastK_append_singleton
        have hassoc : (pre' ++ [b]) ++ e :: rest =
            pre' ++ b :: (e :: rest) := by simp
        have hb_mem : b ∈ (pre' ++ [b]) ++ e :: rest := by simp
        have hx_mem : x ∈ (pre' ++ [b]) ++ e :: rest := by
          rcases List.mem_append.mp hx' with hx'' | hx''
          · simp [hx'']
          · simp [List.mem_singleton.mp hx'']
        have hs' : SortedS (pre' ++ b :: (e :: rest)) := by
          rw [← hassoc]
          exact hs
        have hbg : unformatExt b.1 = RawKey.p2 k sb := by
          apply group_squeeze_shape hsh hb_mem
          · have hxb : RawKey.kle x.1 b.1 := by
              rcases List.mem_append.mp hx' with hx'' | hx''
              · rcases sortedS_append hs' with ⟨_, _, hcross⟩
                exact Or.inl (hcross _ hx'' _ (List.mem_cons_self _ _))
              · rcases List.mem_singleton.mp hx'' with rfl
                exact RawKey.kle_refl _
            have hwin := group_window (hsh x hx_mem) hxg
            exact RawKey.kle_trans (Or.inl hwin.1) hxb
          · have hbe : RawKey.klt b.1 e.1 := by
              rcases sortedS_append hs with ⟨_, _, hcross⟩
              exact hcross _ (by simp) _ (List.mem_cons_self _ _)
            have hwin := group_window (hsh e (by simp)) hge
            exact RawKey.klt_trans hbe hwin.2
        have hstep : itPrev ⟨true, (pre' ++ [b]) ++ e :: rest, some e.1,
            .iter⟩ = ⟨true, (pre' ++ [b]) ++ e :: rest, some b.1, .iter⟩ := by
          simp only [itPrev, Option.some_bind, hprev]
        rw [hstep]
        have hxcand : ∃ y ∈ pre' ++ [b],
            unformatExt y.1 = RawKey.p2 k sb ∧ y.2 = cv :=
          ⟨x, hx', hxg, hxv⟩
        have hlen : pre'.length + 1 ≤ f := by
          simp only [List.length_append, List.length_singleton] at hf
          omega
        have hres := ih b (e :: rest) f hs'
          (by rw [← hassoc]; exact hsh) hbg hxcand hlen
        rw [hassoc]
        exact hres

theorem seekLE_max_group {s : Store} (hs : SortedS s) (hsh : ShapeOk s)
    {k sb t : Nat} (hmem : RawKey.p3 k sb (Tie.fin t) ∈ keysS s) :
    ∃ g, seekLE s (RawKey.p3 k sb Tie.top) = some g ∧ g ∈ keysS s ∧
      unformatExt g = RawKey.p2 k sb ∧
      (∀ q ∈ keysS s, unformatExt q = RawKey.p2 k sb → RawKey.kle q g) := by
  have htle : RawKey.kle (RawKey.p3 k sb (Tie.fin t))
      (RawKey.p3 k sb Tie.top) := Or.inl group_key_upper
  rcases hlr : seekLE s (RawKey.p3 k sb Tie.top) with _ | g
  · exfalso
    have := (seekLE_none_iff hs).mp hlr _ hmem
    exact RawKey.klt_asymm group_key_upper this
  · have hg_mem := seekLE_mem hlr
    have hg_le := seekLE_le hlr
    have hg_ge : RawKey.kle (RawKey.p3 k sb (Tie.fin t)) g :=
      seekLE_max hs hlr hmem htle
    rcases Option.isSome_iff_exists.mp (lookupS_isSome.mpr hg_mem) with
      ⟨w, hw⟩
    have hgw_mem : (g, w) ∈ s := lookupS_mem hw
    have hg_lt_top : RawKey.klt g (RawKey.p3 k sb Tie.top) := by
      rcases hg_le with h | h
      · exact h
      · exfalso
        rcases hsh (g, w) hgw_mem with ⟨kg, sg, tg, hkg⟩
        rw [h] at hkg
        injection hkg with _ _ ht
        exact Tie.noConfusion ht
    have hg_grp : unformatExt g = RawKey.p2 k sb := by
      have h1 : RawKey.kle (RawKey.p2 k sb) g :=
        RawKey.kle_trans (Or.inl group_key_lower) hg_ge
      exact group_squeeze_shape hsh hgw_mem h1 hg_lt_top
    refine ⟨g, rfl, hg_mem, hg_grp, ?_⟩
    intro q hq hqg
    rcases mem_keysS.mp hq with ⟨wq, hwq⟩
    have hwin := group_window (hsh (q, wq) hwq) hqg
    exact seekLE_max hs hlr hq (Or.inl hwin.2)

/-- C2: upserting a (key, value) pair that is already physically stored in a
dupsort table is a no-op: the duplicate-check scan finds the stored value and
`upsert` returns before writing, so the stored entries are unchanged (no
additional physical tie is created). -/
theorem claim_C2_idempotent_upsert (s : Store) (p : Option RawKey)
    (st : CState) (k : Nat) (v : Val) (t : Nat)
    (hs : SortedS s) (hsh : ShapeOk s)
    (hmem : (RawKey.p3 k v.1 (Tie.fin t), v) ∈ s) :
    (Cursor.upsert ⟨true, s, p, st⟩ k v).store = s := by
  have hkey_mem : RawKey.p3 k v.1 (Tie.fin t) ∈ keysS s :=
    mem_keysS.mpr ⟨v, hmem⟩
  rcases seekLE_max_group hs hsh hkey_mem with ⟨g, hlr, hg_mem, hg_grp, hg_max⟩
  rcases Option.isSome_iff_exists.mp (lookupS_isSome.mpr hg_mem) with
    ⟨wg, hwg⟩
  have hitem : itemAt s (seekLE s (RawKey.p3 k v.1 Tie.top)) =
      some (g, wg) := by
    rw [hlr, itemAt_some, hwg]
    rfl
  rw [upsert_true_dup hitem hg_grp]
  rcases List.append_of_mem (lookupS_mem hwg) with ⟨pre, rest, hsplit⟩
  have hfound : (Cursor.dupCheckLoop (RawKey.p2 k v.1) v (s.length + 1)
      (⟨true, s, seekLE s (RawKey.p3 k v.1 Tie.top), .iter⟩ : Machine)).1 =
      true := by
    have hcand : ∃ x ∈ pre ++ [(g, wg)],
        unformatExt x.1 = RawKey.p2 k v.1 ∧ x.2 = v := by
      refine ⟨(RawKey.p3 k v.1 (Tie.fin t), v), ?_, rfl, rfl⟩
      exact mem_prefix_of_le (by rw [← hsplit]; exact hs)
        (by rw [← hsplit]; exact hmem) (hg_max _ hkey_mem rfl)
    have hflen : pre.length + 1 ≤ s.length + 1 := by
      have : s.length = pre.length + rest.length + 1 := by
        rw [hsplit]
        simp
        omega
      omega
    have hres := dupCheckLoop_finds pre (g, wg) rest (s.length + 1)
      (by rw [← hsplit]; exact hs) (by rw [← hsplit]; exact hsh)
      hg_grp hcand hflen
    rw [← hsplit] at hres
    rw [hlr]
    exact hres
  rw [if_pos hfound]
  exact (dupCheckLoop_store _ _).1

/-- Witness for C2: re-upserting the one stored pair of a one-entry dupsort
table leaves the store unchanged. -/
theorem claim_C2_idempotent_upsert_witness :
    (Cursor.upsert ⟨true, [(RawKey.p3 1 1 (Tie.fin 0), (1, 5))], none,
      .start⟩ 1 (1, 5)).store = [(RawKey.p3 1 1 (Tie.fin 0), (1, 5))] :=
  claim_C2_idempotent_upsert [(RawKey.p3 1 1 (Tie.fin 0), (1, 5))] none
    .start 1 (1, 5) 0 (by decide)
    (by
      intro e he
      rcases List.mem_singleton.mp he with rfl
      exact ⟨1, 1, 0, rfl⟩)
    (by decide)

/-! ## C1: the sorted-walk invariant

The write path of a dupsort table maintains: the store is key-sorted, every
physical key carries the value-derived sub-key, the tie-breakers of a
composite prefix are allocated contiguously from zero, and their order agrees
with the value order.  `upsert` preserves all four, and a `walk(None)` over
such a store is ordered by primary key and then by value. -/

theorem p3_fin_klt_iff {k sb t t' : Nat} :
    RawKey.klt (RawKey.p3 k sb (Tie.fin t)) (RawKey.p3 k sb (Tie.fin t')) ↔
      t < t' := by
  dsimp only [RawKey.klt, RawKey.lex4, RawKey.enc, Tie.enc2]
  omega

theorem p2_klt_top {k sb : Nat} :
    RawKey.klt (RawKey.p2 k sb) (RawKey.p3 k sb Tie.top) := by
  dsimp only [RawKey.klt, RawKey.lex4, RawKey.enc, Tie.enc2]
  omega

/-- Tie-breaker contiguity: the stored ties of any composite prefix are
downward closed (the write path allocates ties `0, 1, 2, …` bottom-up). -/
def TieContig (s : Store) : Prop :=
  ∀ k sb t, RawKey.p3 k sb (Tie.fin (t + 1)) ∈ keysS s →
    RawKey.p3 k sb (Tie.fin t) ∈ keysS s

/-- The write-path store invariant of a dupsort table. -/
def InvS (s : Store) : Prop :=
  SortedS s ∧ ValShapeOk s ∧ GroupMono s ∧ TieContig s

theorem shapeOk_of_valShapeOk {s : Store} (h : ValShapeOk s) : ShapeOk s := by
  intro e he
  rcases h e he with ⟨k', sb', t', h1, _⟩
  exact ⟨k', sb', t', h1⟩

/-- The physical entries of one composite prefix's group: ties
`off, off + 1, …` holding the listed values in order. -/
def groupFrom (k sb : Nat) : Nat → List Val → Store
  | _, [] => []
  | t, w :: ws => (RawKey.p3 k sb (Tie.fin t), w) :: groupFrom k sb (t + 1) ws

theorem groupFrom_mem {k sb : Nat} :
    ∀ {off : Nat} {ws : List Val} {e : RawKey × Val},
    e ∈ groupFrom k sb off ws →
    ∃ i w, e = (RawKey.p3 k sb (Tie.fin (off + i)), w) ∧ ws[i]? = some w := by
  intro off ws
  induction ws generalizing off with
  | nil =>
    intro e he
    simp [groupFrom] at he
  | cons w ws ih =>
    intro e he
    rcases List.mem_cons.mp he with rfl | he
    · exact ⟨0, w, by rw [Nat.add_zero], List.getElem?_cons_zero⟩
    · rcases ih he with ⟨i, w', h1, h2⟩
      have harith : off + 1 + i = off + (i + 1) := by omega
      rw [harith] at h1
      exact ⟨i + 1, w', h1, by rw [List.getElem?_cons_succ]; exact h2⟩

theorem groupFrom_mem_of_get {k sb : Nat} :
    ∀ {off i : Nat} {ws : List Val} {w : Val}, ws[i]? = some w →
    (RawKey.p3 k sb (Tie.fin (off + i)), w) ∈ groupFrom k sb off ws := by
  intro off i ws
  induction ws generalizing off i with
  | nil =>
    intro w h
    simp at h
  | cons w' ws ih =>
    intro w h
    cases i with
    | zero =>
      rw [List.getElem?_cons_zero] at h
      injection h with h
      rw [Nat.add_zero, ← h]
      exact List.mem_cons_self _ _
    | succ i =>
      rw [List.getElem?_cons_succ] at h
      have h2 := @ih (off + 1) i w h
      have harith : off + 1 + i = off + (i + 1) := by omega
      rw [harith] at h2
      exact List.mem_cons_of_mem _ h2

theorem groupFrom_length {k sb : Nat} :
    ∀ {off : Nat} {ws : List Val},
    (groupFrom k sb off ws).length = ws.length := by
  intro off ws
  induction ws generalizing off with
  | nil => rfl
  | cons w ws ih => simp [groupFrom, ih]

theorem keysS_groupFrom {k sb : Nat} {off : Nat} {ws : List Val} {q : RawKey} :
    q ∈ keysS (groupFrom k sb off ws) ↔
      ∃ i, i < ws.length ∧ q = RawKey.p3 k sb (Tie.fin (off + i)) := by
  constructor
  · intro h
    rcases mem_keysS.mp h with ⟨w, hw⟩
    rcases groupFrom_mem hw with ⟨i, w', h1, h2⟩
    injection h1 with h1 _
    rcases List.getElem?_eq_some.mp h2 with ⟨hlen, _⟩
    exact ⟨i, hlen, h1⟩
  · rintro ⟨i, hi, rfl⟩
    have h := List.getElem?_eq_getElem (l := ws) hi
    exact mem_keysS.mpr ⟨ws[i], groupFrom_mem_of_get h⟩

theorem sortedS_groupFrom {k sb : Nat} :
    ∀ {off : Nat} {ws : List Val}, SortedS (groupFrom k sb off ws) := by
  intro off ws
  induction ws generalizing off with
  | nil => exact List.Pairwise.nil
  | cons w ws ih =>
    refine sortedS_cons.mpr ⟨?_, ih⟩
    intro b hb
    rcases groupFrom_mem hb with ⟨i, w', h1, _⟩
    rw [h1]
    exact p3_fin_klt_iff.mpr (by omega)

theorem sortedS_AGB {k sb : Nat} {A B : Store}
    (hsA : SortedS A) (hsB : SortedS B)
    (hAlow : ∀ a ∈ A, RawKey.klt a.1 (RawKey.p2 k sb))
    (hBhigh : ∀ b ∈ B, RawKey.klt (RawKey.p3 k sb Tie.top) b.1)
    (ws : List Val) :
    SortedS (A ++ groupFrom k sb 0 ws ++ B) := by
  rw [SortedS, List.pairwise_append]
  refine ⟨?_, hsB, ?_⟩
  · rw [List.pairwise_append]
    refine ⟨hsA, sortedS_groupFrom, ?_⟩
    intro a ha g hg
    rcases groupFrom_mem hg with ⟨i, w, h1, _⟩
    rw [h1]
    exact RawKey.klt_trans (hAlow a ha) group_key_lower
  · intro x hx b hb
    rcases List.mem_append.mp hx with hx | hx
    · exact RawKey.klt_trans (hAlow _ hx)
        (RawKey.klt_trans p2_klt_top (hBhigh _ hb))
    · rcases groupFrom_mem hx with ⟨i, w, h1, _⟩
      rw [h1]
      exact RawKey.klt_trans group_key_upper (hBhigh _ hb)

/-- The backward sorted insert that the second `upsert` loop implements:
scanning the values from the top, every value not below the new one is pushed
one slot up, and the new value lands in the slot so opened. -/
def insRevA (cv : Val) : List Val → List Val
  | [] => [cv]
  | w :: ws => if vlt w cv then cv :: w :: ws else w :: insRevA cv ws

def insBack (cv : Val) (ws : List Val) : List Val :=
  (insRevA cv ws.reverse).reverse

theorem insBack_nil {cv : Val} : insBack cv [] = [cv] := rfl

theorem insBack_concat_pos {cv wt : Val} {L : List Val} (h : vlt wt cv) :
    insBack cv (L ++ [wt]) = L ++ [wt, cv] := by
  simp [insBack, insRevA, h]

theorem insBack_concat_neg {cv wt : Val} {L : List Val} (h : ¬ vlt wt cv) :
    insBack cv (L ++ [wt]) = insBack cv L ++ [wt] := by
  simp [insBack, insRevA, h]

theorem insRevA_mem {cv x : Val} :
    ∀ {ws : List Val}, x ∈ insRevA cv ws → x = cv ∨ x ∈ ws := by
  intro ws
  induction ws with
  | nil =>
    intro h
    simp only [insRevA, List.mem_singleton] at h
    exact Or.inl h
  | cons w ws ih =>
    intro h
    simp only [insRevA] at h
    by_cases h1 : vlt w cv
    · rw [if_pos h1] at h
      rcases List.mem_cons.mp h with rfl | h
      · exact Or.inl rfl
      · exact Or.inr h
    · rw [if_neg h1] at h
      rcases List.mem_cons.mp h with rfl | h
      · exact Or.inr (List.mem_cons_self _ _)
      · rcases ih h with h | h
        · exact Or.inl h
        · exact Or.inr (List.mem_cons_of_mem _ h)

theorem insBack_mem {cv x : Val} {ws : List Val} (h : x ∈ insBack cv ws) :
    x = cv ∨ x ∈ ws := by
  rw [insBack, List.mem_reverse] at h
  rcases insRevA_mem h with h | h
  · exact Or.inl h
  · exact Or.inr (List.mem_reverse.mp h)

theorem insRevA_pairwise {cv : Val} :
    ∀ {ws : List Val}, List.Pairwise (fun a b => vlt b a) ws →
    (∀ w ∈ ws, w ≠ cv) →
    List.Pairwise (fun a b => vlt b a) (insRevA cv ws) := by
  intro ws
  induction ws with
  | nil =>
    intro _ _
    simp [insRevA]
  | cons w ws ih =>
    intro hp hne
    rcases List.pairwise_cons.mp hp with ⟨hw, hp'⟩
    simp only [insRevA]
    by_cases h1 : vlt w cv
    · rw [if_pos h1]
      refine List.pairwise_cons.mpr ⟨?_, hp⟩
      intro y hy
      rcases List.mem_cons.mp hy with rfl | hy
      · exact h1
      · exact vlt_trans (hw _ hy) h1
    · rw [if_neg h1]
      refine List.pairwise_cons.mpr ⟨?_, ih hp'
        (fun x hx => hne x (List.mem_cons_of_mem _ hx))⟩
      intro y hy
      rcases insRevA_mem hy with rfl | hy
      · rcases vlt_total w y with h | h | h
        · exact absurd h h1
        · exact absurd h (hne w (List.mem_cons_self _ _))
        · exact h
      · exact hw _ hy

theorem insBack_pairwise {cv : Val} {ws : List Val}
    (h : List.Pairwise vlt ws) (hne : ∀ w ∈ ws, w ≠ cv) :
    List.Pairwise vlt (insBack cv ws) := by
  rw [insBack, List.pairwise_reverse]
  apply insRevA_pairwise
  · rw [List.pairwise_reverse]
    exact h
  · intro w hw
    exact hne w (List.mem_reverse.mp hw)

theorem keysS_putS {s : Store} {k q : RawKey} {v : Val} :
    q ∈ keysS (putS s k v) ↔ q = k ∨ q ∈ keysS s := by
  constructor
  · intro h
    rcases mem_keysS.mp h with ⟨w, hw⟩
    rcases mem_putS hw with ⟨h1, _⟩ | h1
    · exact Or.inl h1
    · exact Or.inr (mem_keysS.mpr ⟨w, h1⟩)
  · intro h
    rcases h with rfl | h
    · exact mem_keysS.mpr ⟨v, self_mem_putS⟩
    · rcases mem_keysS.mp h with ⟨w, hw⟩
      by_cases h2 : q = k
      · exact h2 ▸ mem_keysS.mpr ⟨v, self_mem_putS⟩
      · exact mem_keysS.mpr ⟨w, mem_putS_of_mem hw h2⟩

theorem putS_append_right {A C : Store} {q : RawKey} {v : Val}
    (hA : ∀ a ∈ A, RawKey.klt a.1 q) :
    putS (A ++ C) q v = A ++ putS C q v := by
  induction A with
  | nil => rfl
  | cons a A ih =>
    have ha := hA a (List.mem_cons_self _ _)
    rw [List.cons_append, putS_cons, if_neg (RawKey.klt_asymm ha),
      if_neg (Ne.symm (RawKey.klt_ne ha)),
      ih (fun x hx => hA x (List.mem_cons_of_mem _ hx)), List.cons_append]

theorem putS_groupFrom_set {k sb : Nat} {B : Store} {v : Val} :
    ∀ (ws : List Val) (off i : Nat), i < ws.length →
    putS (groupFrom k sb off ws ++ B) (RawKey.p3 k sb (Tie.fin (off + i))) v =
      groupFrom k sb off (ws.set i v) ++ B := by
  intro ws
  induction ws with
  | nil =>
    intro off i h
    simp at h
  | cons w ws ih =>
    intro off i h
    cases i with
    | zero =>
      rw [Nat.add_zero]
      show putS ((RawKey.p3 k sb (Tie.fin off), w) ::
        (groupFrom k sb (off + 1) ws ++ B)) _ v = _
      rw [putS_cons, if_neg (RawKey.klt_irrefl _), if_pos rfl]
      rfl
    | succ i =>
      have harith : off + (i + 1) = (off + 1) + i := by omega
      rw [harith]
      have hne : RawKey.p3 k sb (Tie.fin ((off + 1) + i)) ≠
          RawKey.p3 k sb (Tie.fin off) := by
        intro hh
        injection hh with h1 h2 h3
        injection h3 with h3
        omega
      show putS ((RawKey.p3 k sb (Tie.fin off), w) ::
        (groupFrom k sb (off + 1) ws ++ B)) _ v = _
      rw [putS_cons, if_neg (RawKey.klt_asymm (p3_fin_klt_iff.mpr (by omega))),
        if_neg hne,
        ih (off + 1) i (by simp only [List.length_cons] at h; omega)]
      rfl

theorem putS_groupFrom_append {k sb : Nat} {B : Store} {v : Val}
    (hB : ∀ b ∈ B, RawKey.klt (RawKey.p3 k sb Tie.top) b.1) :
    ∀ (ws : List Val) (off : Nat),
    putS (groupFrom k sb off ws ++ B)
        (RawKey.p3 k sb (Tie.fin (off + ws.length))) v =
      groupFrom k sb off (ws ++ [v]) ++ B := by
  intro ws
  induction ws with
  | nil =>
    intro off
    simp only [List.length_nil, Nat.add_zero]
    cases B with
    | nil => rfl
    | cons b B' =>
      show putS (b :: B') _ v = _
      rw [putS_cons, if_pos (RawKey.klt_trans group_key_upper
        (hB b (List.mem_cons_self _ _)))]
      rfl
  | cons w ws ih =>
    intro off
    have harith : off + (w :: ws).length = (off + 1) + ws.length := by
      simp only [List.length_cons]
      omega
    rw [harith]
    have hne : RawKey.p3 k sb (Tie.fin ((off + 1) + ws.length)) ≠
        RawKey.p3 k sb (Tie.fin off) := by
      intro hh
      injection hh with h1 h2 h3
      injection h3 with h3
      omega
    show putS ((RawKey.p3 k sb (Tie.fin off), w) ::
      (groupFrom k sb (off + 1) ws ++ B)) _ v = _
    rw [putS_cons, if_neg (RawKey.klt_asymm (p3_fin_klt_iff.mpr (by omega))),
      if_neg hne, ih (off + 1)]
    rfl

theorem sorted_convex_split {P : RawKey → Prop}
    (hconv : ∀ x y z : RawKey, RawKey.klt x y → RawKey.klt y z →
      P x → P z → P y) :
    ∀ {s : Store}, SortedS s →
    ∃ A G B : Store, s = A ++ G ++ B ∧ (∀ a ∈ A, ¬ P a.1) ∧
      (∀ g ∈ G, P g.1) ∧ (∀ b ∈ B, ¬ P b.1) := by
  intro s hs
  induction s with
  | nil => exact ⟨[], [], [], rfl, by simp, by simp, by simp⟩
  | cons e t ih =>
    rcases sortedS_cons.mp hs with ⟨hlt, hst⟩
    rcases ih hst with ⟨A, G, B, hsplit, hA, hG, hB⟩
    by_cases hPe : P e.1
    · cases G with
      | nil =>
        rw [List.append_nil] at hsplit
        refine ⟨[], [e], A ++ B, ?_, by simp, ?_, ?_⟩
        · rw [hsplit]
          rfl
        · intro g hg
          rcases List.mem_singleton.mp hg with rfl
          exact hPe
        · intro b hb
          rcases List.mem_append.mp hb with hb | hb
          · exact hA b hb
          · exact hB b hb
      | cons g G' =>
        have hA_nil : A = [] := by
          cases A with
          | nil => rfl
          | cons a A' =>
            exfalso
            rw [hsplit] at hst
            rcases @sortedS_append ((a :: A') ++ (g :: G')) B hst with
              ⟨hAG, _, _⟩
            rcases @sortedS_append (a :: A') (g :: G') hAG with
              ⟨_, _, hcross⟩
            have hag : RawKey.klt a.1 g.1 :=
              hcross a (List.mem_cons_self _ _) g (List.mem_cons_self _ _)
            have hea : RawKey.klt e.1 a.1 := by
              apply hlt
              rw [hsplit]
              exact List.mem_append.mpr
                (Or.inl (List.mem_append.mpr (Or.inl (List.mem_cons_self _ _))))
            exact hA a (List.mem_cons_self _ _)
              (hconv _ _ _ hea hag hPe (hG g (List.mem_cons_self _ _)))
        subst hA_nil
        refine ⟨[], e :: g :: G', B, ?_, by simp, ?_, hB⟩
        · rw [hsplit]
          rfl
        · intro x hx
          rcases List.mem_cons.mp hx with rfl | hx
          · exact hPe
          · exact hG x hx
    · refine ⟨e :: A, G, B, ?_, ?_, hG, hB⟩
      · rw [hsplit]
        rfl
      · intro a ha
        rcases List.mem_cons.mp ha with rfl | ha
        · exact hPe
        · exact hA a ha

theorem group_canon {k sb : Nat} :
    ∀ (G : Store) (off : Nat), SortedS G →
    (∀ e ∈ G, ∃ t, e.1 = RawKey.p3 k sb (Tie.fin t) ∧ off ≤ t) →
    (∀ t, off ≤ t → RawKey.p3 k sb (Tie.fin (t + 1)) ∈ keysS G →
      RawKey.p3 k sb (Tie.fin t) ∈ keysS G) →
    G = groupFrom k sb off (G.map Prod.snd) := by
  intro G
  induction G with
  | nil =>
    intro off _ _ _
    rfl
  | cons e G' ih =>
    intro off hs hshape hdc
    rcases sortedS_cons.mp hs with ⟨hlt, hst⟩
    rcases hshape e (List.mem_cons_self _ _) with ⟨t0, hkey, hoff⟩
    have ht0 : t0 = off := by
      by_contra hne
      have h1 : off < t0 := lt_of_le_of_ne hoff (Ne.symm hne)
      have h2 : RawKey.p3 k sb (Tie.fin ((t0 - 1) + 1)) ∈ keysS (e :: G') := by
        rw [show (t0 - 1) + 1 = t0 from by omega, ← hkey]
        exact mem_keysS.mpr ⟨e.2, by rw [Prod.mk.eta]; exact List.mem_cons_self _ _⟩
      have h3 := hdc (t0 - 1) (by omega) h2
      rcases mem_keysS.mp h3 with ⟨w, hw⟩
      rcases List.mem_cons.mp hw with hw | hw
      · have h4 : RawKey.p3 k sb (Tie.fin (t0 - 1)) = e.1 := by
          rw [← hw]
        rw [hkey] at h4
        injection h4 with h5 h6 h7
        injection h7 with h7
        omega
      · have h4 := hlt _ hw
        rw [hkey] at h4
        exact absurd h4 (RawKey.klt_asymm (p3_fin_klt_iff.mpr (by omega)))
    rw [ht0] at hkey
    have hihyp := ih (off + 1) hst ?_ ?_
    · rw [List.map_cons]
      show e :: G' = (RawKey.p3 k sb (Tie.fin off), e.2) ::
        groupFrom k sb (off + 1) (G'.map Prod.snd)
      rw [← hihyp, ← hkey, Prod.mk.eta]
    · intro e' he'
      rcases hshape e' (List.mem_cons_of_mem _ he') with ⟨t, h1, _⟩
      refine ⟨t, h1, ?_⟩
      have h2 := hlt _ he'
      rw [hkey, h1] at h2
      exact p3_fin_klt_iff.mp h2
    · intro t ht hmem
      have h2 := hdc t (by omega)
        (by rw [keysS_cons]; exact List.mem_cons_of_mem _ hmem)
      rw [keysS_cons] at h2
      rcases List.mem_cons.mp h2 with h2 | h2
      · exfalso
        rw [hkey] at h2
        injection h2 with h3 h4 h5
        injection h5 with h5
        omega
      · exact h2

theorem AGB_group_mem {k sb : Nat} {A B : Store} {ws : List Val} {i : Nat}
    {w : Val} (h : ws[i]? = some w) :
    (RawKey.p3 k sb (Tie.fin i), w) ∈ A ++ groupFrom k sb 0 ws ++ B := by
  have h2 := @groupFrom_mem_of_get k sb 0 i ws w h
  rw [Nat.zero_add] at h2
  exact List.mem_append.mpr (Or.inl (List.mem_append.mpr (Or.inr h2)))

theorem keysS_AGB {k sb : Nat} {A B : Store} {ws : List Val} {q : RawKey} :
    q ∈ keysS (A ++ groupFrom k sb 0 ws ++ B) ↔
      q ∈ keysS A ∨ (∃ i, i < ws.length ∧ q = RawKey.p3 k sb (Tie.fin i)) ∨
        q ∈ keysS B := by
  rw [keysS_append, keysS_append]
  constructor
  · intro h
    rcases List.mem_append.mp h with h | h
    · rcases List.mem_append.mp h with h | h
      · exact Or.inl h
      · rcases keysS_groupFrom.mp h with ⟨i, hi, hq⟩
        rw [Nat.zero_add] at hq
        exact Or.inr (Or.inl ⟨i, hi, hq⟩)
    · exact Or.inr (Or.inr h)
  · intro h
    rcases h with h | ⟨i, hi, rfl⟩ | h
    · exact List.mem_append.mpr (Or.inl (List.mem_append.mpr (Or.inl h)))
    · refine List.mem_append.mpr (Or.inl (List.mem_append.mpr (Or.inr ?_)))
      exact keysS_groupFrom.mpr ⟨i, hi, by rw [Nat.zero_add]⟩
    · exact List.mem_append.mpr (Or.inr h)

theorem seekLT_AGB_succ {k sb : Nat} {A B : Store} {ws : List Val}
    (hs : SortedS (A ++ groupFrom k sb 0 ws ++ B))
    (hAlow : ∀ a ∈ A, RawKey.klt a.1 (RawKey.p2 k sb))
    (hBhigh : ∀ b ∈ B, RawKey.klt (RawKey.p3 k sb Tie.top) b.1)
    {i : Nat} (hi : i < ws.length) :
    seekLT (A ++ groupFrom k sb 0 ws ++ B) (RawKey.p3 k sb (Tie.fin (i + 1))) =
      some (RawKey.p3 k sb (Tie.fin i)) := by
  apply seekLT_eq hs
  · exact keysS_AGB.mpr (Or.inr (Or.inl ⟨i, hi, rfl⟩))
  · exact p3_fin_klt_iff.mpr (by omega)
  · intro q hq hqlt
    rcases keysS_AGB.mp hq with hq | ⟨j, hj, rfl⟩ | hq
    · rcases mem_keysS.mp hq with ⟨w, hw⟩
      exact Or.inl (RawKey.klt_trans (hAlow _ hw) group_key_lower)
    · have hji : j < i + 1 := p3_fin_klt_iff.mp hqlt
      exact p3_kle (Or.inr ⟨rfl, by omega⟩)
    · rcases mem_keysS.mp hq with ⟨w, hw⟩
      exact absurd (RawKey.klt_trans (RawKey.klt_trans hqlt group_key_upper)
        (hBhigh _ hw)) (RawKey.klt_irrefl _)

theorem seekLT_AGB_zero {k sb : Nat} {A B : Store} {ws : List Val}
    (hs : SortedS (A ++ groupFrom k sb 0 ws ++ B))
    (hAlow : ∀ a ∈ A, RawKey.klt a.1 (RawKey.p2 k sb))
    (hBhigh : ∀ b ∈ B, RawKey.klt (RawKey.p3 k sb Tie.top) b.1) :
    seekLT (A ++ groupFrom k sb 0 ws ++ B) (RawKey.p3 k sb (Tie.fin 0)) =
      lastK A := by
  rcases hA : lastK A with _ | r
  · have hAnil : A = [] := lastK_none_iff.mp hA
    subst hAnil
    rw [seekLT_none_iff hs]
    intro q hq
    rcases keysS_AGB.mp hq with hq | ⟨j, hj, rfl⟩ | hq
    · simp [keysS] at hq
    · exact p3_kle (Or.inr ⟨rfl, by omega⟩)
    · rcases mem_keysS.mp hq with ⟨w, hw⟩
      exact Or.inl (RawKey.klt_trans group_key_upper (hBhigh _ hw))
  · apply seekLT_eq hs
    · exact keysS_AGB.mpr (Or.inl (lastK_mem hA))
    · rcases mem_keysS.mp (lastK_mem hA) with ⟨w, hw⟩
      exact RawKey.klt_trans (hAlow _ hw) group_key_lower
    · intro q hq hqlt
      rcases keysS_AGB.mp hq with hq | ⟨j, hj, rfl⟩ | hq
      · have hsA : SortedS A := by
          rcases @sortedS_append (A ++ groupFrom k sb 0 ws) B hs with
            ⟨hAG, _, _⟩
          exact (sortedS_append hAG).1
        exact lastK_max hsA hA hq
      · exact absurd (p3_fin_klt_iff.mp hqlt) (by omega)
      · rcases mem_keysS.mp hq with ⟨w, hw⟩
        exact absurd (RawKey.klt_trans (RawKey.klt_trans hqlt group_key_upper)
          (hBhigh _ hw)) (RawKey.klt_irrefl _)

theorem getElem?_append_cons {α : Type _} :
    ∀ (l : List α) (a : α) (r : List α), (l ++ a :: r)[l.length]? = some a := by
  intro l
  induction l with
  | nil =>
    intro a r
    rw [List.nil_append, List.length_nil, List.getElem?_cons_zero]
  | cons x l ih =>
    intro a r
    rw [List.cons_append, List.length_cons, List.getElem?_cons_succ]
    exact ih a r

theorem groupFrom_append {k sb : Nat} :
    ∀ (P Q : List Val) (off : Nat),
    groupFrom k sb off (P ++ Q) =
      groupFrom k sb off P ++ groupFrom k sb (off + P.length) Q := by
  intro P
  induction P with
  | nil =>
    intro Q off
    rw [List.nil_append, List.length_nil, Nat.add_zero]
    rfl
  | cons w P ih =>
    intro Q off
    rw [List.cons_append]
    show (RawKey.p3 k sb (Tie.fin off), w) :: groupFrom k sb (off + 1) (P ++ Q) =
      ((RawKey.p3 k sb (Tie.fin off), w) :: groupFrom k sb (off + 1) P) ++
        groupFrom k sb (off + (w :: P).length) Q
    rw [ih, List.cons_append,
      show off + (w :: P).length = (off + 1) + P.length by
        simp only [List.length_cons]; omega]

theorem putS_groupFrom_head {k sb : Nat} {B : Store} {v : Val}
    (hB : ∀ b ∈ B, RawKey.klt (RawKey.p3 k sb Tie.top) b.1)
    (R : List Val) (off : Nat) :
    putS (groupFrom k sb off R ++ B) (RawKey.p3 k sb (Tie.fin off)) v =
      groupFrom k sb off (v :: R.tail) ++ B := by
  cases R with
  | nil =>
    cases B with
    | nil => rfl
    | cons b B' =>
      show putS (b :: B') _ v = _
      rw [putS_cons, if_pos (RawKey.klt_trans group_key_upper
        (hB b (List.mem_cons_self _ _)))]
      rfl
  | cons r R' =>
    show putS ((RawKey.p3 k sb (Tie.fin off), r) ::
      (groupFrom k sb (off + 1) R' ++ B)) _ v = _
    rw [putS_cons, if_neg (RawKey.klt_irrefl _), if_pos rfl]
    rfl

/-- A raw put at the next tie of a group writes through the store split:
either overwriting the next stored tie or extending the group by one. -/
theorem putS_AGB_next {k sb : Nat} {A B : Store} {v : Val}
    (hAlow : ∀ a ∈ A, RawKey.klt a.1 (RawKey.p2 k sb))
    (hBhigh : ∀ b ∈ B, RawKey.klt (RawKey.p3 k sb Tie.top) b.1)
    (Pr : List Val) (wt : Val) (R : List Val) :
    putS (A ++ groupFrom k sb 0 (Pr ++ wt :: R) ++ B)
        (RawKey.p3 k sb (Tie.fin (Pr.length + 1))) v =
      A ++ groupFrom k sb 0 (Pr ++ wt :: v :: R.tail) ++ B := by
  have hpref : ∀ a ∈ A ++ groupFrom k sb 0 (Pr ++ [wt]),
      RawKey.klt a.1 (RawKey.p3 k sb (Tie.fin (Pr.length + 1))) := by
    intro a ha
    rcases List.mem_append.mp ha with ha | ha
    · exact RawKey.klt_trans (hAlow a ha) group_key_lower
    · rcases groupFrom_mem ha with ⟨i, w, h1, h2⟩
      rw [h1]
      rcases List.getElem?_eq_some.mp h2 with ⟨hlen, _⟩
      have hi : i < Pr.length + 1 := by simpa using hlen
      exact p3_fin_klt_iff.mpr (by omega)
  have hsplit : A ++ groupFrom k sb 0 (Pr ++ wt :: R) ++ B =
      (A ++ groupFrom k sb 0 (Pr ++ [wt])) ++
        (groupFrom k sb (Pr.length + 1) R ++ B) := by
    rw [show Pr ++ wt :: R = (Pr ++ [wt]) ++ R by simp, groupFrom_append,
      show (0 : Nat) + (Pr ++ [wt]).length = Pr.length + 1 by simp]
    simp [List.append_assoc]
  have hmerge : A ++ groupFrom k sb 0 (Pr ++ wt :: v :: R.tail) ++ B =
      (A ++ groupFrom k sb 0 (Pr ++ [wt])) ++
        (groupFrom k sb (Pr.length + 1) (v :: R.tail) ++ B) := by
    rw [show Pr ++ wt :: v :: R.tail = (Pr ++ [wt]) ++ v :: R.tail by simp,
      groupFrom_append,
      show (0 : Nat) + (Pr ++ [wt]).length = Pr.length + 1 by simp]
    simp [List.append_assoc]
  rw [hsplit, putS_append_right hpref,
    putS_groupFrom_head hBhigh R (Pr.length + 1), hmerge]

theorem putS_AGB_head {k sb : Nat} {A B : Store} {v : Val}
    (hAlow : ∀ a ∈ A, RawKey.klt a.1 (RawKey.p2 k sb))
    (hBhigh : ∀ b ∈ B, RawKey.klt (RawKey.p3 k sb Tie.top) b.1)
    (ws : List Val) :
    putS (A ++ groupFrom k sb 0 ws ++ B) (RawKey.p3 k sb (Tie.fin 0)) v =
      A ++ groupFrom k sb 0 (v :: ws.tail) ++ B := by
  rw [List.append_assoc,
    putS_append_right (fun a ha =>
      RawKey.klt_trans (hAlow a ha) group_key_lower),
    putS_groupFrom_head hBhigh ws 0, ← List.append_assoc]

/-- The second `upsert` loop on a split store: positioned at tie `Pr.length`
of the composite prefix's group — the values above it already shifted one tie
up — it walks down, keeps shifting every value not below the new one, and
writes the new value into the slot so opened; the group's values become the
backward sorted insert, all other entries untouched. -/
theorem dupInsertLoop_go {k sb : Nat} {cv : Val} {A B : Store}
    (hsA : SortedS A) (hsB : SortedS B)
    (hAlow : ∀ a ∈ A, RawKey.klt a.1 (RawKey.p2 k sb))
    (hBhigh : ∀ b ∈ B, RawKey.klt (RawKey.p3 k sb Tie.top) b.1)
    (hAgrp : ∀ a ∈ A, unformatExt a.1 ≠ RawKey.p2 k sb) :
    ∀ (Pr : List Val) (wt : Val) (R : List Val) (fuel : Nat),
    Pr.length + 2 ≤ fuel →
    (Cursor.dupInsertLoop (RawKey.p2 k sb) cv fuel
        ⟨true, A ++ groupFrom k sb 0 (Pr ++ wt :: R) ++ B,
          some (RawKey.p3 k sb (Tie.fin Pr.length)), .iter⟩).store =
      A ++ groupFrom k sb 0 (insBack cv (Pr ++ [wt]) ++ R.tail) ++ B ∧
    (Cursor.dupInsertLoop (RawKey.p2 k sb) cv fuel
        ⟨true, A ++ groupFrom k sb 0 (Pr ++ wt :: R) ++ B,
          some (RawKey.p3 k sb (Tie.fin Pr.length)), .iter⟩).dup = true := by
  intro Pr
  induction Pr using List.reverseRecOn with
  | nil =>
    intro wt R fuel hf
    simp only [List.nil_append, List.length_nil] at hf ⊢
    cases fuel with
    | zero => omega
    | succ f =>
      rw [dupInsertLoop_succ]
      have hitem : itemAt (A ++ groupFrom k sb 0 (wt :: R) ++ B)
          (some (RawKey.p3 k sb (Tie.fin 0))) =
          some (RawKey.p3 k sb (Tie.fin 0), wt) :=
        itemAt_of_mem (sortedS_AGB hsA hsB hAlow hBhigh (wt :: R))
          (AGB_group_mem List.getElem?_cons_zero)
      rw [show itItem (⟨true, A ++ groupFrom k sb 0 (wt :: R) ++ B,
        some (RawKey.p3 k sb (Tie.fin 0)), .iter⟩ : Machine) =
        some (RawKey.p3 k sb (Tie.fin 0), wt) from hitem]
      dsimp only [upExt]
      rw [if_pos (show unformatExt (RawKey.p3 k sb (Tie.fin 0)) =
        RawKey.p2 k sb from rfl)]
      have hput0 : ∀ u : Val,
          putS (A ++ groupFrom k sb 0 (wt :: R) ++ B)
            (RawKey.p3 k sb (Tie.fin (0 + 1))) u =
          A ++ groupFrom k sb 0 (wt :: u :: R.tail) ++ B := by
        intro u
        have h := putS_AGB_next (v := u) hAlow hBhigh [] wt R
        simp only [List.nil_append, List.length_nil] at h
        exact h
      by_cases hvlt : vlt wt cv
      · rw [if_pos hvlt]
        refine ⟨?_, rfl⟩
        show putS (A ++ groupFrom k sb 0 (wt :: R) ++ B)
          (RawKey.p3 k sb (Tie.fin (0 + 1))) cv = _
        rw [hput0 cv, show insBack cv [wt] = [wt, cv] by
          simp [insBack, insRevA, hvlt],
          show ([wt, cv] : List Val) ++ R.tail = wt :: cv :: R.tail by simp]
      · rw [if_neg hvlt]
        have hs1 : SortedS (A ++ groupFrom k sb 0 (wt :: wt :: R.tail) ++ B) :=
          sortedS_AGB hsA hsB hAlow hBhigh _
        have hprev : seekLT (A ++ groupFrom k sb 0 (wt :: wt :: R.tail) ++ B)
            (RawKey.p3 k sb (Tie.fin 0)) = lastK A :=
          seekLT_AGB_zero hs1 hAlow hBhigh
        have hmach : itPrev (putM (⟨true, A ++ groupFrom k sb 0 (wt :: R) ++ B,
            some (RawKey.p3 k sb (Tie.fin 0)), .iter⟩ : Machine)
            (RawKey.p3 k sb (Tie.fin (0 + 1))) wt) =
            ⟨true, A ++ groupFrom k sb 0 (wt :: wt :: R.tail) ++ B,
              lastK A, .iter⟩ := by
          simp only [itPrev, putM, Option.some_bind, hput0 wt, hprev]
        rw [hmach]
        cases f with
        | zero => omega
        | succ f' =>
          rw [dupInsertLoop_succ]
          have hins : insBack cv [wt] ++ R.tail = cv :: wt :: R.tail := by
            simp [insBack, insRevA, hvlt]
          rcases List.eq_nil_or_concat A with rfl | ⟨A', a, rfl⟩
          · rw [show itItem (⟨true,
              [] ++ groupFrom k sb 0 (wt :: wt :: R.tail) ++ B,
              lastK ([] : Store), .iter⟩ : Machine) = none from rfl]
            dsimp only [zeroExt]
            refine ⟨?_, rfl⟩
            show putS ([] ++ groupFrom k sb 0 (wt :: wt :: R.tail) ++ B)
              (RawKey.p3 k sb (Tie.fin 0)) cv = _
            rw [putS_AGB_head hAlow hBhigh _, hins]
            rfl
          · simp only [List.concat_eq_append] at hs1 hprev hAlow hAgrp ⊢
            have haS : a ∈ (A' ++ [a]) ++
                groupFrom k sb 0 (wt :: wt :: R.tail) ++ B := by
              simp
            have hitem2 : itemAt ((A' ++ [a]) ++
                groupFrom k sb 0 (wt :: wt :: R.tail) ++ B)
                (some a.1) = some a :=
              itemAt_of_mem hs1 (by rw [Prod.mk.eta]; exact haS)
            rw [show itItem (⟨true,
              (A' ++ [a]) ++ groupFrom k sb 0 (wt :: wt :: R.tail) ++ B,
              lastK (A' ++ [a]), .iter⟩ : Machine) = some a from by
                rw [show lastK (A' ++ [a]) = some a.1 from
                  lastK_append_singleton]
                exact hitem2]
            dsimp only [zeroExt]
            rw [if_neg (hAgrp a (by simp))]
            refine ⟨?_, rfl⟩
            show putS ((A' ++ [a]) ++
              groupFrom k sb 0 (wt :: wt :: R.tail) ++ B)
              (RawKey.p3 k sb (Tie.fin 0)) cv = _
            rw [putS_AGB_head hAlow hBhigh _, hins]
            rfl
  | append_singleton P'' wp ih =>
    intro wt R fuel hf
    simp only [List.length_append, List.length_singleton] at hf
    cases fuel with
    | zero => omega
    | succ f =>
      rw [dupInsertLoop_succ]
      have hitem : itemAt (A ++ groupFrom k sb 0 ((P'' ++ [wp]) ++ wt :: R)
          ++ B) (some (RawKey.p3 k sb (Tie.fin (P'' ++ [wp]).length))) =
          some (RawKey.p3 k sb (Tie.fin (P'' ++ [wp]).length), wt) :=
        itemAt_of_mem (sortedS_AGB hsA hsB hAlow hBhigh _)
          (AGB_group_mem (getElem?_append_cons _ _ _))
      rw [show itItem (⟨true,
        A ++ groupFrom k sb 0 ((P'' ++ [wp]) ++ wt :: R) ++ B,
        some (RawKey.p3 k sb (Tie.fin (P'' ++ [wp]).length)), .iter⟩ :
        Machine) = some (RawKey.p3 k sb (Tie.fin (P'' ++ [wp]).length), wt)
        from hitem]
      dsimp only [upExt]
      rw [if_pos (show unformatExt
        (RawKey.p3 k sb (Tie.fin (P'' ++ [wp]).length)) =
        RawKey.p2 k sb from rfl)]
      have hput : ∀ u : Val,
          putS (A ++ groupFrom k sb 0 ((P'' ++ [wp]) ++ wt :: R) ++ B)
            (RawKey.p3 k sb (Tie.fin ((P'' ++ [wp]).length + 1))) u =
          A ++ groupFrom k sb 0 ((P'' ++ [wp]) ++ wt :: u :: R.tail) ++ B :=
        fun u => putS_AGB_next (v := u) hAlow hBhigh (P'' ++ [wp]) wt R
      by_cases hvlt : vlt wt cv
      · rw [if_pos hvlt]
        refine ⟨?_, rfl⟩
        show putS (A ++ groupFrom k sb 0 ((P'' ++ [wp]) ++ wt :: R) ++ B)
          (RawKey.p3 k sb (Tie.fin ((P'' ++ [wp]).length + 1))) cv = _
        rw [hput cv, insBack_concat_pos hvlt,
          show ((P'' ++ [wp]) ++ [wt, cv]) ++ R.tail =
            (P'' ++ [wp]) ++ wt :: cv :: R.tail by simp]
      · rw [if_neg hvlt]
        have hs1 : SortedS (A ++ groupFrom k sb 0
            (P'' ++ wp :: wt :: wt :: R.tail) ++ B) :=
          sortedS_AGB hsA hsB hAlow hBhigh _
        have hassoc : (P'' ++ [wp]) ++ wt :: wt :: R.tail =
            P'' ++ wp :: wt :: wt :: R.tail := by simp
        have hlen : (P'' ++ [wp]).length = P''.length + 1 := by
          simp
        have hprev : seekLT (A ++ groupFrom k sb 0
            (P'' ++ wp :: wt :: wt :: R.tail) ++ B)
            (RawKey.p3 k sb (Tie.fin (P''.length + 1))) =
            some (RawKey.p3 k sb (Tie.fin P''.length)) :=
          seekLT_AGB_succ hs1 hAlow hBhigh (by simp)
        have hmach : itPrev (putM (⟨true,
            A ++ groupFrom k sb 0 ((P'' ++ [wp]) ++ wt :: R) ++ B,
            some (RawKey.p3 k sb (Tie.fin (P'' ++ [wp]).length)), .iter⟩ :
            Machine)
            (RawKey.p3 k sb (Tie.fin ((P'' ++ [wp]).length + 1))) wt) =
            ⟨true, A ++ groupFrom k sb 0 (P'' ++ wp :: wt :: wt :: R.tail)
              ++ B, some (RawKey.p3 k sb (Tie.fin P''.length)), .iter⟩ := by
          simp only [itPrev, putM, Option.some_bind, hput wt]
          simp only [hassoc, hlen, hprev]
        rw [hmach]
        have hres := ih wp (wt :: wt :: R.tail) f (by omega)
        rw [show List.tail (wt :: wt :: R.tail) = wt :: R.tail from rfl]
          at hres
        rw [insBack_concat_neg hvlt,
          show (insBack cv (P'' ++ [wp]) ++ [wt]) ++ R.tail =
            insBack cv (P'' ++ [wp]) ++ wt :: R.tail by simp]
        exact hres

theorem unformatExt_eq_p2_cases {q : RawKey} {k sb : Nat}
    (h : unformatExt q = RawKey.p2 k sb) :
    q = RawKey.p2 k sb ∨ ∃ t, q = RawKey.p3 k sb t := by
  cases q with
  | p1 a =>
    exact absurd h (by intro hh; exact RawKey.noConfusion hh)
  | p2 a b =>
    exact Or.inl h
  | p3 a b t =>
    right
    rcases unformatExt_eq_p2_iff.mp h with ⟨rfl, rfl⟩
    exact ⟨t, rfl⟩

theorem enc_of_group {q : RawKey} {k sb : Nat}
    (h : unformatExt q = RawKey.p2 k sb) :
    (RawKey.enc q).1 = k ∧ (RawKey.enc q).2.1 = sb + 1 := by
  rcases unformatExt_eq_p2_cases h with rfl | ⟨t, rfl⟩
  · exact ⟨rfl, rfl⟩
  · exact ⟨rfl, rfl⟩

/-- Group membership is convex in the byte order: any key lying strictly
between two keys of one composite prefix's group belongs to that group. -/
theorem group_convex {k sb : Nat} (x y z : RawKey)
    (hxy : RawKey.klt x y) (hyz : RawKey.klt y z)
    (hx : unformatExt x = RawKey.p2 k sb)
    (hz : unformatExt z = RawKey.p2 k sb) :
    unformatExt y = RawKey.p2 k sb := by
  rcases enc_of_group hx with ⟨hx1, hx2⟩
  rcases enc_of_group hz with ⟨hz1, hz2⟩
  have hy : (RawKey.enc y).1 = k ∧ (RawKey.enc y).2.1 = sb + 1 := by
    dsimp only [RawKey.klt, RawKey.lex4] at hxy hyz
    omega
  cases y with
  | p1 a =>
    exfalso
    dsimp only [RawKey.enc] at hy
    omega
  | p2 a b =>
    dsimp only [RawKey.enc] at hy
    obtain ⟨rfl, h2⟩ := hy
    rw [show b = sb by omega]
    rfl
  | p3 a b t =>
    dsimp only [RawKey.enc] at hy
    obtain ⟨rfl, h2⟩ := hy
    rw [show b = sb by omega]
    rfl

theorem seekLE_AGB_last {k sb : Nat} {A B : Store} {V : List Val} {wl : Val}
    (hs : SortedS (A ++ groupFrom k sb 0 (V ++ [wl]) ++ B))
    (hAlow : ∀ a ∈ A, RawKey.klt a.1 (RawKey.p2 k sb))
    (hBhigh : ∀ b ∈ B, RawKey.klt (RawKey.p3 k sb Tie.top) b.1) :
    seekLE (A ++ groupFrom k sb 0 (V ++ [wl]) ++ B) (RawKey.p3 k sb Tie.top) =
      some (RawKey.p3 k sb (Tie.fin V.length)) := by
  apply seekLE_eq hs
  · exact keysS_AGB.mpr (Or.inr (Or.inl ⟨V.length, by simp, rfl⟩))
  · exact Or.inl group_key_upper
  · intro q hq hqle
    rcases keysS_AGB.mp hq with hq | ⟨j, hj, rfl⟩ | hq
    · rcases mem_keysS.mp hq with ⟨w, hw⟩
      exact Or.inl (RawKey.klt_trans (hAlow _ hw) group_key_lower)
    · have hj2 : j < V.length + 1 := by simpa using hj
      exact p3_kle (Or.inr ⟨rfl, by omega⟩)
    · rcases mem_keysS.mp hq with ⟨w, hw⟩
      rcases hqle with hqle | rfl
      · exact absurd (RawKey.klt_trans hqle (hBhigh _ hw))
          (RawKey.klt_irrefl _)
      · exact absurd (hBhigh _ hw) (RawKey.klt_irrefl _)

/-- A zero-tie put into an empty group preserves the write-path invariant. -/
theorem invS_put_fresh {s : Store} (hinv : InvS s) (k sb : Nat) (v : Val)
    (hv1 : v.1 = sb)
    (hng : ∀ (t : Nat) (w : Val), (RawKey.p3 k sb (Tie.fin t), w) ∉ s) :
    InvS (putS s (RawKey.p3 k sb (Tie.fin 0)) v) := by
  obtain ⟨hs, hvs, hgm, htc⟩ := hinv
  refine ⟨sortedS_putS hs _ _, ?_, ?_, ?_⟩
  · intro e he
    rcases mem_putS he with ⟨h1, h2⟩ | h1
    · exact ⟨k, sb, 0, by rw [h1], by rw [h2, hv1]⟩
    · exact hvs e h1
  · intro k' sb' t t' v1 v2 h1 h2 htt
    rcases mem_putS h1 with ⟨hk1, _⟩ | hk1
    · rcases mem_putS h2 with ⟨hk2, _⟩ | hk2
      · injection hk1 with e1 e2 e3
        injection hk2 with f1 f2 f3
        injection e3 with e3
        injection f3 with f3
        omega
      · injection hk1 with e1 e2 e3
        subst e1
        subst e2
        exact absurd hk2 (hng t' v2)
    · rcases mem_putS h2 with ⟨hk2, _⟩ | hk2
      · injection hk2 with f1 f2 f3
        subst f1
        subst f2
        exact absurd hk1 (hng t v1)
      · exact hgm k' sb' t t' v1 v2 hk1 hk2 htt
  · intro k' sb' t hmem
    rcases keysS_putS.mp hmem with h1 | h1
    · exfalso
      injection h1 with e1 e2 e3
      injection e3 with e3
      omega
    · exact keysS_putS.mpr (Or.inr (htc k' sb' t h1))

/-- Under the write-path invariant, the store splits around any composite
prefix's group: a low part, the canonical group (contiguous ties holding
value-sorted values), and a high part. -/
theorem invS_group_split {s : Store} (hinv : InvS s) {k sb : Nat}
    {el : RawKey × Val} (hel : el ∈ s)
    (hgrp : unformatExt el.1 = RawKey.p2 k sb) :
    ∃ A vals B, s = A ++ groupFrom k sb 0 vals ++ B ∧ vals ≠ [] ∧
      SortedS A ∧ SortedS B ∧
      (∀ a ∈ A, RawKey.klt a.1 (RawKey.p2 k sb)) ∧
      (∀ b ∈ B, RawKey.klt (RawKey.p3 k sb Tie.top) b.1) ∧
      (∀ a ∈ A, ¬ unformatExt a.1 = RawKey.p2 k sb) ∧
      (∀ b ∈ B, ¬ unformatExt b.1 = RawKey.p2 k sb) ∧
      List.Pairwise vlt vals ∧ (∀ w ∈ vals, w.1 = sb) := by
  obtain ⟨hs, hvs, hgm, htc⟩ := hinv
  obtain ⟨A, G, B, hsplit, hA, hG, hB⟩ :=
    sorted_convex_split (P := fun q => unformatExt q = RawKey.p2 k sb)
      group_convex hs
  have hmemG : ∀ e ∈ G, e ∈ s := by
    intro e he
    rw [hsplit]
    exact List.mem_append.mpr (Or.inl (List.mem_append.mpr (Or.inr he)))
  have hmemA : ∀ e ∈ A, e ∈ s := by
    intro e he
    rw [hsplit]
    exact List.mem_append.mpr (Or.inl (List.mem_append.mpr (Or.inl he)))
  have hmemB : ∀ e ∈ B, e ∈ s := by
    intro e he
    rw [hsplit]
    exact List.mem_append.mpr (Or.inr he)
  have hsh : ShapeOk s := shapeOk_of_valShapeOk hvs
  have hsAGB : SortedS (A ++ G ++ B) := hsplit ▸ hs
  have hsAG := @sortedS_append (A ++ G) B hsAGB
  have hsA : SortedS A := (sortedS_append hsAG.1).1
  have hsG : SortedS G := (sortedS_append hsAG.1).2.1
  have hcrossAG := (sortedS_append hsAG.1).2.2
  have hsB : SortedS B := hsAG.2.1
  have hcrossB := hsAG.2.2
  have hGshape : ∀ e ∈ G, ∃ t, e.1 = RawKey.p3 k sb (Tie.fin t) ∧ 0 ≤ t := by
    intro e he
    rcases hvs e (hmemG e he) with ⟨k', sb', t', hk, _⟩
    have h1 := hG e he
    rw [hk] at h1
    rcases unformatExt_eq_p2_iff.mp h1 with ⟨rfl, rfl⟩
    exact ⟨t', hk, by omega⟩
  have hGdc : ∀ t, 0 ≤ t → RawKey.p3 k sb (Tie.fin (t + 1)) ∈ keysS G →
      RawKey.p3 k sb (Tie.fin t) ∈ keysS G := by
    intro t _ hmem
    have h1 : RawKey.p3 k sb (Tie.fin (t + 1)) ∈ keysS s := by
      rcases mem_keysS.mp hmem with ⟨w, hw⟩
      exact mem_keysS.mpr ⟨w, hmemG _ hw⟩
    have h2 := htc k sb t h1
    rcases mem_keysS.mp h2 with ⟨w, hw⟩
    rw [hsplit] at hw
    rcases List.mem_append.mp hw with hw | hw
    · rcases List.mem_append.mp hw with hw | hw
      · exact absurd (show unformatExt
          (RawKey.p3 k sb (Tie.fin t), w).1 = RawKey.p2 k sb from rfl)
          (hA _ hw)
      · exact mem_keysS.mpr ⟨w, hw⟩
    · exact absurd (show unformatExt
        (RawKey.p3 k sb (Tie.fin t), w).1 = RawKey.p2 k sb from rfl)
        (hB _ hw)
  have hcanon := group_canon G 0 hsG hGshape hGdc
  have helG : el ∈ G := by
    rw [hsplit] at hel
    rcases List.mem_append.mp hel with h | h
    · rcases List.mem_append.mp h with h | h
      · exact absurd hgrp (hA el h)
      · exact h
    · exact absurd hgrp (hB el h)
  rcases hGshape el helG with ⟨tl, hkel, _⟩
  refine ⟨A, G.map Prod.snd, B, by rw [hsplit, ← hcanon], ?_, hsA, hsB,
    ?_, ?_, hA, hB, ?_, ?_⟩
  · intro hnil
    have hGnil : G = [] := by
      cases G with
      | nil => rfl
      | cons x xs => exact absurd hnil (by simp)
    rw [hGnil] at helG
    simp at helG
  · intro a ha
    by_contra hcon
    have h1 : RawKey.kle (RawKey.p2 k sb) a.1 :=
      RawKey.not_klt_iff_kle.mp hcon
    have h2 : RawKey.klt a.1 (RawKey.p3 k sb Tie.top) := by
      have h3 := hcrossAG a ha el helG
      rw [hkel] at h3
      exact RawKey.klt_trans h3 group_key_upper
    exact hA a ha (group_squeeze_shape hsh (hmemA a ha) h1 h2)
  · intro b hb
    by_contra hcon
    have h1 : RawKey.kle b.1 (RawKey.p3 k sb Tie.top) :=
      RawKey.not_klt_iff_kle.mp hcon
    have h2 : RawKey.kle (RawKey.p2 k sb) b.1 := by
      have h3 := hcrossB el (List.mem_append.mpr (Or.inr helG)) b hb
      rw [hkel] at h3
      exact Or.inl (RawKey.klt_trans group_key_lower h3)
    rcases h1 with h1 | h1
    · exact hB b hb (group_squeeze_shape hsh (hmemB b hb) h2 h1)
    · rcases hvs b (hmemB b hb) with ⟨k', sb', t', hk, _⟩
      rw [h1] at hk
      injection hk with e1 e2 e3
      exact Tie.noConfusion e3
  · rw [List.pairwise_map]
    apply List.Pairwise.imp_of_mem ?_ hsG
    intro x y hx hy hklt
    rcases hGshape x hx with ⟨tx, hkx, _⟩
    rcases hGshape y hy with ⟨ty, hky, _⟩
    rw [hkx, hky] at hklt
    exact hgm k sb tx ty x.2 y.2
      (by rw [← hkx, Prod.mk.eta]; exact hmemG x hx)
      (by rw [← hky, Prod.mk.eta]; exact hmemG y hy)
      (p3_fin_klt_iff.mp hklt)
  · intro w hw
    rcases List.mem_map.mp hw with ⟨e, he, rfl⟩
    rcases hvs e (hmemG e he) with ⟨k', sb', t', hk, hv⟩
    have h1 := hG e he
    rw [hk] at h1
    rcases unformatExt_eq_p2_iff.mp h1 with ⟨rfl, rfl⟩
    exact hv

/-- Rebuilding one group over value-sorted values preserves the write-path
invariant, provided the low and high parts keep theirs. -/
theorem invS_AGB {k sb : Nat} {A B : Store} {vals : List Val}
    (hsA : SortedS A) (hsB : SortedS B)
    (hAlow : ∀ a ∈ A, RawKey.klt a.1 (RawKey.p2 k sb))
    (hBhigh : ∀ b ∈ B, RawKey.klt (RawKey.p3 k sb Tie.top) b.1)
    (hvsAB : ∀ e ∈ A ++ B, ∃ k' sb' t',
      e.1 = RawKey.p3 k' sb' (Tie.fin t') ∧ e.2.1 = sb')
    (hgmAB : GroupMono (A ++ B))
    (htcAB : ∀ k' sb' t, RawKey.p3 k' sb' (Tie.fin (t + 1)) ∈ keysS (A ++ B) →
      RawKey.p3 k' sb' (Tie.fin t) ∈ keysS (A ++ B))
    (hvals1 : ∀ w ∈ vals, w.1 = sb)
    (hpw : List.Pairwise vlt vals) :
    InvS (A ++ groupFrom k sb 0 vals ++ B) := by
  have hmem3 : ∀ e ∈ A ++ groupFrom k sb 0 vals ++ B,
      e ∈ A ++ B ∨
        ∃ i w, e = (RawKey.p3 k sb (Tie.fin i), w) ∧ vals[i]? = some w := by
    intro e he
    rcases List.mem_append.mp he with he | he
    · rcases List.mem_append.mp he with he | he
      · exact Or.inl (List.mem_append.mpr (Or.inl he))
      · rcases groupFrom_mem he with ⟨i, w, h1, h2⟩
        rw [Nat.zero_add] at h1
        exact Or.inr ⟨i, w, h1, h2⟩
    · exact Or.inl (List.mem_append.mpr (Or.inr he))
  have hABnogroup : ∀ (t : Nat) (v1 : Val),
      (RawKey.p3 k sb (Tie.fin t), v1) ∈ A ++ B → False := by
    intro t v1 hmem
    rcases List.mem_append.mp hmem with hmem | hmem
    · exact absurd (hAlow _ hmem) (RawKey.klt_asymm group_key_lower)
    · exact absurd (hBhigh _ hmem) (RawKey.klt_asymm group_key_upper)
  refine ⟨sortedS_AGB hsA hsB hAlow hBhigh vals, ?_, ?_, ?_⟩
  · intro e he
    rcases hmem3 e he with he | ⟨i, w, rfl, h2⟩
    · exact hvsAB e he
    · refine ⟨k, sb, i, rfl, ?_⟩
      have hwmem : w ∈ vals := by
        rcases List.getElem?_eq_some.mp h2 with ⟨hlen, hget⟩
        rw [← hget]
        exact List.getElem_mem _
      exact hvals1 w hwmem
  · intro k' sb' t t' v1 v2 h1 h2 htt
    rcases hmem3 _ h1 with h1' | ⟨i1, w1, he1, hg1⟩
    · rcases hmem3 _ h2 with h2' | ⟨i2, w2, he2, hg2⟩
      · exact hgmAB k' sb' t t' v1 v2 h1' h2' htt
      · injection he2 with he2k he2v
        injection he2k with f1 f2 f3
        subst f1
        subst f2
        exact absurd h1' (fun h => hABnogroup t v1 h)
    · injection he1 with he1k he1v
      injection he1k with f1 f2 f3
      injection f3 with f3
      subst f1
      subst f2
      rcases hmem3 _ h2 with h2' | ⟨i2, w2, he2, hg2⟩
      · exact absurd h2' (fun h => hABnogroup t' v2 h)
      · injection he2 with he2k he2v
        injection he2k with g1 g2 g3
        injection g3 with g3
        rcases List.getElem?_eq_some.mp hg1 with ⟨hl1, hget1⟩
        rcases List.getElem?_eq_some.mp hg2 with ⟨hl2, hget2⟩
        have hvw := List.pairwise_iff_getElem.mp hpw i1 i2 hl1 hl2
          (by omega)
        rw [he1v, ← hget1, he2v, ← hget2]
        exact hvw
  · intro k' sb' t hmem
    rcases keysS_AGB.mp hmem with h | ⟨i, hi, heq⟩ | h
    · have h2 := htcAB k' sb' t
        (by rw [keysS_append]; exact List.mem_append.mpr (Or.inl h))
      rw [keysS_append] at h2
      rcases List.mem_append.mp h2 with h2 | h2
      · exact keysS_AGB.mpr (Or.inl h2)
      · exact keysS_AGB.mpr (Or.inr (Or.inr h2))
    · injection heq with e1 e2 e3
      injection e3 with e3
      subst e1
      subst e2
      exact keysS_AGB.mpr (Or.inr (Or.inl ⟨t, by omega, rfl⟩))
    · have h2 := htcAB k' sb' t
        (by rw [keysS_append]; exact List.mem_append.mpr (Or.inr h))
      rw [keysS_append] at h2
      rcases List.mem_append.mp h2 with h2 | h2
      · exact keysS_AGB.mpr (Or.inl h2)
      · exact keysS_AGB.mpr (Or.inr (Or.inr h2))

theorem dupCheckLoop_st {ck : RawKey} {cv : Val} :
    ∀ (fuel : Nat) (m : Machine),
    (Cursor.dupCheckLoop ck cv fuel m).2.st = m.st := by
  intro fuel
  induction fuel with
  | zero =>
    intro m
    rfl
  | succ f ih =>
    intro m
    rw [dupCheckLoop_succ]
    rcases h : itItem m with _ | el
    · rfl
    · dsimp only
      by_cases h1 : unformatExt el.1 = ck
      · rw [if_pos h1]
        by_cases h2 : el.2 = cv
        · rw [if_pos h2]
        · rw [if_neg h2]
          exact ih (itPrev m)
      · rw [if_neg h1]

/-- `upsert` on a dupsort cursor preserves the write-path store invariant
and the dup flag. -/
theorem upsert_true_invS {s : Store} {p : Option RawKey} {st : CState}
    (k : Nat) (v : Val) (hinv : InvS s) :
    InvS (Cursor.upsert ⟨true, s, p, st⟩ k v).store ∧
    (Cursor.upsert ⟨true, s, p, st⟩ k v).dup = true := by
  have hs : SortedS s := hinv.1
  have hvs : ValShapeOk s := hinv.2.1
  have hgm : GroupMono s := hinv.2.2.1
  have htc : TieContig s := hinv.2.2.2
  have hsh : ShapeOk s := shapeOk_of_valShapeOk hvs
  rcases hit : itemAt s (seekLE s (RawKey.p3 k v.1 .top)) with _ | el
  · have hng : ∀ (t : Nat) (w : Val),
        (RawKey.p3 k v.1 (Tie.fin t), w) ∉ s := by
      intro t w hmem
      rcases seekLE_max_group hs hsh (mem_keysS.mpr ⟨w, hmem⟩) with
        ⟨g, hg1, hg2, _, _⟩
      rw [hg1] at hit
      rcases Option.isSome_iff_exists.mp (lookupS_isSome.mpr hg2) with
        ⟨w', hw'⟩
      rw [itemAt_some, hw'] at hit
      exact Option.noConfusion hit
    rw [upsert_true_none hit]
    exact ⟨invS_put_fresh hinv k v.1 v rfl hng, rfl⟩
  · by_cases hgrp : unformatExt el.1 = RawKey.p2 k v.1
    · rw [upsert_true_dup hit hgrp]
      have hel : el ∈ s := itemAt_mem hit
      rcases invS_group_split hinv hel hgrp with
        ⟨A, vals, B, hsplit, hvne, hsA, hsB, hAlow, hBhigh, hAgrp, hBgrp,
          hpw, hv1⟩
      rcases List.eq_nil_or_concat vals with rfl | ⟨V, wl, rfl⟩
      · exact absurd rfl hvne
      rw [List.concat_eq_append] at hsplit hpw hv1
      have hseek : seekLE s (RawKey.p3 k v.1 Tie.top) =
          some (RawKey.p3 k v.1 (Tie.fin V.length)) := by
        rw [hsplit]
        exact seekLE_AGB_last (hsplit ▸ hs) hAlow hBhigh
      have hslen : s.length = A.length + (V.length + 1) + B.length := by
        rw [hsplit]
        simp only [List.length_append, groupFrom_length,
          List.length_singleton]
      rcases hloop : Cursor.dupCheckLoop (RawKey.p2 k v.1) v (s.length + 1)
          ⟨true, s, seekLE s (RawKey.p3 k v.1 .top), .iter⟩ with ⟨found, m2⟩
      have h1 := @dupCheckLoop_store (RawKey.p2 k v.1) v
        (s.length + 1) ⟨true, s, seekLE s (RawKey.p3 k v.1 .top), .iter⟩
      have hst2 := @dupCheckLoop_st (RawKey.p2 k v.1) v
        (s.length + 1) ⟨true, s, seekLE s (RawKey.p3 k v.1 .top), .iter⟩
      rw [hloop] at h1 hst2
      cases found with
      | true =>
        rw [if_pos rfl]
        refine ⟨?_, ?_⟩
        · show InvS m2.store
          rw [h1.1]
          exact hinv
        · show m2.dup = true
          exact h1.2
      | false =>
        rw [if_neg Bool.false_ne_true]
        dsimp only at h1 hst2 ⊢
        have hne : ∀ w ∈ V ++ [wl], w ≠ v := by
          intro w hw hwv
          rw [hwv] at hw
          rcases List.mem_iff_getElem?.mp hw with ⟨i, hi⟩
          rcases List.getElem?_eq_some.mp hi with ⟨hilen, _⟩
          have hilen' : i ≤ V.length := by
            simp only [List.length_append, List.length_singleton] at hilen
            omega
          have hsplit2 : s = (A ++ groupFrom k v.1 0 V) ++
              (RawKey.p3 k v.1 (Tie.fin V.length), wl) :: B := by
            rw [hsplit, groupFrom_append]
            simp [groupFrom, List.append_assoc]
          have hxmem : (RawKey.p3 k v.1 (Tie.fin i), v) ∈ s := by
            rw [hsplit]
            exact AGB_group_mem hi
          have hcand : ∃ x ∈ (A ++ groupFrom k v.1 0 V) ++
              [(RawKey.p3 k v.1 (Tie.fin V.length), wl)],
              unformatExt x.1 = RawKey.p2 k v.1 ∧ x.2 = v := by
            refine ⟨(RawKey.p3 k v.1 (Tie.fin i), v), ?_, rfl, rfl⟩
            apply mem_prefix_of_le (hsplit2 ▸ hs) (hsplit2 ▸ hxmem)
            exact p3_kle (Or.inr ⟨rfl, hilen'⟩)
          have hflen : (A ++ groupFrom k v.1 0 V).length + 1 ≤
              s.length + 1 := by
            simp only [List.length_append, groupFrom_length]
            omega
          have hfound := dupCheckLoop_finds (A ++ groupFrom k v.1 0 V)
            (RawKey.p3 k v.1 (Tie.fin V.length), wl) B (s.length + 1)
            (hsplit2 ▸ hs) (hsplit2 ▸ hsh) rfl hcand hflen
          rw [← hsplit2] at hfound
          have hcontra : (Cursor.dupCheckLoop (RawKey.p2 k v.1) v
              (s.length + 1) ⟨true, s,
                seekLE s (RawKey.p3 k v.1 .top), .iter⟩).1 = true := by
            rw [hseek]
            exact hfound
          rw [hloop] at hcontra
          exact Bool.noConfusion hcontra
        have hmach : itSeekForPrev m2 (RawKey.p3 k v.1 Tie.top) =
            ⟨true, A ++ groupFrom k v.1 0 (V ++ wl :: []) ++ B,
              some (RawKey.p3 k v.1 (Tie.fin V.length)), .iter⟩ := by
          show (⟨m2.dup, m2.store,
            seekLE m2.store (RawKey.p3 k v.1 Tie.top), m2.st⟩ : Machine) = _
          rw [h1.1, h1.2, hst2, hseek, hsplit]
        rw [hmach, h1.1]
        have hflen2 : V.length + 2 ≤ s.length + 1 := by omega
        have hgo := @dupInsertLoop_go k v.1 v A B hsA hsB hAlow hBhigh
          hAgrp V wl [] (s.length + 1) hflen2
        simp only [List.tail_nil, List.append_nil] at hgo
        refine ⟨?_, hgo.2⟩
        rw [hgo.1]
        apply invS_AGB hsA hsB hAlow hBhigh
        · intro e he
          apply hvs
          rw [hsplit]
          rcases List.mem_append.mp he with he | he
          · exact List.mem_append.mpr
              (Or.inl (List.mem_append.mpr (Or.inl he)))
          · exact List.mem_append.mpr (Or.inr he)
        · intro k' sb' t t' v1 v2 hm1 hm2 htt
          have hsub : ∀ e : RawKey × Val, e ∈ A ++ B → e ∈ s := by
            intro e he
            rw [hsplit]
            rcases List.mem_append.mp he with he | he
            · exact List.mem_append.mpr
                (Or.inl (List.mem_append.mpr (Or.inl he)))
            · exact List.mem_append.mpr (Or.inr he)
          exact hgm k' sb' t t' v1 v2 (hsub _ hm1) (hsub _ hm2) htt
        · intro k' sb' t hmem
          by_cases hkk : k' = k ∧ sb' = v.1
          · obtain ⟨rfl, rfl⟩ := hkk
            exfalso
            rcases mem_keysS.mp hmem with ⟨w, hw⟩
            rcases List.mem_append.mp hw with hw | hw
            · exact hAgrp _ hw rfl
            · exact hBgrp _ hw rfl
          · have hks : RawKey.p3 k' sb' (Tie.fin (t + 1)) ∈ keysS s := by
              rcases mem_keysS.mp hmem with ⟨w, hw⟩
              refine mem_keysS.mpr ⟨w, ?_⟩
              rw [hsplit]
              rcases List.mem_append.mp hw with hw | hw
              · exact List.mem_append.mpr
                  (Or.inl (List.mem_append.mpr (Or.inl hw)))
              · exact List.mem_append.mpr (Or.inr hw)
            have h2 := htc k' sb' t hks
            rcases mem_keysS.mp h2 with ⟨w, hw⟩
            rw [hsplit] at hw
            rcases List.mem_append.mp hw with hw | hw
            · rcases List.mem_append.mp hw with hw | hw
              · exact mem_keysS.mpr ⟨w, List.mem_append.mpr (Or.inl hw)⟩
              · exfalso
                rcases groupFrom_mem hw with ⟨i, w', hpair, _⟩
                injection hpair with hpk _
                injection hpk with e1 e2 _
                exact hkk ⟨e1, e2⟩
            · exact mem_keysS.mpr ⟨w, List.mem_append.mpr (Or.inr hw)⟩
        · intro w hw
          rcases insBack_mem hw with rfl | hw
          · rfl
          · exact hv1 w hw
        · exact insBack_pairwise hpw hne
    · have hng : ∀ (t : Nat) (w : Val),
          (RawKey.p3 k v.1 (Tie.fin t), w) ∉ s := by
        intro t w hmem
        rcases seekLE_max_group hs hsh (mem_keysS.mpr ⟨w, hmem⟩) with
          ⟨g, hg1, hg2, hg3, _⟩
        rw [hg1] at hit
        rcases itemAt_eq_some hit with ⟨hp, _⟩
        injection hp with hp
        rw [← hp] at hgrp
        exact hgrp hg3
      rw [upsert_true_notin hit hgrp]
      exact ⟨invS_put_fresh hinv k v.1 v rfl hng, rfl⟩

theorem applyUpserts_invS :
    ∀ (ops : List (Nat × Val)) (m : Machine), m.dup = true → InvS m.store →
    (applyUpserts ops m).dup = true ∧ InvS (applyUpserts ops m).store := by
  intro ops
  induction ops with
  | nil =>
    intro m h1 h2
    exact ⟨h1, h2⟩
  | cons op rest ih =>
    intro m h1 h2
    rcases op with ⟨k, v⟩
    rcases m with ⟨d, s, p, st⟩
    cases d with
    | false => exact Bool.noConfusion h1
    | true =>
      show (applyUpserts rest (Cursor.upsert ⟨true, s, p, st⟩ k v)).dup =
        true ∧ _
      have hstep := @upsert_true_invS s p st k v h2
      exact ih _ hstep.2 hstep.1

/-- Decoded pairs of a store satisfying the write-path invariant come out
ordered by primary key, then by value. -/
theorem pairwise_decode {s : Store} (hinv : InvS s) :
    List.Pairwise pairLt (s.map decodeItem) := by
  rw [List.pairwise_map]
  apply List.Pairwise.imp_of_mem ?_ hinv.1
  intro a b ha hb hab
  rcases hinv.2.1 a ha with ⟨ka, sba, ta, hka, hva⟩
  rcases hinv.2.1 b hb with ⟨kb, sbb, tb, hkb, hvb⟩
  rw [hka, hkb] at hab
  show pairLt (a.1.primaryOf, a.2) (b.1.primaryOf, b.2)
  rw [hka, hkb]
  dsimp only [RawKey.primaryOf, pairLt]
  have hab' := hab
  dsimp only [RawKey.klt, RawKey.lex4, RawKey.enc, Tie.enc2] at hab'
  rcases Nat.lt_trichotomy ka kb with h | h | h
  · exact Or.inl h
  · subst h
    right
    refine ⟨rfl, ?_⟩
    by_cases hsbeq : sba = sbb
    · subst hsbeq
      have htab : ta < tb := by omega
      exact hinv.2.2.1 ka sba ta tb a.2 b.2
        (by rw [← hka, Prod.mk.eta]; exact ha)
        (by rw [← hkb, Prod.mk.eta]; exact hb) htab
    · have hsb : sba < sbb := by omega
      left
      rw [hva, hvb]
      exact hsb
  · exfalso
    omega

/-- C1: for a dupsort table, `walk(None)` after any sequence of `upsert`
calls from the empty table yields exactly the stored pairs, ordered first by
primary key and then by value, regardless of the order of the upserts. -/
theorem claim_C1_sorted_walk (ops : List (Nat × Val)) :
    walkAll (applyUpserts ops initDup) =
      (applyUpserts ops initDup).store.map decodeItem ∧
    List.Pairwise pairLt (walkAll (applyUpserts ops initDup)) := by
  have hinv0 : InvS (([] : Store)) := by
    refine ⟨List.Pairwise.nil, ?_, ?_, ?_⟩
    · intro e he
      exact absurd he (List.not_mem_nil e)
    · intro k sb t t' v v' h1 h2 _
      exact absurd h1 (List.not_mem_nil _)
    · intro k sb t h
      simp [keysS] at h
  have hinv := applyUpserts_invS ops initDup rfl hinv0
  rcases hM : applyUpserts ops initDup with ⟨d, s, p, st⟩
  rw [hM] at hinv
  have hw := @walkAll_eq d s p st hinv.2.1
  refine ⟨hw, ?_⟩
  rw [hw]
  exact pairwise_decode hinv.2
